import Mathlib

/-!
# tpunit++ : registration and execution engine

A shallow embedding of `tpunit++.hpp`.

* Objects created with `new` live in two typed heaps (`method` and `fixture`
  objects), addressed by natural numbers; address `0` is the null pointer and
  `new` hands out the next address never used before.
* The function-local statics of `__fixtures()` and `__stats()` are fields of
  `State`.
* `printf` output is a list of structured events; the same list also records
  which hook is invoked and which statement of a hook body is executed.
* Every `while` loop of the source takes a fuel argument (the number of
  times its condition may be tested) and yields `none` when the fuel runs
  out; a loop that calls another loop hands it the fuel it started with;
  dereferencing a null or dangling pointer and a
  write past the end of `_name` also yield `none`.
* The `int` counters are unbounded integers: signed overflow is undefined
  in C++, so the development speaks about runs that stay below `2^31`.
* A hook body is a sequence of the macros of the header, each with the
  values its arguments evaluate to, and of statements that leave the state of
  the engine alone.
* The arguments of a constructor call are evaluated from left to right; C++
  leaves the order open, and it decides only which address a method gets.

The definitions come first: the records, the hook bodies, the state,
registration, destruction, execution, then the Registry read as lists and the
runner in the words of the specification. The theorems follow.
-/

set_option linter.dupNamespace false

namespace tpunit

/-- An address; `0` is the null pointer. -/
abbrev Ptr := Nat

/-- A character string, as the list of its character codes. -/
abbrev CStr := List Nat

/-! ## The records -/

def AFTER_METHOD : Nat := 0
def AFTER_CLASS_METHOD : Nat := 1
def BEFORE_METHOD : Nat := 2
def BEFORE_CLASS_METHOD : Nat := 3
def TEST_METHOD : Nat := 4

/-- The struct `method`: `_name` is the content of the 256 character buffer. -/
structure method where
  _this : Nat
  _addr : Nat
  _name : List Nat
  _type : Nat
  _next : Ptr
deriving DecidableEq, Repr

/-- The copy loop of the constructor of `method`:
`while(name && *name != 0) { *dest++ = *name++; }`.
The first argument holds the characters found at `name` (the end of the list
reads as the terminating zero), `dest` is the index into `_name` that is
written next. A write at an index outside `_name[256]` has no defined
result. -/
def method.copy : List Nat → Nat → List Nat → Option (List Nat)
  | [], _, buf => some buf
  | c :: cs, dest, buf =>
    if c = 0 then some buf
    else if dest < 256 then method.copy cs (dest + 1) (buf.set dest c)
    else none

/-- The constructor `method::method(obj, addr, name, type)`. `raw` is what the
storage of `_name` holds before the constructor runs; `name = none` is a
null `name`. The closing `dest = 0;` assigns the local pointer and writes
nothing. -/
def method.method (raw : List Nat) (obj addr : Nat) (name : Option CStr) (type : Nat) :
    Option method :=
  match name with
  | none => some ⟨obj, addr, raw, type, 0⟩
  | some cs => (method.copy cs 0 raw).map fun buf => ⟨obj, addr, buf, type, 0⟩

/-- The struct `fixture`. -/
structure fixture where
  _afters : Ptr
  _after_classes : Ptr
  _befores : Ptr
  _before_classes : Ptr
  _tests : Ptr
  _next : Ptr
deriving DecidableEq, Repr

/-- The constructor `fixture::fixture()`. -/
def fixture.fixture : fixture := ⟨0, 0, 0, 0, 0, 0⟩

/-- The struct `stats`. -/
structure stats where
  _assertions : Int
  _failures : Int
  _passes : Int
  _traces : Int
deriving DecidableEq, Repr

/-- The constructor `stats::stats()`. -/
def stats.stats : stats := ⟨0, 0, 0, 0⟩

/-! ## Hook bodies -/

/-- What the `statement` argument of a throw-checking macro does. -/
inductive Thrown where
  | nothing
  | expected
  | unexpected
deriving DecidableEq, Repr

/-- A statement of a hook body: one of the macros of the header, with the
value its arguments evaluate to, or a statement that does not touch the
engine. -/
inductive Stmt where
  | ABORT
  | FAIL
  | PASS
  | TRACE (message : CStr)
  | ASSERT_TRUE (condition : Bool)
  | EXPECT_TRUE (condition : Bool)
  | ASSERT_FALSE (condition : Bool)
  | EXPECT_FALSE (condition : Bool)
  | ASSERT_EQUAL (lhs rhs : Int)
  | EXPECT_EQUAL (lhs rhs : Int)
  | ASSERT_NOT_EQUAL (lhs rhs : Int)
  | EXPECT_NOT_EQUAL (lhs rhs : Int)
  | ASSERT_GREATER_THAN (lhs rhs : Int)
  | EXPECT_GREATER_THAN (lhs rhs : Int)
  | ASSERT_GREATER_THAN_EQUAL (lhs rhs : Int)
  | EXPECT_GREATER_THAN_EQUAL (lhs rhs : Int)
  | ASSERT_LESS_THAN (lhs rhs : Int)
  | EXPECT_LESS_THAN (lhs rhs : Int)
  | ASSERT_LESS_THAN_EQUAL (lhs rhs : Int)
  | EXPECT_LESS_THAN_EQUAL (lhs rhs : Int)
  | ASSERT_THROW (statement : Thrown)
  | EXPECT_THROW (statement : Thrown)
  | ASSERT_NO_THROW (statement : Thrown)
  | EXPECT_NO_THROW (statement : Thrown)
  | ASSERT_ANY_THROW (statement : Thrown)
  | EXPECT_ANY_THROW (statement : Thrown)
  | other (tag : Nat)
deriving DecidableEq, Repr

/-- What a macro expands to: calls of `__assert` and `__trace`, and `return`. -/
inductive Op where
  | assert
  | trace (message : CStr)
  | ret
deriving DecidableEq, Repr

/-- The macro `#define ABORT() __assert(__FILE__, __LINE__); return;` -/
def ABORT : List Op := [Op.assert, Op.ret]
/-- The macro `#define FAIL()  __assert(__FILE__, __LINE__);` -/
def FAIL : List Op := [Op.assert]
/-- The macro `#define PASS()`, which expands to nothing. -/
def PASS : List Op := []
/-- The macro `#define TRACE(message) __trace(__FILE__, __LINE__, message);` -/
def TRACE (message : CStr) : List Op := [Op.trace message]

/-- The expansion of each macro, branch already selected by the values of
its arguments. -/
def Stmt.expand : Stmt → List Op
  | .ABORT => tpunit.ABORT
  | .FAIL => tpunit.FAIL
  | .PASS => tpunit.PASS
  | .TRACE message => tpunit.TRACE message
  | .ASSERT_TRUE condition => if condition then tpunit.PASS else tpunit.ABORT
  | .EXPECT_TRUE condition => if condition then tpunit.PASS else tpunit.FAIL
  | .ASSERT_FALSE condition => if condition then tpunit.ABORT else tpunit.PASS
  | .EXPECT_FALSE condition => if condition then tpunit.FAIL else tpunit.PASS
  | .ASSERT_EQUAL lhs rhs => if lhs = rhs then tpunit.PASS else tpunit.ABORT
  | .EXPECT_EQUAL lhs rhs => if lhs = rhs then tpunit.PASS else tpunit.FAIL
  | .ASSERT_NOT_EQUAL lhs rhs => if lhs ≠ rhs then tpunit.PASS else tpunit.ABORT
  | .EXPECT_NOT_EQUAL lhs rhs => if lhs ≠ rhs then tpunit.PASS else tpunit.FAIL
  | .ASSERT_GREATER_THAN lhs rhs => if lhs > rhs then tpunit.PASS else tpunit.ABORT
  | .EXPECT_GREATER_THAN lhs rhs => if lhs > rhs then tpunit.PASS else tpunit.FAIL
  | .ASSERT_GREATER_THAN_EQUAL lhs rhs => if lhs ≥ rhs then tpunit.PASS else tpunit.ABORT
  | .EXPECT_GREATER_THAN_EQUAL lhs rhs => if lhs ≥ rhs then tpunit.PASS else tpunit.FAIL
  | .ASSERT_LESS_THAN lhs rhs => if lhs < rhs then tpunit.PASS else tpunit.ABORT
  | .EXPECT_LESS_THAN lhs rhs => if lhs < rhs then tpunit.PASS else tpunit.FAIL
  | .ASSERT_LESS_THAN_EQUAL lhs rhs => if lhs ≤ rhs then tpunit.PASS else tpunit.ABORT
  | .EXPECT_LESS_THAN_EQUAL lhs rhs => if lhs ≤ rhs then tpunit.PASS else tpunit.FAIL
  | .ASSERT_THROW statement =>
    match statement with
    | .nothing => tpunit.ABORT
    | .expected => tpunit.PASS
    | .unexpected => tpunit.ABORT
  | .EXPECT_THROW statement =>
    match statement with
    | .nothing => tpunit.FAIL
    | .expected => tpunit.PASS
    | .unexpected => tpunit.FAIL
  | .ASSERT_NO_THROW statement =>
    match statement with
    | .nothing => tpunit.PASS
    | _ => tpunit.ABORT
  | .EXPECT_NO_THROW statement =>
    match statement with
    | .nothing => tpunit.PASS
    | _ => tpunit.FAIL
  | .ASSERT_ANY_THROW statement =>
    match statement with
    | .nothing => tpunit.ABORT
    | _ => tpunit.PASS
  | .EXPECT_ANY_THROW statement =>
    match statement with
    | .nothing => tpunit.FAIL
    | _ => tpunit.PASS
  | .other _ => []

/-- The statement is a `TRACE(message);`. -/
def Stmt.isTrace : Stmt → Bool
  | .TRACE _ => true
  | _ => false

/-- The bodies of the member functions: object and member address to body. -/
abbrev Program := Nat → Nat → List Stmt

/-! ## The state -/

/-- A line of output, or the record of an invocation. -/
inductive Event where
  | fixtureBegin
  | fixtureEnd
  | invoke (m : Ptr)
  | exec (st : Stmt)
  | assertLine (n : Int)
  | traceLine (n : Int) (message : CStr)
  | runLine (name : CStr)
  | passedLine (name : CStr)
  | failedLine (name : CStr)
  | summary (passes failures : Int)
deriving DecidableEq, Repr

/-- The heaps, the two statics and the output. Addresses from `brk` on have
never been handed out by `new`. -/
structure State where
  methods : Ptr → Option method
  fixtures : Ptr → Option fixture
  brk : Nat
  _fixtures : Ptr
  _stats : stats
  out : List Event

/-- The state before any fixture is constructed. -/
def State.init : State :=
  { methods := fun _ => none, fixtures := fun _ => none, brk := 1,
    _fixtures := 0, _stats := stats.stats, out := [] }

def State.emit (s : State) (e : Event) : State := { s with out := s.out ++ [e] }

/-- The expression `new method(...)` with the constructed record. -/
def State.newMethod (s : State) (m : method) : Ptr × State :=
  (s.brk, { s with methods := fun q => if q = s.brk then some m else s.methods q,
                   brk := s.brk + 1 })

/-- The expression `new fixture`. -/
def State.newFixture (s : State) : Ptr × State :=
  (s.brk, { s with fixtures := fun q => if q = s.brk then some fixture.fixture else s.fixtures q,
                   brk := s.brk + 1 })

def State.setMethod (s : State) (p : Ptr) (m : method) : State :=
  { s with methods := fun q => if q = p then some m else s.methods q }

def State.setFixture (s : State) (p : Ptr) (f : fixture) : State :=
  { s with fixtures := fun q => if q = p then some f else s.fixtures q }

/-- What registration builds and the runner only reads. -/
def State.heap (s : State) : (Ptr → Option method) × (Ptr → Option fixture) × Ptr × Nat :=
  (s.methods, s.fixtures, s._fixtures, s.brk)

/-- The characters `printf("%s", _name)` prints: up to the first zero. -/
def cstr (buf : List Nat) : CStr := buf.takeWhile (· ≠ 0)

/-! ## Registration -/

/-- What a `method**` points at: one of the five chain heads of a fixture
(selected by the role code) or the `_next` field of a method. -/
inductive Slot where
  | field (f : Ptr) (type : Nat)
  | next (m : Ptr)
deriving DecidableEq, Repr

def fixture.get (r : tpunit.fixture) (type : Nat) : Ptr :=
  if type = AFTER_METHOD then r._afters
  else if type = AFTER_CLASS_METHOD then r._after_classes
  else if type = BEFORE_METHOD then r._befores
  else if type = BEFORE_CLASS_METHOD then r._before_classes
  else r._tests

def fixture.set (r : tpunit.fixture) (type : Nat) (p : Ptr) : tpunit.fixture :=
  if type = AFTER_METHOD then { r with _afters := p }
  else if type = AFTER_CLASS_METHOD then { r with _after_classes := p }
  else if type = BEFORE_METHOD then { r with _befores := p }
  else if type = BEFORE_CLASS_METHOD then { r with _before_classes := p }
  else { r with _tests := p }

/-- Reading `*m`. -/
def State.load (s : State) : Slot → Option Ptr
  | .field f type => (s.fixtures f).map fun r => r.get type
  | .next m => (s.methods m).map fun r => r._next

/-- Writing `*m = p`. -/
def State.store (s : State) : Slot → Ptr → Option State
  | .field f type, p => (s.fixtures f).map fun r => s.setFixture f (r.set type p)
  | .next m, p => (s.methods m).map fun r => s.setMethod m { r with _next := p }

/-- The `switch(M->_type)` of `SET_FIXTURE_METHOD`; with no matching case
`m` stays null. -/
def chainSlot (f : Ptr) (type : Nat) : Option Slot :=
  if type ≤ TEST_METHOD then some (.field f type) else none

/-- The loop `while(*m && (*m)->_next) { m = &(*m)->_next; }`. -/
def seekLast : Nat → Slot → State → Option Slot
  | 0, _, _ => none
  | fuel + 1, m, s => do
    let p ← s.load m
    if p = 0 then some m
    else do
      let r ← s.methods p
      if r._next = 0 then some m else seekLast fuel (.next p) s

/-- The macro `SET_FIXTURE_METHOD(M)` inside the constructor, `f` being the
new fixture. -/
def SET_FIXTURE_METHOD (fuel : Nat) (f : Ptr) (M : Ptr) (s : State) : Option State :=
  if M = 0 then some s
  else do
    let r ← s.methods M
    let m ← chainSlot f r._type
    let m ← seekLast fuel m s
    let p ← s.load m
    if p ≠ 0 then do
      let r' ← s.methods p
      some (s.setMethod p { r' with _next := M })
    else s.store m M

/-- The loop `while(f && f->_next) { f = f->_next; }`. -/
def lastFixture : Nat → Ptr → State → Option Ptr
  | 0, _, _ => none
  | fuel + 1, f, s =>
    if f = 0 then some f
    else do
      let r ← s.fixtures f
      if r._next = 0 then some f else lastFixture fuel r._next s

/-- The thirty parameters `m0 ... m29`: the arguments given, then the
default `0`. -/
def params (args : List Ptr) : List Ptr := (List.range 30).map fun i => args.getD i 0

/-- The constructor `TestFixture::TestFixture(m0, ..., m29)`. -/
def TestFixture.TestFixture (fuel : Nat) (args : List Ptr) (s : State) : Option State := do
  let f ← lastFixture fuel s._fixtures s
  let (n, s1) := s.newFixture
  let s2 ←
    if f ≠ 0 then (s1.fixtures f).map fun r => s1.setFixture f { r with _next := n }
    else some { s1 with _fixtures := n }
  (params args).foldlM (fun st M => SET_FIXTURE_METHOD fuel n M st) s2

/-- The member `After(_method, _name)` of the fixture object `this`. -/
def After (raw : List Nat) (this addr : Nat) (name : Option CStr) (s : State) :
    Option (Ptr × State) :=
  (method.method raw this addr name AFTER_METHOD).map s.newMethod

/-- The member `AfterClass(_method, _name)`. -/
def AfterClass (raw : List Nat) (this addr : Nat) (name : Option CStr) (s : State) :
    Option (Ptr × State) :=
  (method.method raw this addr name AFTER_CLASS_METHOD).map s.newMethod

/-- The member `Before(_method, _name)`. -/
def Before (raw : List Nat) (this addr : Nat) (name : Option CStr) (s : State) :
    Option (Ptr × State) :=
  (method.method raw this addr name BEFORE_METHOD).map s.newMethod

/-- The member `BeforeClass(_method, _name)`. -/
def BeforeClass (raw : List Nat) (this addr : Nat) (name : Option CStr) (s : State) :
    Option (Ptr × State) :=
  (method.method raw this addr name BEFORE_CLASS_METHOD).map s.newMethod

/-- The member `Test(_method, _name)`. -/
def Test (raw : List Nat) (this addr : Nat) (name : Option CStr) (s : State) :
    Option (Ptr × State) :=
  (method.method raw this addr name TEST_METHOD).map s.newMethod

/-- The constructor `Tests() : TestFixture(0)`. -/
def Tests.Tests (fuel : Nat) (s : State) : Option State :=
  TestFixture.TestFixture fuel [0] s

/-! ## Destruction -/

/-- The expression `delete m` for a method. -/
def State.freeMethod (s : State) (p : Ptr) : State :=
  { s with methods := fun q => if q = p then none else s.methods q }

/-- The expression `delete f` for a fixture record. -/
def State.freeFixture (s : State) (p : Ptr) : State :=
  { s with fixtures := fun q => if q = p then none else s.fixtures q }

/-- The function `__delete_methods(m)`. -/
def __delete_methods : Nat → Ptr → State → Option State
  | 0, _, _ => none
  | fuel + 1, m, s =>
    if m = 0 then some s
    else do
      let r ← s.methods m
      let mnext := r._next
      __delete_methods fuel mnext (s.freeMethod m)

/-- The loop of `__delete_fixtures(f)`; `inner` is the fuel of each call of
`__delete_methods`. -/
def __delete_fixtures.loop (inner : Nat) : Nat → Ptr → State → Option State
  | 0, _, _ => none
  | fuel + 1, f, s =>
    if f = 0 then some s
    else do
      let fr ← s.fixtures f
      let s ← __delete_methods inner fr._afters s
      let fr ← s.fixtures f
      let s ← __delete_methods inner fr._after_classes s
      let fr ← s.fixtures f
      let s ← __delete_methods inner fr._befores s
      let fr ← s.fixtures f
      let s ← __delete_methods inner fr._before_classes s
      let fr ← s.fixtures f
      let s ← __delete_methods inner fr._tests s
      let fr ← s.fixtures f
      let fnext := fr._next
      __delete_fixtures.loop inner fuel fnext (s.freeFixture f)

/-- The function `__delete_fixtures(f)`. -/
def __delete_fixtures (fuel : Nat) (f : Ptr) (s : State) : Option State :=
  __delete_fixtures.loop fuel fuel f s

/-- The destructor `~TestFixture()`; it does not look at the object it
destructs. -/
def TestFixture.destructor (fuel : Nat) (s : State) : Option State := do
  let s ← __delete_fixtures fuel s._fixtures s
  some { s with _fixtures := 0 }

/-! ## Execution -/

/-- The function `__assert(_file, _line)`. -/
def __assert (s : State) : State :=
  let n := s._stats._assertions + 1
  { s with _stats := { s._stats with _assertions := n }, out := s.out ++ [Event.assertLine n] }

/-- The function `__trace(_file, _line, _message)`. -/
def __trace (message : CStr) (s : State) : State :=
  let n := s._stats._traces + 1
  { s with _stats := { s._stats with _traces := n },
           out := s.out ++ [Event.traceLine n message] }

/-- Running an expansion; the flag tells whether `return` was reached. -/
def runOps : List Op → State → State × Bool
  | [], s => (s, false)
  | .assert :: k, s => runOps k (__assert s)
  | .trace message :: k, s => runOps k (__trace message s)
  | .ret :: _, s => (s, true)

/-- Running the statements of a body in order, until one returns. -/
def runBody : List Stmt → State → State
  | [], s => s
  | st :: k, s =>
    let r := runOps st.expand (s.emit (.exec st))
    if r.2 then r.1 else runBody k r.1

/-- The call `(*m->_this.*m->_addr)()` for the method `r` stored at `m`. -/
def invoke (P : Program) (m : Ptr) (r : method) (s : State) : State :=
  runBody (P r._this r._addr) (s.emit (.invoke m))

/-- The function `__do_methods(m)`. -/
def __do_methods (P : Program) : Nat → Ptr → State → Option State
  | 0, _, _ => none
  | fuel + 1, m, s =>
    if m = 0 then some s
    else do
      let r ← s.methods m
      let s := invoke P m r s
      let r ← s.methods m
      __do_methods P fuel r._next s

/-- The loop of `__do_tests(f)` from the test `t` on; `f` is the fixture
record, `inner` the fuel of each call of `__do_methods`. -/
def __do_tests.loop (P : Program) (inner : Nat) : Nat → Ptr → Ptr → State → Option State
  | 0, _, _, _ => none
  | fuel + 1, f, t, s =>
    if t = 0 then some s
    else do
      let fr ← s.fixtures f
      let s ← __do_methods P inner fr._befores s
      let _prev_assertions := s._stats._assertions
      let tr ← s.methods t
      let s := s.emit (.runLine (cstr tr._name))
      let s := invoke P t tr s
      let tr ← s.methods t
      let s :=
        if _prev_assertions = s._stats._assertions then
          { s.emit (.passedLine (cstr tr._name)) with
              _stats := { s._stats with _passes := s._stats._passes + 1 } }
        else
          { s.emit (.failedLine (cstr tr._name)) with
              _stats := { s._stats with _failures := s._stats._failures + 1 } }
      let tr ← s.methods t
      let t := tr._next
      let fr ← s.fixtures f
      let s ← __do_methods P inner fr._afters s
      __do_tests.loop P inner fuel f t s

/-- The function `__do_tests(f)`. -/
def __do_tests (P : Program) (fuel : Nat) (f : Ptr) (s : State) : Option State := do
  let fr ← s.fixtures f
  __do_tests.loop P fuel fuel f fr._tests s

/-- The loop of `__do_run()` from the fixture `f` on; `inner` is the fuel of
each call of `__do_methods` and `__do_tests`. -/
def __do_run.loop (P : Program) (inner : Nat) : Nat → Ptr → State → Option State
  | 0, _, _ => none
  | fuel + 1, f, s =>
    if f = 0 then some s
    else do
      let s := s.emit .fixtureBegin
      let fr ← s.fixtures f
      let s ← __do_methods P inner fr._before_classes s
      let s ← __do_tests P inner f s
      let fr ← s.fixtures f
      let s ← __do_methods P inner fr._after_classes s
      let s := s.emit .fixtureEnd
      let fr ← s.fixtures f
      __do_run.loop P inner fuel fr._next s

/-- The function `__do_run()`: the returned value and the state left. -/
def __do_run (P : Program) (fuel : Nat) (s : State) : Option (Int × State) := do
  let s ← __do_run.loop P fuel fuel s._fixtures s
  let s := s.emit (.summary s._stats._passes s._stats._failures)
  some (s._stats._failures, s)

/-- The function `Tests::Run()`. -/
def Tests.Run (P : Program) (fuel : Nat) (s : State) : Option (Int × State) :=
  __do_run P fuel s

/-! ## The registry as lists -/

/-- The content of one fixture record: its address and its five chains, each
as the list of the addresses of its methods. -/
structure FixView where
  ptr : Ptr
  afters : List Ptr
  after_classes : List Ptr
  befores : List Ptr
  before_classes : List Ptr
  tests : List Ptr
deriving DecidableEq, Repr

/-- Every method of a fixture. -/
def FixView.all (v : FixView) : List Ptr :=
  v.afters ++ v.after_classes ++ v.befores ++ v.before_classes ++ v.tests

/-- The chain that starts at `p` and follows `_next` to null visits exactly
the methods `ms`. -/
def isChain (h : Ptr → Option method) : Ptr → List Ptr → Bool
  | p, [] => p == 0
  | p, q :: qs =>
    p == q && q != 0 &&
      match h q with
      | some r => isChain h r._next qs
      | none => false

/-- The list of fixture records that starts at `p` visits exactly `fs`. -/
def isFixChain (h : Ptr → Option fixture) : Ptr → List Ptr → Bool
  | p, [] => p == 0
  | p, q :: qs =>
    p == q && q != 0 &&
      match h q with
      | some r => isFixChain h r._next qs
      | none => false

/-- The five chains of the record `fr` are the lists of `v`. -/
def chainsOk (hM : Ptr → Option method) (fr : fixture) (v : FixView) : Prop :=
  isChain hM fr._afters v.afters = true ∧
  isChain hM fr._after_classes v.after_classes = true ∧
  isChain hM fr._befores v.befores = true ∧
  isChain hM fr._before_classes v.before_classes = true ∧
  isChain hM fr._tests v.tests = true

/-- The record at `v.ptr` has the five chains of `v`. -/
def viewOk (s : State) (v : FixView) : Bool :=
  match s.fixtures v.ptr with
  | none => false
  | some fr =>
    isChain s.methods fr._afters v.afters &&
    isChain s.methods fr._after_classes v.after_classes &&
    isChain s.methods fr._befores v.befores &&
    isChain s.methods fr._before_classes v.before_classes &&
    isChain s.methods fr._tests v.tests

/-- The Registry of `s` is the list `R` of fixtures, in this order. -/
def represents (s : State) (R : List FixView) : Bool :=
  isFixChain s.fixtures s._fixtures (R.map fun v => v.ptr) && R.all (viewOk s)

/-- No record is shared: the fixtures of `R` are distinct, all their
methods are distinct, and all of them were handed out by `new`. -/
def separated (s : State) (R : List FixView) : Bool :=
  decide (R.map fun v => v.ptr).Nodup &&
  decide (R.flatMap FixView.all).Nodup &&
  R.all (fun v => decide (v.ptr < s.brk) && v.all.all fun m => decide (m < s.brk)) &&
  decide (0 < s.brk)

/-- The number of records of `R`, fixtures and methods: fuel above it lets
every loop over `R` finish. -/
def span : List FixView → Nat
  | [] => 0
  | v :: R => v.all.length + 1 + span R

/-- The list of `v` for the role code `type`. -/
def FixView.chain (v : FixView) (type : Nat) : List Ptr :=
  if type = AFTER_METHOD then v.afters
  else if type = AFTER_CLASS_METHOD then v.after_classes
  else if type = BEFORE_METHOD then v.befores
  else if type = BEFORE_CLASS_METHOD then v.before_classes
  else v.tests

/-- The view with `M` appended to the list of the role code `type`. -/
def FixView.push (v : FixView) (type : Nat) (M : Ptr) : FixView :=
  if type = AFTER_METHOD then { v with afters := v.afters ++ [M] }
  else if type = AFTER_CLASS_METHOD then { v with after_classes := v.after_classes ++ [M] }
  else if type = BEFORE_METHOD then { v with befores := v.befores ++ [M] }
  else if type = BEFORE_CLASS_METHOD then { v with before_classes := v.before_classes ++ [M] }
  else { v with tests := v.tests ++ [M] }

/-- The role code of the method stored at `M`, if there is one. -/
def roleOf (hM : Ptr → Option method) (M : Ptr) : Option Nat := (hM M).map fun r => r._type

/-- The descriptors of `args` that are not null and have the role code
`type`, in the order supplied. -/
def chainOf (hM : Ptr → Option method) (args : List Ptr) (type : Nat) : List Ptr :=
  args.filter fun M => M != 0 && roleOf hM M == some type

/-- The fixture record a constructor call with `args` is to append: a fresh
record at `ptr` whose five chains hold the descriptors of their role. -/
def newView (hM : Ptr → Option method) (ptr : Ptr) (args : List Ptr) : FixView :=
  { ptr := ptr,
    afters := chainOf hM args AFTER_METHOD,
    after_classes := chainOf hM args AFTER_CLASS_METHOD,
    befores := chainOf hM args BEFORE_METHOD,
    before_classes := chainOf hM args BEFORE_CLASS_METHOD,
    tests := chainOf hM args TEST_METHOD }

/-- A record with five empty chains. -/
def emptyView (ptr : Ptr) : FixView :=
  { ptr := ptr, afters := [], after_classes := [], befores := [], before_classes := [],
    tests := [] }

/-- The record with its link cleared: what a method is apart from its place
in a chain. -/
def method.unlinked (r : tpunit.method) : tpunit.method := { r with _next := 0 }

/-- A descriptor as `After`, `AfterClass`, `Before`, `BeforeClass` or `Test`
returns it, not yet given to a constructor: a method with one of the five
roles and a null link, which no chain of `R` holds. -/
def freshDescriptor (s : State) (R : List FixView) (M : Ptr) : Bool :=
  match s.methods M with
  | none => false
  | some r =>
    decide (r._next = 0) && decide (r._type ≤ TEST_METHOD) && decide (M < s.brk) &&
      decide (M ∉ R.flatMap FixView.all)

/-- Every method of `h` is in `h'` the same apart from its link, and `h'`
holds no other. -/
def methodsKept (h h' : Ptr → Option method) : Prop :=
  ∀ q, (h' q).map method.unlinked = (h q).map method.unlinked

/-! ## Constructing fixture objects -/

/-- Which of the five registering members a derived constructor calls. -/
inductive Role where
  | after
  | afterClass
  | before
  | beforeClass
  | test
deriving DecidableEq, Repr

/-- The role code the member stores in `_type`. -/
def Role.code : Role → Nat
  | .after => AFTER_METHOD
  | .afterClass => AFTER_CLASS_METHOD
  | .before => BEFORE_METHOD
  | .beforeClass => BEFORE_CLASS_METHOD
  | .test => TEST_METHOD

/-- One argument of the base constructor as the derived class writes it: a
call such as `TEST(C::m)`, with the storage the new method is given. -/
structure Descriptor where
  role : Role
  addr : Nat
  name : Option CStr
  raw : List Nat
deriving DecidableEq, Repr

/-- Evaluating one such argument for the fixture object `this`. -/
def describe (this : Nat) (d : Descriptor) (s : State) : Option (Ptr × State) :=
  match d.role with
  | .after => After d.raw this d.addr d.name s
  | .afterClass => AfterClass d.raw this d.addr d.name s
  | .before => Before d.raw this d.addr d.name s
  | .beforeClass => BeforeClass d.raw this d.addr d.name s
  | .test => Test d.raw this d.addr d.name s

/-- Evaluating the arguments from left to right; `none` is a null argument. -/
def describeAll (this : Nat) : List (Option Descriptor) → State → Option (List Ptr × State)
  | [], s => some ([], s)
  | none :: ds, s => (describeAll this ds s).map fun r => (0 :: r.1, r.2)
  | some d :: ds, s =>
    (describe this d s).bind fun r =>
      (describeAll this ds r.2).map fun k => (r.1 :: k.1, k.2)

/-- Constructing the fixture object `this` of a class whose constructor hands
the arguments `ds` to `TestFixture`. -/
def construct (fuel : Nat) (this : Nat) (ds : List (Option Descriptor)) (s : State) :
    Option State :=
  (describeAll this ds s).bind fun r => TestFixture.TestFixture fuel r.1 r.2

/-- Constructing fixture objects one after the other. -/
def constructAll (fuel : Nat) : List (Nat × List (Option Descriptor)) → State → Option State
  | [], s => some s
  | c :: cs, s => (construct fuel c.1 c.2 s).bind fun s1 => constructAll fuel cs s1

/-- The number of arguments that are not null. -/
def countDescriptors : List (Option Descriptor) → Nat
  | [] => 0
  | none :: ds => countDescriptors ds
  | some _ :: ds => countDescriptors ds + 1

/-- The addresses of the arguments of role code `type`, when the first
method made is stored at `b` and each next one at the next address. -/
def layoutChain (type : Nat) : Nat → List (Option Descriptor) → List Ptr
  | _, [] => []
  | b, none :: ds => layoutChain type b ds
  | b, some d :: ds =>
    if d.role.code = type then b :: layoutChain type (b + 1) ds
    else layoutChain type (b + 1) ds

/-- The record one construction appends, when the first address handed out
is `b`: the methods come first, the fixture record after them. -/
def layoutView (b : Nat) (ds : List (Option Descriptor)) : FixView :=
  { ptr := b + countDescriptors ds,
    afters := layoutChain AFTER_METHOD b ds,
    after_classes := layoutChain AFTER_CLASS_METHOD b ds,
    befores := layoutChain BEFORE_METHOD b ds,
    before_classes := layoutChain BEFORE_CLASS_METHOD b ds,
    tests := layoutChain TEST_METHOD b ds }

/-- The Registry a sequence of constructions builds, when the first address
handed out is `b`: one record for each construction, in their order. -/
def layout : Nat → List (Nat × List (Option Descriptor)) → List FixView
  | _, [] => []
  | b, c :: cs => layoutView b c.2 :: layout (b + countDescriptors c.2 + 1) cs

/-- The names of the arguments fit the 256 characters of `_name`. -/
def namesFit (ds : List (Option Descriptor)) : Bool :=
  ds.all fun d =>
    match d with
    | none => true
    | some d =>
      match d.name with
      | none => true
      | some cs => (method.copy cs 0 d.raw).isSome


/-! ## The runner in the words of the specification -/

/-- Execute every hook of a chain, in registration order. -/
def runHooks (P : Program) : List Ptr → State → State
  | [], s => s
  | m :: ms, s =>
    match s.methods m with
    | some r => runHooks P ms (invoke P m r s)
    | none => s

/-- The test is classified PASS and the pass counter increments. -/
def recordPass (name : CStr) (s : State) : State :=
  { s.emit (.passedLine name) with _stats := { s._stats with _passes := s._stats._passes + 1 } }

/-- The test is classified FAIL and the failure counter increments. -/
def recordFail (name : CStr) (s : State) : State :=
  { s.emit (.failedLine name) with
      _stats := { s._stats with _failures := s._stats._failures + 1 } }

/-- Snapshot the assertion counter, invoke the test body, compare. -/
def runTestBody (P : Program) (t : Ptr) (s : State) : State :=
  match s.methods t with
  | none => s
  | some tr =>
    let snapshot := s._stats._assertions
    let s1 := invoke P t tr (s.emit (.runLine (cstr tr._name)))
    if snapshot = s1._stats._assertions then recordPass (cstr tr._name) s1
    else recordFail (cstr tr._name) s1

/-- Steps 3a to 3e for one TEST hook. -/
def runTest (P : Program) (v : FixView) (t : Ptr) (s : State) : State :=
  runHooks P v.afters (runTestBody P t (runHooks P v.befores s))

/-- Step 3: every TEST hook, in registration order. -/
def runTests (P : Program) (v : FixView) : List Ptr → State → State
  | [], s => s
  | t :: ts, s => runTests P v ts (runTest P v t s)

/-- Steps 1 to 5 for one fixture. -/
def runFixture (P : Program) (v : FixView) (s : State) : State :=
  let s := s.emit .fixtureBegin
  let s := runHooks P v.before_classes s
  let s := runTests P v v.tests s
  let s := runHooks P v.after_classes s
  s.emit .fixtureEnd

/-- Every fixture, in registration order. -/
def runAll (P : Program) : List FixView → State → State
  | [], s => s
  | v :: R, s => runAll P R (runFixture P v s)

/-- The summary and the process-level result. -/
def runSpec (P : Program) (R : List FixView) (s : State) : Int × State :=
  let s := runAll P R s
  (s._stats._failures, s.emit (.summary s._stats._passes s._stats._failures))

/-- The hooks invoked, in the order of their invocation. -/
def invocations (out : List Event) : List Ptr :=
  out.filterMap fun e =>
    match e with
    | .invoke m => some m
    | _ => none

/-- The sequence of one fixture: its BEFORE_CLASS hooks, then for each TEST
hook the BEFORE_EACH hooks, the test and the AFTER_EACH hooks, then its
AFTER_CLASS hooks. -/
def FixView.hookOrder (v : FixView) : List Ptr :=
  v.before_classes ++ v.tests.flatMap (fun t => v.befores ++ [t] ++ v.afters) ++ v.after_classes

/-- The sequence of a whole run: fixture after fixture in Registry order. -/
def hookOrder (R : List FixView) : List Ptr := R.flatMap FixView.hookOrder

/-- By how much a body raises the assertion counter: its value after the
body has run from the fresh Recorder. -/
def raised (b : List Stmt) : Int := (runBody b State.init)._stats._assertions

/-- The body of the test stored at `t` raises the assertion counter. -/
def testFails (P : Program) (hM : Ptr → Option method) (t : Ptr) : Bool :=
  match hM t with
  | some r => decide (raised (P r._this r._addr) ≠ 0)
  | none => false

/-- The statements executed, in the order of their execution. -/
def executed (out : List Event) : List Stmt :=
  out.filterMap fun e =>
    match e with
    | .exec st => some st
    | _ => none

/-- The number of tests of `R` whose body raises the assertion counter. -/
def failingTests (P : Program) (hM : Ptr → Option method) : List FixView → Nat
  | [] => 0
  | v :: R => (v.tests.countP fun t => testFails P hM t) + failingTests P hM R

/-- The number of tests of `R` whose body leaves the assertion counter
unchanged. -/
def passingTests (P : Program) (hM : Ptr → Option method) : List FixView → Nat
  | [] => 0
  | v :: R => (v.tests.countP fun t => !testFails P hM t) + passingTests P hM R

/-! ## A small program

Fixture `1` registers BEFORE_CLASS `b1`, the tests `t1` (no assertion) and `t2`
(one `FAIL()`), and AFTER_CLASS `a1`. Fixture `2` registers a BEFORE hook that
traces, the tests `t3` (`ABORT(); FAIL();`) and `t4` (two failures that do not
abort), and an AFTER hook that fails. -/

def Demo.program : Program := fun this addr =>
  match this, addr with
  | 1, 2 => [.FAIL]
  | 2, 0 => [.TRACE [104, 105]]
  | 2, 1 => [.ABORT, .FAIL]
  | 2, 2 => [.EXPECT_TRUE false, .other 0, .FAIL, .TRACE []]
  | 2, 3 => [.FAIL]
  | _, _ => []

/-- The storage a `new method` is given in the small program. -/
def Demo.raw : List Nat := List.replicate 256 0

/-- The constructor arguments of the first fixture. -/
def Demo.firstArgs : List (Option Descriptor) :=
  [some ⟨.beforeClass, 0, some [98, 49], Demo.raw⟩, some ⟨.test, 1, some [116, 49], Demo.raw⟩,
   some ⟨.test, 2, some [116, 50], Demo.raw⟩, some ⟨.afterClass, 3, some [97, 49], Demo.raw⟩]

/-- The constructor arguments of the second fixture, a null one among them. -/
def Demo.secondArgs : List (Option Descriptor) :=
  [some ⟨.before, 0, some [98], Demo.raw⟩, some ⟨.test, 1, some [116, 51], Demo.raw⟩, none,
   some ⟨.test, 2, some [116, 52], Demo.raw⟩, some ⟨.after, 3, some [97], Demo.raw⟩]

/-- The two constructions of the small program. -/
def Demo.constructions : List (Nat × List (Option Descriptor)) :=
  [(1, Demo.firstArgs), (2, Demo.secondArgs)]

/-- Constructing the two fixtures, one after the other. -/
def Demo.build : Option State := constructAll 40 Demo.constructions State.init

/-- The first fixture constructed and the arguments of the second evaluated:
the pointers to hand to the constructor, and the state it starts in. -/
def Demo.described : List Ptr × State :=
  ((construct 40 1 Demo.firstArgs State.init).bind
    (describeAll 2 Demo.secondArgs)).getD ([], State.init)

def Demo.state : State := Demo.build.getD State.init

/-- The first fixture of the small program as lists. -/
def Demo.first : FixView :=
  { ptr := 5, afters := [], after_classes := [4], befores := [], before_classes := [1],
    tests := [2, 3] }

/-- The second fixture of the small program as lists. -/
def Demo.second : FixView :=
  { ptr := 10, afters := [9], after_classes := [], befores := [6], before_classes := [],
    tests := [7, 8] }

def Demo.registry : List FixView := [Demo.first, Demo.second]

/-- One fixture with one test, whose body is `FAIL(); FAIL();`. -/
def Twice.program : Program := fun _ _ => [.FAIL, .FAIL]

/-- Constructing the fixture of `Twice.program`. -/
def Twice.build : Option State :=
  construct 40 1 [some ⟨.test, 0, some [116], List.replicate 256 0⟩] State.init

def Twice.state : State := Twice.build.getD State.init

def Twice.registry : List FixView :=
  [{ ptr := 2, afters := [], after_classes := [], befores := [], before_classes := [],
     tests := [1] }]

/-- The names printed in the RUN lines, in their order. -/
def printedNames (out : List Event) : List CStr :=
  out.filterMap fun e =>
    match e with
    | .runLine name => some name
    | _ => none

/-- One fixture with one test named `t`, the storage of whose method held
the character `1` everywhere before the constructor ran. -/
def Garbled.build : Option State :=
  construct 40 1 [some ⟨.test, 0, some [116], List.replicate 256 1⟩] State.init

def Garbled.state : State := Garbled.build.getD State.init

/-- A program whose hooks fail and whose tests do not: on the second fixture
of the small program the BEFORE hook aborts and the AFTER hook fails. -/
def Demo.failingHooks : Program := fun this addr =>
  match this, addr with
  | 2, 0 => [.ABORT]
  | 2, 3 => [.FAIL]
  | _, _ => []

/-- Two constructions, the first of a fixture without a TEST hook. -/
def Bare.constructions : List (Nat × List (Option Descriptor)) :=
  [(1, [some ⟨.beforeClass, 0, some [98], Demo.raw⟩, some ⟨.afterClass, 1, some [97], Demo.raw⟩]),
   (2, [some ⟨.test, 0, some [116], Demo.raw⟩])]

def Bare.state : State := (constructAll 40 Bare.constructions State.init).getD State.init

/-- The fixture without a TEST hook as lists. -/
def Bare.first : FixView :=
  { ptr := 3, afters := [], after_classes := [2], befores := [], before_classes := [1],
    tests := [] }

/-- The fixture with the test as lists. -/
def Bare.second : FixView :=
  { ptr := 5, afters := [], after_classes := [], befores := [], before_classes := [],
    tests := [4] }

/-- By how much a body raises the trace counter: its value after the body
has run from the fresh Recorder. -/
def traced (b : List Stmt) : Int := (runBody b State.init)._stats._traces

/-- The body of the method stored at `m`. -/
def bodyOf (P : Program) (hM : Ptr → Option method) (m : Ptr) : List Stmt :=
  match hM m with
  | some r => P r._this r._addr
  | none => []

/-- By how much the bodies of the hooks `ms`, invoked one after the other,
raise the assertion counter. -/
def raisedBy (P : Program) (hM : Ptr → Option method) (ms : List Ptr) : Int :=
  (ms.map fun m => raised (bodyOf P hM m)).sum

/-- By how much the bodies of the hooks `ms`, invoked one after the other,
raise the trace counter. -/
def tracedBy (P : Program) (hM : Ptr → Option method) (ms : List Ptr) : Int :=
  (ms.map fun m => traced (bodyOf P hM m)).sum

/-! # Theorems -/

/-! ## The runner leaves the heaps alone -/

theorem heap_methods {s s' : State} (h : s'.heap = s.heap) : s'.methods = s.methods :=
  congrArg (fun x => x.1) h

theorem heap_fixtures {s s' : State} (h : s'.heap = s.heap) : s'.fixtures = s.fixtures :=
  congrArg (fun x => x.2.1) h

theorem heap_root {s s' : State} (h : s'.heap = s.heap) : s'._fixtures = s._fixtures :=
  congrArg (fun x => x.2.2.1) h

theorem heap_brk {s s' : State} (h : s'.heap = s.heap) : s'.brk = s.brk :=
  congrArg (fun x => x.2.2.2) h

@[simp] theorem emit_heap (s : State) (e : Event) : (s.emit e).heap = s.heap := rfl

@[simp] theorem emit_stats (s : State) (e : Event) : (s.emit e)._stats = s._stats := rfl

@[simp] theorem assert_heap (s : State) : (__assert s).heap = s.heap := rfl

@[simp] theorem trace_heap (msg : CStr) (s : State) : (__trace msg s).heap = s.heap := rfl

@[simp] theorem recordPass_heap (n : CStr) (s : State) : (recordPass n s).heap = s.heap := rfl

@[simp] theorem recordFail_heap (n : CStr) (s : State) : (recordFail n s).heap = s.heap := rfl

@[simp] theorem runOps_heap (ops : List Op) (s : State) : (runOps ops s).1.heap = s.heap := by
  induction ops generalizing s with
  | nil => rfl
  | cons o k ih => cases o <;> simp [runOps, ih]

@[simp] theorem runBody_heap (b : List Stmt) (s : State) : (runBody b s).heap = s.heap := by
  induction b generalizing s with
  | nil => rfl
  | cons st k ih =>
    simp only [runBody]
    split <;> simp [ih]

@[simp] theorem invoke_heap (P : Program) (m : Ptr) (r : method) (s : State) :
    (invoke P m r s).heap = s.heap := by
  simp [invoke]

@[simp] theorem runHooks_heap (P : Program) (ms : List Ptr) (s : State) :
    (runHooks P ms s).heap = s.heap := by
  induction ms generalizing s with
  | nil => rfl
  | cons m k ih =>
    simp only [runHooks]
    split <;> simp [ih]

@[simp] theorem runTestBody_heap (P : Program) (t : Ptr) (s : State) :
    (runTestBody P t s).heap = s.heap := by
  simp only [runTestBody]
  split
  · rfl
  · split <;> simp

@[simp] theorem runTest_heap (P : Program) (v : FixView) (t : Ptr) (s : State) :
    (runTest P v t s).heap = s.heap := by
  simp [runTest]

@[simp] theorem runTests_heap (P : Program) (v : FixView) (ts : List Ptr) (s : State) :
    (runTests P v ts s).heap = s.heap := by
  induction ts generalizing s with
  | nil => rfl
  | cons t k ih => simp [runTests, ih]

@[simp] theorem runFixture_heap (P : Program) (v : FixView) (s : State) :
    (runFixture P v s).heap = s.heap := by
  simp [runFixture]

@[simp] theorem runAll_heap (P : Program) (R : List FixView) (s : State) :
    (runAll P R s).heap = s.heap := by
  induction R generalizing s with
  | nil => rfl
  | cons v k ih => simp [runAll, ih]

/-! ## The loops of the runner follow the chains -/

theorem isChain_nil {h : Ptr → Option method} {p : Ptr} : isChain h p [] = true ↔ p = 0 := by
  simp [isChain]

theorem isChain_cons {h : Ptr → Option method} {p q : Ptr} {qs : List Ptr} :
    isChain h p (q :: qs) = true ↔
      p = q ∧ q ≠ 0 ∧ ∃ r, h q = some r ∧ isChain h r._next qs = true := by
  simp only [isChain, Bool.and_eq_true, beq_iff_eq, bne_iff_ne, ne_eq]
  cases h q <;> simp [and_assoc]

theorem isFixChain_nil {h : Ptr → Option fixture} {p : Ptr} :
    isFixChain h p [] = true ↔ p = 0 := by
  simp [isFixChain]

theorem isFixChain_cons {h : Ptr → Option fixture} {p q : Ptr} {qs : List Ptr} :
    isFixChain h p (q :: qs) = true ↔
      p = q ∧ q ≠ 0 ∧ ∃ r, h q = some r ∧ isFixChain h r._next qs = true := by
  simp only [isFixChain, Bool.and_eq_true, beq_iff_eq, bne_iff_ne, ne_eq]
  cases h q <;> simp [and_assoc]

theorem do_methods_chain (P : Program) (ms : List Ptr) :
    ∀ (fuel : Nat) (p : Ptr) (s : State), isChain s.methods p ms = true → ms.length < fuel →
      __do_methods P fuel p s = some (runHooks P ms s) := by
  induction ms with
  | nil =>
    intro fuel p s hc hf
    obtain ⟨n, rfl⟩ : ∃ n, fuel = n + 1 := ⟨fuel - 1, by simp at hf; omega⟩
    simp [__do_methods, runHooks, isChain_nil.mp hc]
  | cons m k ih =>
    intro fuel p s hc hf
    obtain ⟨n, rfl⟩ : ∃ n, fuel = n + 1 := ⟨fuel - 1, by simp at hf; omega⟩
    obtain ⟨rfl, hne, r, hr, hk⟩ := isChain_cons.mp hc
    have hm : (invoke P p r s).methods = s.methods := heap_methods (invoke_heap P p r s)
    have hk' : isChain (invoke P p r s).methods r._next k = true := by rw [hm]; exact hk
    simp only [__do_methods, hne, if_false, hr, Option.bind_eq_bind, Option.some_bind, hm,
      runHooks]
    exact ih n r._next _ hk' (by simp at hf; omega)

/-- One turn of the loop of `__do_tests`, its steps named. -/
theorem do_tests_loop_succ (P : Program) (inner fuel : Nat) (f t : Ptr) (s : State) :
    __do_tests.loop P inner (fuel + 1) f t s =
      if t = 0 then some s
      else
        (s.fixtures f).bind fun fr =>
        (__do_methods P inner fr._befores s).bind fun s1 =>
        (s1.methods t).bind fun tr =>
        ((invoke P t tr (s1.emit (.runLine (cstr tr._name)))).methods t).bind fun tr2 =>
        ((if s1._stats._assertions =
              (invoke P t tr (s1.emit (.runLine (cstr tr._name))))._stats._assertions
            then recordPass (cstr tr2._name) (invoke P t tr (s1.emit (.runLine (cstr tr._name))))
            else recordFail (cstr tr2._name)
              (invoke P t tr (s1.emit (.runLine (cstr tr._name))))).methods t).bind fun tr3 =>
        ((if s1._stats._assertions =
              (invoke P t tr (s1.emit (.runLine (cstr tr._name))))._stats._assertions
            then recordPass (cstr tr2._name) (invoke P t tr (s1.emit (.runLine (cstr tr._name))))
            else recordFail (cstr tr2._name)
              (invoke P t tr (s1.emit (.runLine (cstr tr._name))))).fixtures f).bind fun fr2 =>
        (__do_methods P inner fr2._afters
          (if s1._stats._assertions =
              (invoke P t tr (s1.emit (.runLine (cstr tr._name))))._stats._assertions
            then recordPass (cstr tr2._name) (invoke P t tr (s1.emit (.runLine (cstr tr._name))))
            else recordFail (cstr tr2._name)
              (invoke P t tr (s1.emit (.runLine (cstr tr._name)))))).bind fun s4 =>
        __do_tests.loop P inner fuel f tr3._next s4 := by
  rfl

theorem runTestBody_eq (P : Program) (t : Ptr) (r : method) (s : State)
    (hr : s.methods t = some r) :
    runTestBody P t s =
      if s._stats._assertions =
          (invoke P t r (s.emit (.runLine (cstr r._name))))._stats._assertions
      then recordPass (cstr r._name) (invoke P t r (s.emit (.runLine (cstr r._name))))
      else recordFail (cstr r._name) (invoke P t r (s.emit (.runLine (cstr r._name)))) := by
  simp [runTestBody, hr]

theorem do_tests_loop_chain (P : Program) (v : FixView) (inner : Nat) (f : Ptr) (fr : fixture)
    (hM : Ptr → Option method) (hF : Ptr → Option fixture)
    (hfr : hF f = some fr)
    (hb : isChain hM fr._befores v.befores = true) (hbn : v.befores.length < inner)
    (ha : isChain hM fr._afters v.afters = true) (han : v.afters.length < inner)
    (ts : List Ptr) :
    ∀ (fuel : Nat) (t : Ptr) (s : State), s.methods = hM → s.fixtures = hF →
      isChain hM t ts = true → ts.length < fuel →
      __do_tests.loop P inner fuel f t s = some (runTests P v ts s) := by
  induction ts with
  | nil =>
    intro fuel t s _ _ hc hf
    obtain ⟨n, rfl⟩ : ∃ n, fuel = n + 1 := ⟨fuel - 1, by simp at hf; omega⟩
    simp [__do_tests.loop, runTests, isChain_nil.mp hc]
  | cons t0 k ih =>
    intro fuel t s hsM hsF hc hf
    obtain ⟨n, rfl⟩ : ∃ n, fuel = n + 1 := ⟨fuel - 1, by simp at hf; omega⟩
    obtain ⟨rfl, hne, r, hr, hk⟩ := isChain_cons.mp hc
    have e1 : __do_methods P inner fr._befores s = some (runHooks P v.befores s) :=
      do_methods_chain P v.befores inner _ s (by rw [hsM]; exact hb) hbn
    have m1 : (runHooks P v.befores s).methods = hM := by
      rw [heap_methods (runHooks_heap P _ s)]; exact hsM
    have hr1 : (runHooks P v.befores s).methods t = some r := by rw [m1]; exact hr
    have m2 : (runTestBody P t (runHooks P v.befores s)).methods = hM := by
      rw [heap_methods (runTestBody_heap P t _)]; exact m1
    have f2 : (runTestBody P t (runHooks P v.befores s)).fixtures = hF := by
      rw [heap_fixtures (runTestBody_heap P t _), heap_fixtures (runHooks_heap P _ s)]
      exact hsF
    have e2 : __do_methods P inner fr._afters (runTestBody P t (runHooks P v.befores s))
        = some (runHooks P v.afters (runTestBody P t (runHooks P v.befores s))) :=
      do_methods_chain P v.afters inner _ _ (by rw [m2]; exact ha) han
    have m3 : (runTest P v t s).methods = hM := by
      rw [heap_methods (runTest_heap P v t s)]; exact hsM
    have f3 : (runTest P v t s).fixtures = hF := by
      rw [heap_fixtures (runTest_heap P v t s)]; exact hsF
    have step := ih n r._next (runTest P v t s) m3 f3 hk (by simp at hf; omega)
    have mi : (invoke P t r ((runHooks P v.befores s).emit
        (Event.runLine (cstr r._name)))).methods t = some r := by
      rw [heap_methods (invoke_heap P t r _), heap_methods (emit_heap _ _)]; exact hr1
    rw [runTests, ← step, do_tests_loop_succ, if_neg hne, hsF, hfr, Option.some_bind, e1,
      Option.some_bind, hr1, Option.some_bind, mi, Option.some_bind,
      ← runTestBody_eq P t r _ hr1, m2, hr, Option.some_bind, f2, hfr, Option.some_bind, e2,
      Option.some_bind]
    rfl

theorem viewOk_iff {s : State} {v : FixView} :
    viewOk s v = true ↔ ∃ fr, s.fixtures v.ptr = some fr ∧ chainsOk s.methods fr v := by
  unfold viewOk chainsOk
  cases s.fixtures v.ptr <;> simp [and_assoc]

theorem represents_iff {s : State} {R : List FixView} :
    represents s R = true ↔
      isFixChain s.fixtures s._fixtures (R.map fun v => v.ptr) = true ∧
      ∀ v ∈ R, ∃ fr, s.fixtures v.ptr = some fr ∧ chainsOk s.methods fr v := by
  simp [represents, viewOk_iff]

theorem represents_of_heap {s s' : State} (h : s'.heap = s.heap) (R : List FixView) :
    represents s' R = represents s R := by
  have hv : viewOk s' = viewOk s := by
    funext v
    simp only [viewOk, heap_methods h, heap_fixtures h]
  simp only [represents, hv, heap_fixtures h, heap_root h]

theorem FixView.length_le_all (v : FixView) :
    v.afters.length ≤ v.all.length ∧ v.after_classes.length ≤ v.all.length ∧
    v.befores.length ≤ v.all.length ∧ v.before_classes.length ≤ v.all.length ∧
    v.tests.length ≤ v.all.length := by
  simp only [FixView.all, List.length_append]
  omega

theorem do_tests_chain (P : Program) (v : FixView) (fuel : Nat) (fr : fixture) (s : State)
    (hfr : s.fixtures v.ptr = some fr) (hv : chainsOk s.methods fr v)
    (hf : v.all.length < fuel) :
    __do_tests P fuel v.ptr s = some (runTests P v v.tests s) := by
  obtain ⟨ha, _, hb, _, ht⟩ := hv
  have hl := v.length_le_all
  simp only [__do_tests, hfr, Option.bind_eq_bind, Option.some_bind]
  exact do_tests_loop_chain P v fuel v.ptr fr s.methods s.fixtures hfr hb (by omega) ha
    (by omega) v.tests fuel _ s rfl rfl ht (by omega)

/-- One turn of the loop of `__do_run`, its steps named. -/
theorem do_run_loop_succ (P : Program) (inner fuel : Nat) (f : Ptr) (s : State) :
    __do_run.loop P inner (fuel + 1) f s =
      if f = 0 then some s
      else
        ((s.emit .fixtureBegin).fixtures f).bind fun fr =>
        (__do_methods P inner fr._before_classes (s.emit .fixtureBegin)).bind fun s1 =>
        (__do_tests P inner f s1).bind fun s2 =>
        (s2.fixtures f).bind fun fr2 =>
        (__do_methods P inner fr2._after_classes s2).bind fun s3 =>
        ((s3.emit .fixtureEnd).fixtures f).bind fun fr3 =>
        __do_run.loop P inner fuel fr3._next (s3.emit .fixtureEnd) := by
  rfl

theorem do_run_loop_chain (P : Program) (inner : Nat)
    (hM : Ptr → Option method) (hF : Ptr → Option fixture) (R : List FixView) :
    ∀ (fuel : Nat) (f : Ptr) (s : State), s.methods = hM → s.fixtures = hF →
      isFixChain hF f (R.map fun v => v.ptr) = true →
      (∀ v ∈ R, ∃ fr, hF v.ptr = some fr ∧ chainsOk hM fr v) →
      (∀ v ∈ R, v.all.length < inner) → R.length < fuel →
      __do_run.loop P inner fuel f s = some (runAll P R s) := by
  induction R with
  | nil =>
    intro fuel f s _ _ hc _ _ hf
    obtain ⟨n, rfl⟩ : ∃ n, fuel = n + 1 := ⟨fuel - 1, by simp at hf; omega⟩
    simp [__do_run.loop, runAll, isFixChain_nil.mp hc]
  | cons v R ih =>
    intro fuel f s hsM hsF hc hv hin hf
    obtain ⟨n, rfl⟩ : ∃ n, fuel = n + 1 := ⟨fuel - 1, by simp at hf; omega⟩
    obtain ⟨rfl, hne, r, hr, hk⟩ := isFixChain_cons.mp hc
    obtain ⟨fr, hfr, hch⟩ := hv v (List.mem_cons_self _ _)
    obtain rfl : r = fr := by rw [hr] at hfr; exact Option.some.inj hfr
    have hlen := hin v (List.mem_cons_self _ _)
    have hl := v.length_le_all
    -- the states reached inside the turn
    let s0 := s.emit Event.fixtureBegin
    let s1 := runHooks P v.before_classes s0
    let s2 := runTests P v v.tests s1
    let s3 := runHooks P v.after_classes s2
    have h1 : s1.heap = s.heap := by simp [s1, s0]
    have h2 : s2.heap = s.heap := by simp [s2, s1, s0]
    have h3 : s3.heap = s.heap := by simp [s3, s2, s1, s0]
    have e1 : __do_methods P inner r._before_classes s0 = some s1 :=
      do_methods_chain P v.before_classes inner _ s0
        (by rw [show s0.methods = hM from hsM]; exact hch.2.2.2.1) (by omega)
    have e2 : __do_tests P inner v.ptr s1 = some s2 :=
      do_tests_chain P v inner r s1 (by rw [heap_fixtures h1, hsF]; exact hr)
        (by rw [heap_methods h1, hsM]; exact hch) hlen
    have e3 : __do_methods P inner r._after_classes s2 = some s3 :=
      do_methods_chain P v.after_classes inner _ s2
        (by rw [heap_methods h2, hsM]; exact hch.2.1) (by omega)
    have step := ih n r._next (runFixture P v s)
      (by rw [heap_methods (runFixture_heap P v s)]; exact hsM)
      (by rw [heap_fixtures (runFixture_heap P v s)]; exact hsF) hk
      (fun w hw => hv w (List.mem_cons_of_mem _ hw))
      (fun w hw => hin w (List.mem_cons_of_mem _ hw)) (by simp at hf; omega)
    rw [runAll, ← step, do_run_loop_succ, if_neg hne,
      show (s.emit Event.fixtureBegin).fixtures v.ptr = some r from by
        rw [show (s.emit Event.fixtureBegin).fixtures = hF from hsF]; exact hr,
      Option.some_bind, e1, Option.some_bind, e2, Option.some_bind,
      show s2.fixtures v.ptr = some r from by rw [heap_fixtures h2, hsF]; exact hr,
      Option.some_bind, e3, Option.some_bind,
      show (s3.emit Event.fixtureEnd).fixtures v.ptr = some r from by
        rw [heap_fixtures (emit_heap _ _), heap_fixtures h3, hsF]; exact hr,
      Option.some_bind]
    rfl

theorem span_bounds {R : List FixView} :
    R.length ≤ span R ∧ ∀ v ∈ R, v.all.length < span R := by
  induction R with
  | nil => simp [span]
  | cons v R ih =>
    refine ⟨by simp only [span, List.length_cons]; omega, ?_⟩
    intro w hw
    rcases List.mem_cons.mp hw with rfl | hw
    · simp only [span]; omega
    · have := ih.2 w hw
      simp only [span]; omega

/-- With fuel above the size of the Registry, `__do_run` returns, and what it
returns and leaves is what the five steps of the specification give. -/
theorem do_run_eq_runSpec (P : Program) (s : State) (R : List FixView) (fuel : Nat)
    (hR : represents s R = true) (hf : span R < fuel) :
    __do_run P fuel s = some (runSpec P R s) := by
  obtain ⟨hc, hv⟩ := represents_iff.mp hR
  have hb := @span_bounds R
  have e := do_run_loop_chain P fuel s.methods s.fixtures R fuel s._fixtures s rfl rfl hc hv
    (fun v hv => lt_trans (hb.2 v hv) hf) (lt_of_le_of_lt hb.1 hf)
  simp only [__do_run, e, Option.bind_eq_bind, Option.some_bind]
  rfl

/-! ## The order of invocation -/

theorem isChain_mem {h : Ptr → Option method} {ms : List Ptr} :
    ∀ {p : Ptr}, isChain h p ms = true → ∀ m ∈ ms, ∃ r, h m = some r := by
  induction ms with
  | nil => intro p _ m hm; cases hm
  | cons q qs ih =>
    intro p hc m hm
    obtain ⟨_, _, r, hr, hk⟩ := isChain_cons.mp hc
    rcases List.mem_cons.mp hm with rfl | hm
    · exact ⟨r, hr⟩
    · exact ih hk m hm

@[simp] theorem invocations_append (a b : List Event) :
    invocations (a ++ b) = invocations a ++ invocations b := by
  simp [invocations]

@[simp] theorem emit_out (s : State) (e : Event) : (s.emit e).out = s.out ++ [e] := rfl

@[simp] theorem assert_out (s : State) :
    (__assert s).out = s.out ++ [Event.assertLine (s._stats._assertions + 1)] := rfl

@[simp] theorem trace_out (msg : CStr) (s : State) :
    (__trace msg s).out = s.out ++ [Event.traceLine (s._stats._traces + 1) msg] := rfl

@[simp] theorem recordPass_out (n : CStr) (s : State) :
    (recordPass n s).out = s.out ++ [Event.passedLine n] := rfl

@[simp] theorem recordFail_out (n : CStr) (s : State) :
    (recordFail n s).out = s.out ++ [Event.failedLine n] := rfl

@[simp] theorem invocations_invoke (m : Ptr) : invocations [Event.invoke m] = [m] := rfl

@[simp] theorem invocations_exec (st : Stmt) : invocations [Event.exec st] = [] := rfl

@[simp] theorem invocations_assertLine (n : Int) : invocations [Event.assertLine n] = [] := rfl

@[simp] theorem invocations_traceLine (n : Int) (msg : CStr) :
    invocations [Event.traceLine n msg] = [] := rfl

@[simp] theorem invocations_runLine (n : CStr) : invocations [Event.runLine n] = [] := rfl

@[simp] theorem invocations_passedLine (n : CStr) : invocations [Event.passedLine n] = [] := rfl

@[simp] theorem invocations_failedLine (n : CStr) : invocations [Event.failedLine n] = [] := rfl

@[simp] theorem invocations_fixtureBegin : invocations [Event.fixtureBegin] = [] := rfl

@[simp] theorem invocations_fixtureEnd : invocations [Event.fixtureEnd] = [] := rfl

@[simp] theorem invocations_summary (a b : Int) : invocations [Event.summary a b] = [] := rfl

@[simp] theorem runOps_invocations (ops : List Op) (s : State) :
    invocations (runOps ops s).1.out = invocations s.out := by
  induction ops generalizing s with
  | nil => rfl
  | cons o k ih => cases o <;> simp [runOps, ih]

@[simp] theorem runBody_invocations (b : List Stmt) (s : State) :
    invocations (runBody b s).out = invocations s.out := by
  induction b generalizing s with
  | nil => rfl
  | cons st k ih =>
    simp only [runBody]
    split <;> simp [ih]

@[simp] theorem invoke_invocations (P : Program) (m : Ptr) (r : method) (s : State) :
    invocations (invoke P m r s).out = invocations s.out ++ [m] := by
  simp [invoke]

theorem runHooks_invocations (P : Program) (hM : Ptr → Option method) (ms : List Ptr)
    (hms : ∀ m ∈ ms, ∃ r, hM m = some r) :
    ∀ s : State, s.methods = hM →
      invocations (runHooks P ms s).out = invocations s.out ++ ms := by
  induction ms with
  | nil => intro s _; simp [runHooks]
  | cons m k ih =>
    intro s hs
    obtain ⟨r, hr⟩ := hms m (List.mem_cons_self _ _)
    have hr' : s.methods m = some r := by rw [hs]; exact hr
    simp only [runHooks, hr']
    rw [ih (fun x hx => hms x (List.mem_cons_of_mem _ hx)) _
      (by rw [heap_methods (invoke_heap P m r s)]; exact hs)]
    simp

theorem runTestBody_invocations (P : Program) (t : Ptr) (r : method) (s : State)
    (hr : s.methods t = some r) :
    invocations (runTestBody P t s).out = invocations s.out ++ [t] := by
  rw [runTestBody_eq P t r s hr]
  split <;> simp

theorem runTest_invocations (P : Program) (hM : Ptr → Option method) (v : FixView) (t : Ptr)
    (hb : ∀ m ∈ v.befores, ∃ r, hM m = some r) (ha : ∀ m ∈ v.afters, ∃ r, hM m = some r)
    (ht : ∃ r, hM t = some r) (s : State) (hs : s.methods = hM) :
    invocations (runTest P v t s).out = invocations s.out ++ (v.befores ++ [t] ++ v.afters) := by
  obtain ⟨r, hr⟩ := ht
  have m1 : (runHooks P v.befores s).methods = hM := by
    rw [heap_methods (runHooks_heap P _ s)]; exact hs
  have m2 : (runTestBody P t (runHooks P v.befores s)).methods = hM := by
    rw [heap_methods (runTestBody_heap P t _)]; exact m1
  rw [runTest, runHooks_invocations P hM v.afters ha _ m2,
    runTestBody_invocations P t r _ (by rw [m1]; exact hr),
    runHooks_invocations P hM v.befores hb _ hs]
  simp

theorem runTests_invocations (P : Program) (hM : Ptr → Option method) (v : FixView)
    (hb : ∀ m ∈ v.befores, ∃ r, hM m = some r) (ha : ∀ m ∈ v.afters, ∃ r, hM m = some r)
    (ts : List Ptr) (hts : ∀ m ∈ ts, ∃ r, hM m = some r) :
    ∀ s : State, s.methods = hM →
      invocations (runTests P v ts s).out =
        invocations s.out ++ ts.flatMap (fun t => v.befores ++ [t] ++ v.afters) := by
  induction ts with
  | nil => intro s _; simp [runTests]
  | cons t k ih =>
    intro s hs
    rw [runTests, ih (fun x hx => hts x (List.mem_cons_of_mem _ hx)) _
      (by rw [heap_methods (runTest_heap P v t s)]; exact hs),
      runTest_invocations P hM v t hb ha (hts t (List.mem_cons_self _ _)) s hs]
    simp

theorem runFixture_invocations (P : Program) (v : FixView) (fr : fixture) (s : State)
    (hv : chainsOk s.methods fr v) :
    invocations (runFixture P v s).out = invocations s.out ++ v.hookOrder := by
  obtain ⟨ha, hac, hb, hbc, ht⟩ := hv
  have h0 : (s.emit Event.fixtureBegin).methods = s.methods := rfl
  have h1 : (runHooks P v.before_classes (s.emit Event.fixtureBegin)).methods = s.methods := by
    rw [heap_methods (runHooks_heap P _ _)]; exact h0
  have h2 : (runTests P v v.tests
      (runHooks P v.before_classes (s.emit Event.fixtureBegin))).methods = s.methods := by
    rw [heap_methods (runTests_heap P _ _ _)]; exact h1
  simp only [runFixture, emit_out, invocations_append]
  rw [runHooks_invocations P s.methods v.after_classes (isChain_mem hac) _ h2,
    runTests_invocations P s.methods v (isChain_mem hb) (isChain_mem ha) v.tests
      (isChain_mem ht) _ h1,
    runHooks_invocations P s.methods v.before_classes (isChain_mem hbc) _ h0]
  simp [FixView.hookOrder]

theorem runAll_invocations (P : Program) (hM : Ptr → Option method) (R : List FixView)
    (hv : ∀ v ∈ R, ∃ fr, chainsOk hM fr v) :
    ∀ s : State, s.methods = hM →
      invocations (runAll P R s).out = invocations s.out ++ hookOrder R := by
  induction R with
  | nil => intro s _; simp [runAll, hookOrder]
  | cons v k ih =>
    intro s hs
    obtain ⟨fr, hfr⟩ := hv v (List.mem_cons_self _ _)
    rw [runAll, ih (fun x hx => hv x (List.mem_cons_of_mem _ hx)) _
      (by rw [heap_methods (runFixture_heap P v s)]; exact hs),
      runFixture_invocations P v fr s (by rw [hs]; exact hfr)]
    simp [hookOrder]

theorem represents_chains {s : State} {R : List FixView} (hR : represents s R = true) :
    ∀ v ∈ R, ∃ fr, chainsOk s.methods fr v := fun v hv =>
  let ⟨fr, _, h⟩ := (represents_iff.mp hR).2 v hv
  ⟨fr, h⟩

/-- C1: for every Registry, with fuel above its size `Run` returns, and the
hooks it invokes are, fixture after fixture in Registry order, the
BEFORE_CLASS hooks, then for each TEST hook the BEFORE_EACH hooks, the test
body and the AFTER_EACH hooks, then the AFTER_CLASS hooks, each chain in its
order. -/
theorem C1_run_invokes_hooks_in_lifecycle_order (P : Program) (s : State) (R : List FixView)
    (fuel : Nat) (hR : represents s R = true) (hf : span R < fuel) :
    ∃ r, Tests.Run P fuel s = some r ∧
      invocations r.2.out = invocations s.out ++ hookOrder R := by
  refine ⟨runSpec P R s, do_run_eq_runSpec P s R fuel hR hf, ?_⟩
  simp only [runSpec, emit_out, invocations_append]
  rw [runAll_invocations P s.methods R (represents_chains hR) s rfl]
  simp

/-! ## The counters -/

theorem runOps_flag (ops : List Op) (s s' : State) : (runOps ops s).2 = (runOps ops s').2 := by
  induction ops generalizing s s' with
  | nil => rfl
  | cons o k ih => cases o <;> simp only [runOps] <;> exact ih _ _

theorem runOps_passes (ops : List Op) (s : State) :
    (runOps ops s).1._stats._passes = s._stats._passes ∧
    (runOps ops s).1._stats._failures = s._stats._failures := by
  induction ops generalizing s with
  | nil => exact ⟨rfl, rfl⟩
  | cons o k ih =>
    cases o
    · simp only [runOps]; exact ih (__assert s)
    · simp only [runOps]; exact ih (__trace _ s)
    · exact ⟨rfl, rfl⟩

theorem runOps_assertions (ops : List Op) (s : State) :
    (runOps ops s).1._stats._assertions =
      s._stats._assertions + (runOps ops State.init).1._stats._assertions := by
  induction ops generalizing s with
  | nil => simp [runOps, State.init, stats.stats]
  | cons o k ih =>
    cases o
    · simp only [runOps]
      rw [ih (__assert s), ih (__assert State.init)]
      simp only [__assert, State.init, stats.stats]
      ring
    · simp only [runOps]
      rw [ih (__trace _ s), ih (__trace _ State.init)]
      simp only [__trace, State.init, stats.stats]
      ring
    · simp [runOps, State.init, stats.stats]

theorem runBody_passes (b : List Stmt) (s : State) :
    (runBody b s)._stats._passes = s._stats._passes ∧
    (runBody b s)._stats._failures = s._stats._failures := by
  induction b generalizing s with
  | nil => exact ⟨rfl, rfl⟩
  | cons st k ih =>
    have h := runOps_passes st.expand (s.emit (.exec st))
    simp only [runBody]
    split
    · exact h
    · exact ⟨(ih _).1.trans h.1, (ih _).2.trans h.2⟩

theorem runBody_assertions (b : List Stmt) (s : State) :
    (runBody b s)._stats._assertions = s._stats._assertions + raised b := by
  unfold raised
  induction b generalizing s with
  | nil => simp [runBody, State.init, stats.stats]
  | cons st k ih =>
    have h := runOps_assertions st.expand (s.emit (.exec st))
    have h0 := runOps_assertions st.expand (State.init.emit (.exec st))
    have hf := runOps_flag st.expand (s.emit (.exec st)) (State.init.emit (.exec st))
    simp only [runBody, hf]
    split
    · rw [h, h0]; simp [State.init, stats.stats]
    · rw [ih, ih (runOps st.expand (State.init.emit (.exec st))).1, h, h0]
      simp only [emit_stats, State.init, stats.stats]
      ring

theorem invoke_passes (P : Program) (m : Ptr) (r : method) (s : State) :
    (invoke P m r s)._stats._passes = s._stats._passes ∧
    (invoke P m r s)._stats._failures = s._stats._failures :=
  runBody_passes _ _

theorem invoke_assertions (P : Program) (m : Ptr) (r : method) (s : State) :
    (invoke P m r s)._stats._assertions = s._stats._assertions + raised (P r._this r._addr) :=
  runBody_assertions _ _

theorem runHooks_passes (P : Program) (ms : List Ptr) (s : State) :
    (runHooks P ms s)._stats._passes = s._stats._passes ∧
    (runHooks P ms s)._stats._failures = s._stats._failures := by
  induction ms generalizing s with
  | nil => exact ⟨rfl, rfl⟩
  | cons m k ih =>
    simp only [runHooks]
    split
    · have h := invoke_passes P m ‹_› s
      exact ⟨(ih _).1.trans h.1, (ih _).2.trans h.2⟩
    · exact ⟨rfl, rfl⟩

/-- The counters after the snapshot, the body and the comparison. -/
theorem runTestBody_counts (P : Program) (t : Ptr) (r : method) (s : State)
    (hr : s.methods t = some r) :
    (runTestBody P t s)._stats._passes =
        s._stats._passes + (if raised (P r._this r._addr) = 0 then 1 else 0) ∧
    (runTestBody P t s)._stats._failures =
        s._stats._failures + (if raised (P r._this r._addr) = 0 then 0 else 1) := by
  have ha := invoke_assertions P t r (s.emit (.runLine (cstr r._name)))
  have hp := invoke_passes P t r (s.emit (.runLine (cstr r._name)))
  rw [runTestBody_eq P t r s hr, ha]
  simp only [emit_stats] at ha hp ⊢
  by_cases h0 : raised (P r._this r._addr) = 0
  · simp [h0, recordPass, hp.1, hp.2]
  · have : ¬ s._stats._assertions = s._stats._assertions + raised (P r._this r._addr) := by
      intro h; apply h0; linarith
    simp [h0, this, recordFail, hp.1, hp.2]

theorem runTest_counts (P : Program) (v : FixView) (t : Ptr) (r : method) (s : State)
    (hr : s.methods t = some r) :
    (runTest P v t s)._stats._passes =
        s._stats._passes + (if testFails P s.methods t then 0 else 1) ∧
    (runTest P v t s)._stats._failures =
        s._stats._failures + (if testFails P s.methods t then 1 else 0) := by
  have h1 := runHooks_passes P v.befores s
  have hr1 : (runHooks P v.befores s).methods t = some r := by
    rw [heap_methods (runHooks_heap P _ s)]; exact hr
  have h2 := runTestBody_counts P t r _ hr1
  have h3 := runHooks_passes P v.afters (runTestBody P t (runHooks P v.befores s))
  simp only [runTest, testFails, hr]
  rw [h3.1, h3.2, h2.1, h2.2, h1.1, h1.2]
  by_cases h0 : raised (P r._this r._addr) = 0 <;> simp [h0]

theorem runTests_counts (P : Program) (hM : Ptr → Option method) (v : FixView)
    (ts : List Ptr) (hts : ∀ m ∈ ts, ∃ r, hM m = some r) :
    ∀ s : State, s.methods = hM →
      (runTests P v ts s)._stats._passes =
          s._stats._passes + (ts.countP fun t => !testFails P hM t) ∧
      (runTests P v ts s)._stats._failures =
          s._stats._failures + (ts.countP fun t => testFails P hM t) := by
  induction ts with
  | nil => intro s _; simp [runTests]
  | cons t k ih =>
    intro s hs
    obtain ⟨r, hr⟩ := hts t (List.mem_cons_self _ _)
    have h1 := runTest_counts P v t r s (by rw [hs]; exact hr)
    have h2 := ih (fun x hx => hts x (List.mem_cons_of_mem _ hx)) (runTest P v t s)
      (by rw [heap_methods (runTest_heap P v t s)]; exact hs)
    rw [hs] at h1
    rw [runTests, h2.1, h2.2, h1.1, h1.2, List.countP_cons, List.countP_cons]
    by_cases hf : testFails P hM t = true
    · simp [hf]
      ring
    · simp only [Bool.not_eq_true] at hf
      simp [hf]
      ring

theorem raised_eq_zero_of_no_assert (b : List Stmt)
    (h : ∀ st ∈ b, Op.assert ∉ st.expand) : raised b = 0 := by
  have key : ∀ (ops : List Op), Op.assert ∉ ops → ∀ s : State,
      (runOps ops s).1._stats._assertions = s._stats._assertions := by
    intro ops
    induction ops with
    | nil => intro _ s; rfl
    | cons o k ih =>
      intro hn s
      cases o
      · exact absurd (List.mem_cons_self _ _) hn
      · simp only [runOps]
        rw [ih (fun hk => hn (List.mem_cons_of_mem _ hk))]
        rfl
      · rfl
  have body : ∀ (b : List Stmt), (∀ st ∈ b, Op.assert ∉ st.expand) → ∀ s : State,
      (runBody b s)._stats._assertions = s._stats._assertions := by
    intro b
    induction b with
    | nil => intro _ s; rfl
    | cons st k ih =>
      intro hb s
      have h1 := key st.expand (hb st (List.mem_cons_self _ _)) (s.emit (.exec st))
      simp only [runBody]
      split
      · exact h1
      · rw [ih (fun x hx => hb x (List.mem_cons_of_mem _ hx)), h1]; rfl
  exact body b h State.init

theorem raised_nonneg (b : List Stmt) : 0 ≤ raised b := by
  have key : ∀ (ops : List Op) (s : State),
      s._stats._assertions ≤ (runOps ops s).1._stats._assertions := by
    intro ops
    induction ops with
    | nil => intro s; exact le_refl _
    | cons o k ih =>
      intro s
      cases o
      · simp only [runOps]
        exact le_trans (by simp [__assert]) (ih (__assert s))
      · simp only [runOps]
        exact le_trans (by simp [__trace]) (ih (__trace _ s))
      · exact le_refl _
  have body : ∀ (b : List Stmt) (s : State),
      s._stats._assertions ≤ (runBody b s)._stats._assertions := by
    intro b
    induction b with
    | nil => intro s; exact le_refl _
    | cons st k ih =>
      intro s
      have h1 := key st.expand (s.emit (.exec st))
      simp only [runBody]
      split
      · exact h1
      · exact le_trans h1 (ih _)
  exact body b State.init

/-- C2: `__do_tests` returns with the pass counter raised by one for every
test whose body leaves the assertion counter unchanged and the failure counter
raised by one for every test whose body raises it, by whatever amount; a body
none of whose statements calls `__assert` leaves the counter unchanged. -/
theorem C2_each_test_adds_one_pass_or_one_failure (P : Program) (s : State) (v : FixView)
    (fuel : Nat) (hv : viewOk s v = true) (hf : v.all.length < fuel) :
    ∃ s', __do_tests P fuel v.ptr s = some s' ∧
      s'._stats._passes = s._stats._passes + (v.tests.countP fun t => !testFails P s.methods t) ∧
      s'._stats._failures =
        s._stats._failures + (v.tests.countP fun t => testFails P s.methods t) ∧
      (∀ t r, s.methods t = some r → ∀ x : State,
        (testFails P s.methods t = false ↔
          (invoke P t r x)._stats._assertions = x._stats._assertions) ∧
        (testFails P s.methods t = true ↔
          x._stats._assertions < (invoke P t r x)._stats._assertions)) ∧
      (∀ t r, s.methods t = some r →
        (∀ st ∈ P r._this r._addr, Op.assert ∉ st.expand) → testFails P s.methods t = false) := by
  obtain ⟨fr, hfr, hch⟩ := viewOk_iff.mp hv
  have hc := runTests_counts P s.methods v v.tests (isChain_mem hch.2.2.2.2) s rfl
  refine ⟨runTests P v v.tests s, do_tests_chain P v fuel fr s hfr hch hf, hc.1, hc.2, ?_, ?_⟩
  · intro t r hr x
    have hnn : 0 ≤ raised (P r._this r._addr) := raised_nonneg _
    rw [invoke_assertions]
    simp only [testFails, hr]
    constructor
    · simp
    · simp; constructor
      · intro h; exact lt_of_le_of_ne hnn (Ne.symm h)
      · intro h; exact ne_of_gt h
  · intro t r hr hb
    simp [testFails, hr, raised_eq_zero_of_no_assert _ hb]

theorem runFixture_counts (P : Program) (v : FixView) (fr : fixture) (s : State)
    (hv : chainsOk s.methods fr v) :
    (runFixture P v s)._stats._passes =
        s._stats._passes + (v.tests.countP fun t => !testFails P s.methods t) ∧
    (runFixture P v s)._stats._failures =
        s._stats._failures + (v.tests.countP fun t => testFails P s.methods t) := by
  have h1 := runHooks_passes P v.before_classes (s.emit .fixtureBegin)
  have m1 : (runHooks P v.before_classes (s.emit .fixtureBegin)).methods = s.methods := by
    rw [heap_methods (runHooks_heap P _ _)]; rfl
  have h2 := runTests_counts P s.methods v v.tests (isChain_mem hv.2.2.2.2) _ m1
  have h3 := runHooks_passes P v.after_classes
    (runTests P v v.tests (runHooks P v.before_classes (s.emit .fixtureBegin)))
  simp only [runFixture, emit_stats]
  rw [h3.1, h3.2, h2.1, h2.2, h1.1, h1.2]
  exact ⟨rfl, rfl⟩

theorem runAll_counts (P : Program) (hM : Ptr → Option method) (R : List FixView)
    (hv : ∀ v ∈ R, ∃ fr, chainsOk hM fr v) :
    ∀ s : State, s.methods = hM →
      (runAll P R s)._stats._passes = s._stats._passes + passingTests P hM R ∧
      (runAll P R s)._stats._failures = s._stats._failures + failingTests P hM R := by
  induction R with
  | nil => intro s _; simp [runAll, passingTests, failingTests]
  | cons v k ih =>
    intro s hs
    obtain ⟨fr, hfr⟩ := hv v (List.mem_cons_self _ _)
    have h1 := runFixture_counts P v fr s (by rw [hs]; exact hfr)
    have h2 := ih (fun x hx => hv x (List.mem_cons_of_mem _ hx)) (runFixture P v s)
      (by rw [heap_methods (runFixture_heap P v s)]; exact hs)
    rw [hs] at h1
    rw [runAll, h2.1, h2.2, h1.1, h1.2]
    simp only [passingTests, failingTests, Nat.cast_add]
    constructor <;> ring

theorem failingTests_eq_zero (P : Program) (hM : Ptr → Option method) (R : List FixView)
    (h : ∀ v ∈ R, ∀ t ∈ v.tests, testFails P hM t = false) : failingTests P hM R = 0 := by
  induction R with
  | nil => rfl
  | cons v k ih =>
    simp only [failingTests]
    rw [ih (fun x hx => h x (List.mem_cons_of_mem _ hx))]
    have : (v.tests.countP fun t => testFails P hM t) = 0 := by
      rw [List.countP_eq_zero]
      intro t ht
      simp [h v (List.mem_cons_self _ _) t ht]
    omega

/-- C5: from a fresh Recorder, `Run` returns the number of tests, over all
fixtures of the Registry, whose body raises the assertion counter; it returns
0 when no test body raises it; and the value returned is the failure total of
the summary line, the last line of the output. -/
theorem C5_run_returns_number_of_failed_tests (P : Program) (s : State) (R : List FixView)
    (fuel : Nat) (hR : represents s R = true) (hf : span R < fuel)
    (h0 : s._stats = stats.stats) :
    ∃ r, Tests.Run P fuel s = some r ∧
      r.1 = failingTests P s.methods R ∧
      r.2._stats._passes = passingTests P s.methods R ∧
      ((∀ v ∈ R, ∀ t ∈ v.tests, testFails P s.methods t = false) → r.1 = 0) ∧
      r.2.out.getLast? = some (Event.summary (passingTests P s.methods R) r.1) := by
  have hc := runAll_counts P s.methods R (represents_chains hR) s rfl
  simp only [h0, stats.stats, zero_add] at hc
  refine ⟨runSpec P R s, do_run_eq_runSpec P s R fuel hR hf, hc.2, hc.1, ?_, ?_⟩
  · intro h
    show (runAll P R s)._stats._failures = 0
    rw [hc.2, failingTests_eq_zero P s.methods R h]
    rfl
  · simp only [runSpec, emit_out, List.getLast?_append, List.getLast?_singleton, hc.1]
    rfl

/-! ## Inside a body -/

theorem expand_cases (st : Stmt) :
    st.expand = tpunit.ABORT ∨ st.expand = tpunit.FAIL ∨ st.expand = tpunit.PASS ∨
      ∃ m, st.expand = tpunit.TRACE m := by
  cases st with
  | TRACE m => exact Or.inr (Or.inr (Or.inr ⟨m, rfl⟩))
  | ASSERT_THROW x => cases x <;> simp [Stmt.expand]
  | EXPECT_THROW x => cases x <;> simp [Stmt.expand]
  | ASSERT_NO_THROW x => cases x <;> simp [Stmt.expand]
  | EXPECT_NO_THROW x => cases x <;> simp [Stmt.expand]
  | ASSERT_ANY_THROW x => cases x <;> simp [Stmt.expand]
  | EXPECT_ANY_THROW x => cases x <;> simp [Stmt.expand]
  | other n => exact Or.inr (Or.inr (Or.inl rfl))
  | ABORT => exact Or.inl rfl
  | FAIL => exact Or.inr (Or.inl rfl)
  | PASS => exact Or.inr (Or.inr (Or.inl rfl))
  | _ => (simp only [Stmt.expand]; split <;> simp)

theorem runOps_of_not_abort (st : Stmt) (h : st.expand ≠ tpunit.ABORT) (s : State) :
    (runOps st.expand s).2 = false ∧
    (runOps st.expand s).1._stats._assertions =
      s._stats._assertions + (if st.expand = tpunit.FAIL then 1 else 0) ∧
    executed (runOps st.expand s).1.out = executed s.out := by
  rcases expand_cases st with e | e | e | ⟨m, e⟩
  · exact absurd e h
  · rw [e]; simp [tpunit.FAIL, runOps, __assert, executed]
  · rw [e]; simp [tpunit.PASS, tpunit.FAIL, runOps]
  · rw [e]; simp [tpunit.TRACE, tpunit.FAIL, runOps, __trace, executed]

theorem runOps_of_abort (st : Stmt) (h : st.expand = tpunit.ABORT) (s : State) :
    runOps st.expand s = (__assert s, true) := by
  rw [h]; rfl

theorem runBody_append (pre k : List Stmt) (hpre : ∀ st ∈ pre, st.expand ≠ tpunit.ABORT) :
    ∀ s : State, runBody (pre ++ k) s = runBody k (runBody pre s) := by
  induction pre with
  | nil => intro s; rfl
  | cons st p ih =>
    intro s
    have h := (runOps_of_not_abort st (hpre st (List.mem_cons_self _ _))
      (s.emit (.exec st))).1
    simp only [List.cons_append, runBody, h, Bool.false_eq_true, if_false]
    exact ih (fun x hx => hpre x (List.mem_cons_of_mem _ hx)) _

theorem runBody_no_abort (b : List Stmt) (hb : ∀ st ∈ b, st.expand ≠ tpunit.ABORT) :
    ∀ s : State,
      executed (runBody b s).out = executed s.out ++ b ∧
      (runBody b s)._stats._assertions =
        s._stats._assertions + (b.countP fun st => decide (st.expand = tpunit.FAIL)) := by
  induction b with
  | nil => intro s; simp [runBody]
  | cons st p ih =>
    intro s
    obtain ⟨h1, h2, h3⟩ := runOps_of_not_abort st (hb st (List.mem_cons_self _ _))
      (s.emit (.exec st))
    obtain ⟨i1, i2⟩ := ih (fun x hx => hb x (List.mem_cons_of_mem _ hx))
      (runOps st.expand (s.emit (.exec st))).1
    simp only [runBody, h1, Bool.false_eq_true, if_false]
    rw [i1, i2, h2, h3, List.countP_cons]
    constructor
    · simp [executed]
    · by_cases e : st.expand = tpunit.FAIL
      · simp [e]; ring
      · simp [e]

/-- C8: a body without an aborting failure executes every one of its
statements, and raises the assertion counter by the number of its failures
and leaves the pass and failure counters as they were; `__assert` adds 1 to
the assertion counter and changes no other counter. -/
theorem C8_failures_without_abort_raise_counter_by_their_number (b : List Stmt) (s : State)
    (hb : ∀ st ∈ b, st.expand ≠ tpunit.ABORT) :
    executed (runBody b s).out = executed s.out ++ b ∧
    (runBody b s)._stats._assertions =
      s._stats._assertions + (b.countP fun st => decide (st.expand = tpunit.FAIL)) ∧
    (runBody b s)._stats._passes = s._stats._passes ∧
    (runBody b s)._stats._failures = s._stats._failures ∧
    (∀ x : State, (__assert x)._stats =
      { x._stats with _assertions := x._stats._assertions + 1 }) :=
  ⟨(runBody_no_abort b hb s).1, (runBody_no_abort b hb s).2, (runBody_passes b s).1,
    (runBody_passes b s).2, fun _ => rfl⟩

theorem runBody_abort (a : Stmt) (post : List Stmt) (ha : a.expand = tpunit.ABORT) (s : State) :
    runBody (a :: post) s = __assert (s.emit (.exec a)) := by
  simp [runBody, runOps_of_abort a ha]

theorem runTests_invocations_of_view (P : Program) (s : State) (v : FixView) (fr : fixture)
    (hch : chainsOk s.methods fr v) :
    invocations (runTests P v v.tests s).out =
      invocations s.out ++ v.tests.flatMap (fun t => v.befores ++ [t] ++ v.afters) :=
  runTests_invocations P s.methods v (isChain_mem hch.2.2.1) (isChain_mem hch.1) v.tests
    (isChain_mem hch.2.2.2.2) s rfl

/-- C7: in a body, an aborting failure that no aborting failure precedes
raises the assertion counter by exactly 1 and is the last statement of the
body that executes, and the test is classified FAIL; whatever the bodies do,
`__do_tests` returns having invoked, for every test of the fixture in order,
the BEFORE_EACH hooks, the test and the AFTER_EACH hooks. -/
theorem C7_abort_ends_the_body_not_the_fixture (P : Program) (pre post : List Stmt) (a : Stmt)
    (s : State) (v : FixView) (fuel : Nat)
    (hpre : ∀ st ∈ pre, st.expand ≠ tpunit.ABORT) (ha : a.expand = tpunit.ABORT)
    (hv : viewOk s v = true) (hf : v.all.length < fuel) :
    (runBody (pre ++ a :: post) s)._stats._assertions =
      (runBody pre s)._stats._assertions + 1 ∧
    executed (runBody (pre ++ a :: post) s).out = executed s.out ++ pre ++ [a] ∧
    raised (pre ++ a :: post) ≠ 0 ∧
    ∃ s', __do_tests P fuel v.ptr s = some s' ∧
      invocations s'.out =
        invocations s.out ++ v.tests.flatMap (fun t => v.befores ++ [t] ++ v.afters) := by
  obtain ⟨fr, hfr, hch⟩ := viewOk_iff.mp hv
  have e : ∀ x : State, runBody (pre ++ a :: post) x =
      __assert ((runBody pre x).emit (.exec a)) := fun x => by
    rw [runBody_append pre _ hpre, runBody_abort a post ha]
  refine ⟨?_, ?_, ?_, runTests P v v.tests s, do_tests_chain P v fuel fr s hfr hch hf,
    runTests_invocations_of_view P s v fr hch⟩
  · rw [e]; rfl
  · rw [e]
    have h := (runBody_no_abort pre hpre s).1
    simp only [assert_out, emit_out, emit_stats]
    simp only [executed, List.filterMap_append] at h ⊢
    rw [h]
    simp
  · have h1 : raised (pre ++ a :: post) = raised pre + 1 := by
      unfold raised
      rw [e]; rfl
    have h2 := raised_nonneg pre
    omega

theorem raised_cons (st : Stmt) (k : List Stmt) :
    raised (st :: k) =
      (runOps st.expand State.init).1._stats._assertions +
        (if (runOps st.expand State.init).2 then 0 else raised k) := by
  have h0 := runOps_assertions st.expand (State.init.emit (.exec st))
  have hf := runOps_flag st.expand (State.init.emit (.exec st)) State.init
  show (runBody (st :: k) State.init)._stats._assertions = _
  simp only [runBody, hf]
  split
  · rw [h0]; simp [State.init, stats.stats]
  · rw [runBody_assertions, h0]; simp [State.init, stats.stats]

theorem raised_filter_trace (b : List Stmt) :
    raised (b.filter fun st => !st.isTrace) = raised b := by
  induction b with
  | nil => rfl
  | cons st k ih =>
    by_cases h : st.isTrace = true
    · rw [List.filter_cons_of_neg (by simp [h]), raised_cons, ih]
      cases st with
      | TRACE m => simp [Stmt.expand, tpunit.TRACE, runOps, __trace, State.init, stats.stats]
      | _ => exact absurd h (by simp [Stmt.isTrace])
    · rw [List.filter_cons_of_pos (by simp [h]), raised_cons, raised_cons, ih]

theorem testFails_filter_trace (P P' : Program) (hM : Ptr → Option method)
    (h : ∀ this addr, (P this addr).filter (fun st => !st.isTrace) =
      (P' this addr).filter (fun st => !st.isTrace)) :
    testFails P hM = testFails P' hM := by
  funext t
  simp only [testFails]
  cases hM t with
  | none => rfl
  | some r => simp only [← raised_filter_trace (P r._this r._addr), h,
      raised_filter_trace (P' r._this r._addr)]

theorem counts_congr (P P' : Program) (hM : Ptr → Option method) (R : List FixView)
    (h : testFails P hM = testFails P' hM) :
    passingTests P hM R = passingTests P' hM R ∧ failingTests P hM R = failingTests P' hM R := by
  induction R with
  | nil => exact ⟨rfl, rfl⟩
  | cons v k ih => simp only [passingTests, failingTests, h, ih.1, ih.2, and_self]

/-- C9: `__trace` adds 1 to the trace counter and changes no other counter;
a body raises the assertion counter by the same amount with and without its
TRACE statements, and not at all when it has only TRACE statements; and two
programs whose bodies differ only in TRACE statements give, over every
Registry, runs with the same result and the same pass and failure counts. -/
theorem C9_trace_changes_no_classification (P P' : Program) (s : State) (R : List FixView)
    (fuel : Nat) (hR : represents s R = true) (hf : span R < fuel)
    (hP : ∀ this addr, (P this addr).filter (fun st => !st.isTrace) =
      (P' this addr).filter (fun st => !st.isTrace)) :
    (∀ (message : CStr) (x : State), (__trace message x)._stats =
      { x._stats with _traces := x._stats._traces + 1 }) ∧
    (∀ b : List Stmt, raised (b.filter fun st => !st.isTrace) = raised b) ∧
    (∀ b : List Stmt, (∀ st ∈ b, st.isTrace = true) → raised b = 0) ∧
    testFails P s.methods = testFails P' s.methods ∧
    ∃ r r', Tests.Run P fuel s = some r ∧ Tests.Run P' fuel s = some r' ∧ r.1 = r'.1 ∧
      r.2._stats._passes = r'.2._stats._passes ∧
      r.2._stats._failures = r'.2._stats._failures := by
  have ht := testFails_filter_trace P P' s.methods hP
  have hc := counts_congr P P' s.methods R ht
  have c1 := runAll_counts P s.methods R (represents_chains hR) s rfl
  have c2 := runAll_counts P' s.methods R (represents_chains hR) s rfl
  refine ⟨fun _ _ => rfl, raised_filter_trace, ?_, ht, runSpec P R s, runSpec P' R s,
    do_run_eq_runSpec P s R fuel hR hf, do_run_eq_runSpec P' s R fuel hR hf, ?_, ?_, ?_⟩
  · intro b hb
    rw [← raised_filter_trace b]
    have : b.filter (fun st => !st.isTrace) = [] := by
      rw [List.filter_eq_nil_iff]
      intro st hst
      simp [hb st hst]
    rw [this]; rfl
  · show (runAll P R s)._stats._failures = (runAll P' R s)._stats._failures
    rw [c1.2, c2.2, hc.2]
  · show (runAll P R s)._stats._passes = (runAll P' R s)._stats._passes
    rw [c1.1, c2.1, hc.1]
  · show (runAll P R s)._stats._failures = (runAll P' R s)._stats._failures
    rw [c1.2, c2.2, hc.2]

/-! ## Chains in the heap -/

theorem isChain_frame {h h' : Ptr → Option method} {l : List Ptr} :
    ∀ {p : Ptr}, isChain h p l = true →
      (∀ q ∈ l, (h' q).isSome = true ∧ (h' q).map (fun r => r._next) = (h q).map fun r => r._next) →
      isChain h' p l = true := by
  induction l with
  | nil => intro p hc _; simpa [isChain] using hc
  | cons x xs ih =>
    intro p hc hq
    obtain ⟨rfl, hne, r, hr, hk⟩ := isChain_cons.mp hc
    obtain ⟨hs, hm⟩ := hq p (List.mem_cons_self _ _)
    obtain ⟨r', hr'⟩ := Option.isSome_iff_exists.mp hs
    rw [hr, hr'] at hm
    simp only [Option.map_some', Option.some.injEq] at hm
    refine isChain_cons.mpr ⟨rfl, hne, r', hr', ?_⟩
    rw [hm]
    exact ih hk (fun q hq' => hq q (List.mem_cons_of_mem _ hq'))

theorem isChain_nonzero {h : Ptr → Option method} {l : List Ptr} :
    ∀ {p : Ptr}, isChain h p l = true → ∀ q ∈ l, q ≠ 0 := by
  induction l with
  | nil => intro p _ q hq; cases hq
  | cons x xs ih =>
    intro p hc q hq
    obtain ⟨_, hne, r, _, hk⟩ := isChain_cons.mp hc
    rcases List.mem_cons.mp hq with rfl | hq
    · exact hne
    · exact ih hk q hq

/-- The last method of a chain has a null `_next`. -/
theorem isChain_last {h : Ptr → Option method} {c : List Ptr} {l : Ptr} :
    ∀ {p : Ptr}, isChain h p (c ++ [l]) = true → ∃ r, h l = some r ∧ r._next = 0 := by
  induction c with
  | nil =>
    intro p hc
    obtain ⟨_, _, r, hr, hk⟩ := isChain_cons.mp hc
    exact ⟨r, hr, isChain_nil.mp hk⟩
  | cons x xs ih =>
    intro p hc
    obtain ⟨_, _, r, _, hk⟩ := isChain_cons.mp hc
    exact ih hk

/-- Linking `M` behind the last method of a chain gives the chain with `M`
appended. -/
theorem isChain_snoc {h h' : Ptr → Option method} {c : List Ptr} {l M : Ptr} {rl : method}
    (rM : method) (hnd : (c ++ [l]).Nodup) (hM : M ∉ c ++ [l]) (hM0 : M ≠ 0)
    (hl : h l = some rl) (hl' : h' l = some { rl with _next := M })
    (hrM : h' M = some rM) (hrM0 : rM._next = 0)
    (hfr : ∀ q, q ≠ l → q ≠ M → h' q = h q) :
    ∀ {p : Ptr}, isChain h p (c ++ [l]) = true → isChain h' p (c ++ [l] ++ [M]) = true := by
  induction c with
  | nil =>
    intro p hc
    obtain ⟨rfl, hne, r, hr, _⟩ := isChain_cons.mp hc
    refine isChain_cons.mpr ⟨rfl, hne, _, hl', ?_⟩
    exact isChain_cons.mpr ⟨rfl, hM0, rM, hrM, by rw [hrM0]; rfl⟩
  | cons x xs ih =>
    intro p hc
    obtain ⟨rfl, hne, r, hr, hk⟩ := isChain_cons.mp hc
    have hxl : p ≠ l := by
      intro e
      have := (List.nodup_cons.mp hnd).1
      exact this (by rw [e]; simp)
    have hxM : p ≠ M := by
      intro e
      exact hM (by rw [e]; simp)
    refine isChain_cons.mpr ⟨rfl, hne, r, by rw [hfr p hxl hxM]; exact hr, ?_⟩
    exact ih (List.nodup_cons.mp hnd).2 (fun hm => hM (List.mem_cons_of_mem _ hm)) hk

theorem seekLast_null (fuel : Nat) (m : Slot) (s : State) (hl : s.load m = some 0)
    (hf : 0 < fuel) : seekLast fuel m s = some m := by
  obtain ⟨n, rfl⟩ : ∃ n, fuel = n + 1 := ⟨fuel - 1, by omega⟩
  simp [seekLast, hl]

theorem seekLast_chain (s : State) (l : Ptr) (c : List Ptr) :
    ∀ (fuel : Nat) (m : Slot) (p : Ptr), s.load m = some p →
      isChain s.methods p (c ++ [l]) = true → c.length < fuel →
      ∃ m', seekLast fuel m s = some m' ∧ s.load m' = some l := by
  induction c with
  | nil =>
    intro fuel m p hl hc hf
    obtain ⟨n, rfl⟩ : ∃ n, fuel = n + 1 := ⟨fuel - 1, by simp at hf; omega⟩
    obtain ⟨rfl, hne, r, hr, hk⟩ := isChain_cons.mp hc
    have h0 := isChain_nil.mp hk
    exact ⟨m, by simp [seekLast, hl, hne, hr, h0], hl⟩
  | cons x xs ih =>
    intro fuel m p hl hc hf
    obtain ⟨n, rfl⟩ : ∃ n, fuel = n + 1 := ⟨fuel - 1, by simp at hf; omega⟩
    obtain ⟨rfl, hne, r, hr, hk⟩ := isChain_cons.mp hc
    have hnz : r._next ≠ 0 := by
      intro e
      have := isChain_nonzero hk r._next (by
        cases xs with
        | nil => obtain ⟨e', _⟩ := isChain_cons.mp hk; simp [e']
        | cons y ys => obtain ⟨e', _⟩ := isChain_cons.mp hk; simp [e'])
      exact this e
    obtain ⟨m', h1, h2⟩ := ih n (.next p) r._next (by simp [State.load, hr]) hk
      (by simp at hf; omega)
    exact ⟨m', by simp [seekLast, hl, hne, hr, hnz, h1], h2⟩

theorem fixture_get_set (fr : fixture) (i j : Nat) (p : Ptr) (hi : i ≤ 4) (hj : j ≤ 4) :
    (fr.set i p).get j = if j = i then p else fr.get j := by
  interval_cases i <;> interval_cases j <;>
    simp [fixture.set, fixture.get, AFTER_METHOD, AFTER_CLASS_METHOD, BEFORE_METHOD,
      BEFORE_CLASS_METHOD]

theorem fixture_set_next (fr : fixture) (i : Nat) (p : Ptr) : (fr.set i p)._next = fr._next := by
  simp only [fixture.set]
  split_ifs <;> rfl

theorem push_chain (w : FixView) (i j : Nat) (M : Ptr) (hi : i ≤ 4) (hj : j ≤ 4) :
    (w.push i M).chain j = if j = i then w.chain j ++ [M] else w.chain j := by
  interval_cases i <;> interval_cases j <;>
    simp [FixView.push, FixView.chain, AFTER_METHOD, AFTER_CLASS_METHOD, BEFORE_METHOD,
      BEFORE_CLASS_METHOD]

theorem push_ptr (w : FixView) (i : Nat) (M : Ptr) : (w.push i M).ptr = w.ptr := by
  simp only [FixView.push]
  split_ifs <;> rfl

theorem chainsOk_iff_forall {hM : Ptr → Option method} {fr : fixture} {w : FixView} :
    chainsOk hM fr w ↔ ∀ i, i ≤ 4 → isChain hM (fr.get i) (w.chain i) = true := by
  constructor
  · intro ⟨h0, h1, h2, h3, h4⟩ i hi
    interval_cases i <;>
      simpa [fixture.get, FixView.chain, AFTER_METHOD, AFTER_CLASS_METHOD, BEFORE_METHOD,
        BEFORE_CLASS_METHOD]
  · intro h
    have h0 := h 0 (by omega)
    have h1 := h 1 (by omega)
    have h2 := h 2 (by omega)
    have h3 := h 3 (by omega)
    have h4 := h 4 (by omega)
    simp only [fixture.get, FixView.chain, AFTER_METHOD, AFTER_CLASS_METHOD, BEFORE_METHOD,
      BEFORE_CLASS_METHOD] at h0 h1 h2 h3 h4
    exact ⟨by simpa using h0, by simpa using h1, by simpa using h2, by simpa using h3,
      by simpa using h4⟩

theorem mem_all_iff {w : FixView} {q : Ptr} : q ∈ w.all ↔ ∃ i, i ≤ 4 ∧ q ∈ w.chain i := by
  constructor
  · intro h
    simp only [FixView.all, List.mem_append] at h
    rcases h with (((h | h) | h) | h) | h
    · exact ⟨0, by omega, by simpa [FixView.chain, AFTER_METHOD] using h⟩
    · exact ⟨1, by omega, by simpa [FixView.chain, AFTER_METHOD, AFTER_CLASS_METHOD] using h⟩
    · exact ⟨2, by omega, by
        simpa [FixView.chain, AFTER_METHOD, AFTER_CLASS_METHOD, BEFORE_METHOD] using h⟩
    · exact ⟨3, by omega, by
        simpa [FixView.chain, AFTER_METHOD, AFTER_CLASS_METHOD, BEFORE_METHOD,
          BEFORE_CLASS_METHOD] using h⟩
    · exact ⟨4, by omega, by
        simpa [FixView.chain, AFTER_METHOD, AFTER_CLASS_METHOD, BEFORE_METHOD,
          BEFORE_CLASS_METHOD] using h⟩
  · rintro ⟨i, hi, h⟩
    simp only [FixView.all, List.mem_append]
    interval_cases i <;>
      simp [FixView.chain, AFTER_METHOD, AFTER_CLASS_METHOD, BEFORE_METHOD,
        BEFORE_CLASS_METHOD] at h <;> simp [h]

theorem chain_nodup {w : FixView} (hnd : w.all.Nodup) (i : Nat) (hi : i ≤ 4) :
    (w.chain i).Nodup := by
  simp only [FixView.all, List.nodup_append] at hnd
  interval_cases i <;>
    simp [FixView.chain, AFTER_METHOD, AFTER_CLASS_METHOD, BEFORE_METHOD,
      BEFORE_CLASS_METHOD] <;> tauto

theorem chain_disjoint {w : FixView} (hnd : w.all.Nodup) (i j : Nat) (hi : i ≤ 4) (hj : j ≤ 4)
    (hij : i ≠ j) (q : Ptr) (h1 : q ∈ w.chain i) (h2 : q ∈ w.chain j) : False := by
  simp only [FixView.all, List.nodup_append, List.disjoint_left, List.mem_append] at hnd
  obtain ⟨⟨⟨⟨_, _, d1⟩, _, d2⟩, _, d3⟩, _, d4⟩ := hnd
  have e1 := @d1 q
  have e2 := @d2 q
  have e3 := @d3 q
  have e4 := @d4 q
  interval_cases i <;> interval_cases j <;>
    simp [FixView.chain, AFTER_METHOD, AFTER_CLASS_METHOD, BEFORE_METHOD,
      BEFORE_CLASS_METHOD] at h1 h2 hij <;> tauto

theorem methodsKept_refl (h : Ptr → Option method) : methodsKept h h := fun _ => rfl

theorem methodsKept_trans {h1 h2 h3 : Ptr → Option method} (a : methodsKept h1 h2)
    (b : methodsKept h2 h3) : methodsKept h1 h3 := fun q => (b q).trans (a q)

theorem methodsKept_role {h h' : Ptr → Option method} (a : methodsKept h h') (q : Ptr) :
    roleOf h' q = roleOf h q := by
  have := congrArg (Option.map fun r : method => r._type) (a q)
  simpa [roleOf, Option.map_map, Function.comp, method.unlinked] using this

theorem methodsKept_set {h : Ptr → Option method} {l : Ptr} {rl : method} (hl : h l = some rl)
    (M : Ptr) : methodsKept h (fun q => if q = l then some { rl with _next := M } else h q) := by
  intro q
  by_cases e : q = l
  · simp [e, hl, method.unlinked]
  · simp [e]

theorem set_fixture_method_step (fuel n M : Nat) (t : State) (w : FixView) (fr : fixture)
    (rM : method) (hn : t.fixtures n = some fr) (hw : chainsOk t.methods fr w)
    (hnd : w.all.Nodup) (hMw : M ∉ w.all) (hM0 : M ≠ 0) (hrM : t.methods M = some rM)
    (hnext : rM._next = 0) (hty : rM._type ≤ 4) (hf : w.all.length < fuel) :
    ∃ t' fr', SET_FIXTURE_METHOD fuel n M t = some t' ∧ t'.fixtures n = some fr' ∧
      fr'._next = fr._next ∧ chainsOk t'.methods fr' (w.push rM._type M) ∧
      (∀ q, q ≠ n → t'.fixtures q = t.fixtures q) ∧
      (∀ q, q ∉ w.all → t'.methods q = t.methods q) ∧
      methodsKept t.methods t'.methods ∧
      t'.brk = t.brk ∧ t'._fixtures = t._fixtures ∧ t'._stats = t._stats ∧ t'.out = t.out := by
  have hall := chainsOk_iff_forall.mp hw
  have hci := hall rM._type hty
  have hload : t.load (.field n rM._type) = some (fr.get rM._type) := by
    simp [State.load, hn]
  have hslot : chainSlot n rM._type = some (.field n rM._type) := by
    simp [chainSlot, TEST_METHOD, hty]
  rcases List.eq_nil_or_concat (w.chain rM._type) with hc | ⟨c, l, hc⟩
  · -- the chain of this role is empty: the head is set
    rw [hc] at hci
    have h0 : fr.get rM._type = 0 := isChain_nil.mp hci
    rw [h0] at hload
    have hseek := seekLast_null fuel _ t hload (by omega)
    refine ⟨t.setFixture n (fr.set rM._type M), fr.set rM._type M, ?_, ?_, ?_, ?_, ?_, ?_, ?_,
      rfl, rfl, rfl, rfl⟩
    · simp [SET_FIXTURE_METHOD, hM0, hrM, hslot, hseek, hload, State.store, hn]
    · simp [State.setFixture]
    · exact fixture_set_next fr _ M
    · refine chainsOk_iff_forall.mpr (fun j hj => ?_)
      rw [fixture_get_set fr _ j M hty hj, push_chain w _ j M hty hj]
      by_cases e : j = rM._type
      · rw [if_pos e, if_pos e, e, hc]
        exact isChain_cons.mpr ⟨rfl, hM0, rM, hrM, by rw [hnext]; rfl⟩
      · rw [if_neg e, if_neg e]
        exact hall j hj
    · intro q hq
      simp [State.setFixture, hq]
    · intro q _; rfl
    · exact methodsKept_refl _
  · -- the chain ends in `l`: `M` is linked behind it
    rw [List.concat_eq_append] at hc
    rw [hc] at hci
    obtain ⟨rl, hrl, hrl0⟩ := isChain_last hci
    have hlw : l ∈ w.chain rM._type := by rw [hc]; simp
    have hl0 : l ≠ 0 := isChain_nonzero hci l (by simp)
    have hlall : l ∈ w.all := mem_all_iff.mpr ⟨_, hty, hlw⟩
    have hlM : l ≠ M := fun e => hMw (e ▸ hlall)
    have hlen : c.length < fuel := by
      have : (w.chain rM._type).length ≤ w.all.length := by
        have := w.length_le_all
        have hty' := hty
        interval_cases rM._type <;>
          simp [FixView.chain, AFTER_METHOD, AFTER_CLASS_METHOD, BEFORE_METHOD,
            BEFORE_CLASS_METHOD] <;> omega
      rw [hc] at this
      simp at this
      omega
    obtain ⟨m', hseek, hm'⟩ := seekLast_chain t l c fuel _ _ hload hci hlen
    refine ⟨t.setMethod l { rl with _next := M }, fr, ?_, hn, rfl, ?_, ?_, ?_, ?_,
      rfl, rfl, rfl, rfl⟩
    · simp [SET_FIXTURE_METHOD, hM0, hrM, hslot, hseek, hm', hl0, hrl]
    · refine chainsOk_iff_forall.mpr (fun j hj => ?_)
      rw [push_chain w _ j M hty hj]
      by_cases e : j = rM._type
      · rw [if_pos e, e, hc]
        have hnd' : (c ++ [l]).Nodup := hc ▸ chain_nodup hnd _ hty
        refine isChain_snoc rM hnd' ?_ hM0 hrl ?_ ?_ hnext ?_ hci
        · intro hm
          exact hMw (mem_all_iff.mpr ⟨_, hty, hc ▸ hm⟩)
        · simp [State.setMethod]
        · simp [State.setMethod, Ne.symm hlM, hrM]
        · intro q hq _
          simp [State.setMethod, hq]
      · rw [if_neg e]
        refine isChain_frame (hall j hj) (fun q hq => ?_)
        have hql : q ≠ l := fun e' =>
          chain_disjoint hnd j _ hj hty e q hq (e' ▸ hlw)
        obtain ⟨r, hr⟩ := isChain_mem (hall j hj) q hq
        simp [State.setMethod, hql, hr]
    · intro q _; rfl
    · intro q hq
      have hql : q ≠ l := fun e => hq (e ▸ hlall)
      simp [State.setMethod, hql]
    · exact methodsKept_set hrl M

theorem push_all_perm (w : FixView) (i : Nat) (M : Ptr) (hi : i ≤ 4) :
    List.Perm (w.push i M).all (M :: w.all) := by
  rw [List.perm_iff_count]
  intro a
  interval_cases i <;>
    simp [FixView.push, FixView.all, AFTER_METHOD, AFTER_CLASS_METHOD, BEFORE_METHOD,
      BEFORE_CLASS_METHOD, List.count_append, List.count_cons] <;> omega

theorem chainOf_cons_null (hM : Ptr → Option method) (ms : List Ptr) (i : Nat) :
    chainOf hM (0 :: ms) i = chainOf hM ms i := by
  simp [chainOf]

theorem chainOf_cons (hM : Ptr → Option method) (M : Ptr) (ms : List Ptr) (i : Nat) (r : method)
    (hM0 : M ≠ 0) (hr : hM M = some r) :
    chainOf hM (M :: ms) i = if i = r._type then M :: chainOf hM ms i else chainOf hM ms i := by
  by_cases e : i = r._type
  · simp [chainOf, roleOf, hr, hM0, e]
  · have : ¬ r._type = i := fun h => e h.symm
    simp [chainOf, roleOf, hr, e, this]

theorem chainOf_congr {h h' : Ptr → Option method} (a : methodsKept h h') (ms : List Ptr)
    (i : Nat) : chainOf h' ms i = chainOf h ms i := by
  simp only [chainOf, methodsKept_role a]

/-- The constructor's sequence of `SET_FIXTURE_METHOD` over the descriptors
`ms`, started with the chains `w` in the record at `n`. -/
theorem set_fixture_methods_fold (fuel n : Nat) (ms : List Ptr) :
    ∀ (t : State) (w : FixView) (fr : fixture),
      t.fixtures n = some fr → chainsOk t.methods fr w →
      (w.all ++ ms.filter (fun M => M != 0)).Nodup →
      (∀ M ∈ ms, M ≠ 0 → ∃ rM, t.methods M = some rM ∧ rM._next = 0 ∧ rM._type ≤ 4) →
      w.all.length + ms.length < fuel →
      ∃ t' fr', ms.foldlM (fun st M => SET_FIXTURE_METHOD fuel n M st) t = some t' ∧
        t'.fixtures n = some fr' ∧ fr'._next = fr._next ∧
        (∀ i, i ≤ 4 → isChain t'.methods (fr'.get i) (w.chain i ++ chainOf t.methods ms i) = true) ∧
        (∀ q, q ≠ n → t'.fixtures q = t.fixtures q) ∧
        (∀ q, q ∉ w.all → q ∉ ms.filter (fun M => M != 0) → t'.methods q = t.methods q) ∧
        methodsKept t.methods t'.methods ∧
        t'.brk = t.brk ∧ t'._fixtures = t._fixtures ∧ t'._stats = t._stats ∧ t'.out = t.out := by
  induction ms with
  | nil =>
    intro t w fr hn hw _ _ _
    refine ⟨t, fr, rfl, hn, rfl, ?_, fun _ _ => rfl, fun _ _ _ => rfl, methodsKept_refl _,
      rfl, rfl, rfl, rfl⟩
    intro i hi
    simpa [chainOf] using chainsOk_iff_forall.mp hw i hi
  | cons M ms ih =>
    intro t w fr hn hw hnd hms hf
    by_cases hM0 : M = 0
    · -- a null descriptor is passed over
      subst hM0
      obtain ⟨t', fr', h1, h2, h3, h4, h5, h6, h7, h8⟩ := ih t w fr hn hw
        (by simpa using hnd) (fun x hx => hms x (List.mem_cons_of_mem _ hx))
        (by simp at hf; omega)
      refine ⟨t', fr', ?_, h2, h3, ?_, h5, ?_, h7, h8⟩
      · simpa [List.foldlM_cons, SET_FIXTURE_METHOD] using h1
      · intro i hi
        rw [chainOf_cons_null]
        exact h4 i hi
      · intro q hq hq'
        exact h6 q hq (by simpa using hq')
    · obtain ⟨rM, hrM, hnext, hty⟩ := hms M (List.mem_cons_self _ _) hM0
      have hfil : (M :: ms).filter (fun M => M != 0) = M :: ms.filter (fun M => M != 0) := by
        simp [hM0]
      rw [hfil] at hnd
      have hnd1 := List.nodup_append.mp hnd
      have hMw : M ∉ w.all := fun h => hnd1.2.2 h (List.mem_cons_self _ _)
      obtain ⟨t1, fr1, s1, s2, s3, s4, s5, s6, s7, s8, s9, s10, s11⟩ :=
        set_fixture_method_step fuel n M t w fr rM hn hw hnd1.1 hMw hM0 hrM hnext hty
          (by simp at hf; omega)
      have hperm := push_all_perm w rM._type M hty
      have hnd2 : ((w.push rM._type M).all ++ ms.filter (fun M => M != 0)).Nodup := by
        have hp : List.Perm ((w.push rM._type M).all ++ ms.filter (fun M => M != 0))
            (w.all ++ M :: ms.filter (fun M => M != 0)) :=
          (List.Perm.append_right _ hperm).trans (by
            simpa using (List.perm_middle :
              List.Perm (w.all ++ M :: ms.filter (fun M => M != 0))
                (M :: (w.all ++ ms.filter (fun M => M != 0)))).symm)
        exact hp.nodup_iff.mpr hnd
      have hms2 : ∀ x ∈ ms, x ≠ 0 →
          ∃ rx, t1.methods x = some rx ∧ rx._next = 0 ∧ rx._type ≤ 4 := by
        intro x hx hx0
        obtain ⟨rx, h1, h2, h3⟩ := hms x (List.mem_cons_of_mem _ hx) hx0
        have hxw : x ∉ w.all := fun h => hnd1.2.2 h
          (List.mem_cons_of_mem _ (List.mem_filter.mpr ⟨hx, by simpa using hx0⟩))
        exact ⟨rx, by rw [s6 x hxw]; exact h1, h2, h3⟩
      obtain ⟨t', fr', h1, h2, h3, h4, h5, h6, h7, h8, h9, h10, h11⟩ := ih t1 (w.push rM._type M)
        fr1 s2 s4 hnd2 hms2 (by rw [hperm.length_eq]; simp at hf ⊢; omega)
      refine ⟨t', fr', ?_, h2, h3.trans s3, ?_, ?_, ?_, methodsKept_trans s7 h7,
        h8.trans s8, h9.trans s9, h10.trans s10, h11.trans s11⟩
      · simp [List.foldlM_cons, s1, h1]
      · intro i hi
        have := h4 i hi
        rw [chainOf_congr s7, push_chain w _ i M hty hi] at this
        rw [chainOf_cons t.methods M ms i rM hM0 hrM]
        by_cases e : i = rM._type
        · rw [if_pos e] at this ⊢
          simpa using this
        · rw [if_neg e] at this ⊢
          exact this
      · intro q hq
        rw [h5 q hq, s5 q hq]
      · intro q hq hq'
        rw [hfil] at hq'
        have hqM : q ≠ M := fun e => hq' (e ▸ List.mem_cons_self _ _)
        have hq1 : q ∉ (w.push rM._type M).all := by
          intro h
          rcases List.mem_cons.mp (hperm.mem_iff.mp h) with h | h
          · exact hqM h
          · exact hq h
        rw [h6 q hq1 (fun h => hq' (List.mem_cons_of_mem _ h)), s6 q hq]

/-! ## The list of fixtures in the heap -/

theorem isFixChain_frame {h h' : Ptr → Option fixture} {l : List Ptr} :
    ∀ {p : Ptr}, isFixChain h p l = true →
      (∀ q ∈ l, (h' q).isSome = true ∧ (h' q).map (fun r => r._next) = (h q).map fun r => r._next) →
      isFixChain h' p l = true := by
  induction l with
  | nil => intro p hc _; simpa [isFixChain] using hc
  | cons x xs ih =>
    intro p hc hq
    obtain ⟨rfl, hne, r, hr, hk⟩ := isFixChain_cons.mp hc
    obtain ⟨hs, hm⟩ := hq p (List.mem_cons_self _ _)
    obtain ⟨r', hr'⟩ := Option.isSome_iff_exists.mp hs
    rw [hr, hr'] at hm
    simp only [Option.map_some', Option.some.injEq] at hm
    refine isFixChain_cons.mpr ⟨rfl, hne, r', hr', ?_⟩
    rw [hm]
    exact ih hk (fun q hq' => hq q (List.mem_cons_of_mem _ hq'))

theorem isFixChain_nonzero {h : Ptr → Option fixture} {l : List Ptr} :
    ∀ {p : Ptr}, isFixChain h p l = true → ∀ q ∈ l, q ≠ 0 := by
  induction l with
  | nil => intro p _ q hq; cases hq
  | cons x xs ih =>
    intro p hc q hq
    obtain ⟨_, hne, r, _, hk⟩ := isFixChain_cons.mp hc
    rcases List.mem_cons.mp hq with rfl | hq
    · exact hne
    · exact ih hk q hq

theorem isFixChain_mem {h : Ptr → Option fixture} {l : List Ptr} :
    ∀ {p : Ptr}, isFixChain h p l = true → ∀ q ∈ l, ∃ r, h q = some r := by
  induction l with
  | nil => intro p _ q hq; cases hq
  | cons x xs ih =>
    intro p hc q hq
    obtain ⟨_, _, r, hr, hk⟩ := isFixChain_cons.mp hc
    rcases List.mem_cons.mp hq with rfl | hq
    · exact ⟨r, hr⟩
    · exact ih hk q hq

theorem isFixChain_last {h : Ptr → Option fixture} {c : List Ptr} {l : Ptr} :
    ∀ {p : Ptr}, isFixChain h p (c ++ [l]) = true → ∃ r, h l = some r ∧ r._next = 0 := by
  induction c with
  | nil =>
    intro p hc
    obtain ⟨_, _, r, hr, hk⟩ := isFixChain_cons.mp hc
    exact ⟨r, hr, isFixChain_nil.mp hk⟩
  | cons x xs ih =>
    intro p hc
    obtain ⟨_, _, r, _, hk⟩ := isFixChain_cons.mp hc
    exact ih hk

theorem isFixChain_snoc {h h' : Ptr → Option fixture} {c : List Ptr} {l n : Ptr}
    {rl : fixture} (rn : fixture) (hnd : (c ++ [l]).Nodup) (hn : n ∉ c ++ [l]) (hn0 : n ≠ 0)
    (hl : h l = some rl) (hl' : h' l = some { rl with _next := n })
    (hrn : h' n = some rn) (hrn0 : rn._next = 0)
    (hfr : ∀ q, q ≠ l → q ≠ n → h' q = h q) :
    ∀ {p : Ptr}, isFixChain h p (c ++ [l]) = true →
      isFixChain h' p (c ++ [l] ++ [n]) = true := by
  induction c with
  | nil =>
    intro p hc
    obtain ⟨rfl, hne, r, hr, _⟩ := isFixChain_cons.mp hc
    refine isFixChain_cons.mpr ⟨rfl, hne, _, hl', ?_⟩
    exact isFixChain_cons.mpr ⟨rfl, hn0, rn, hrn, by rw [hrn0]; rfl⟩
  | cons x xs ih =>
    intro p hc
    obtain ⟨rfl, hne, r, hr, hk⟩ := isFixChain_cons.mp hc
    have hxl : p ≠ l := by
      intro e
      have := (List.nodup_cons.mp hnd).1
      exact this (by rw [e]; simp)
    have hxn : p ≠ n := by
      intro e
      exact hn (by rw [e]; simp)
    refine isFixChain_cons.mpr ⟨rfl, hne, r, by rw [hfr p hxl hxn]; exact hr, ?_⟩
    exact ih (List.nodup_cons.mp hnd).2 (fun hm => hn (List.mem_cons_of_mem _ hm)) hk

theorem lastFixture_null (fuel : Nat) (s : State) (hf : 0 < fuel) :
    lastFixture fuel 0 s = some 0 := by
  obtain ⟨n, rfl⟩ : ∃ n, fuel = n + 1 := ⟨fuel - 1, by omega⟩
  simp [lastFixture]

theorem lastFixture_chain (s : State) (l : Ptr) (c : List Ptr) :
    ∀ (fuel : Nat) (p : Ptr), isFixChain s.fixtures p (c ++ [l]) = true → c.length < fuel →
      lastFixture fuel p s = some l := by
  induction c with
  | nil =>
    intro fuel p hc hf
    obtain ⟨n, rfl⟩ : ∃ n, fuel = n + 1 := ⟨fuel - 1, by simp at hf; omega⟩
    obtain ⟨rfl, hne, r, hr, hk⟩ := isFixChain_cons.mp hc
    simp [lastFixture, hne, hr, isFixChain_nil.mp hk]
  | cons x xs ih =>
    intro fuel p hc hf
    obtain ⟨n, rfl⟩ : ∃ n, fuel = n + 1 := ⟨fuel - 1, by simp at hf; omega⟩
    obtain ⟨rfl, hne, r, hr, hk⟩ := isFixChain_cons.mp hc
    have hnz : r._next ≠ 0 := by
      intro e
      have := isFixChain_nonzero hk r._next (by
        cases xs with
        | nil => obtain ⟨e', _⟩ := isFixChain_cons.mp hk; simp [e']
        | cons y ys => obtain ⟨e', _⟩ := isFixChain_cons.mp hk; simp [e'])
      exact this e
    simp only [lastFixture, hne, if_false, hr, Option.bind_eq_bind, Option.some_bind, hnz]
    exact ih n r._next hk (by simp at hf; omega)

theorem separated_iff {s : State} {R : List FixView} :
    separated s R = true ↔
      (R.map fun v => v.ptr).Nodup ∧ (R.flatMap FixView.all).Nodup ∧
      (∀ v ∈ R, v.ptr < s.brk ∧ ∀ m ∈ v.all, m < s.brk) ∧ 0 < s.brk := by
  simp [separated, and_assoc]

/-- The first three lines of the constructor: the new record is made and
linked behind the last record of the Registry. -/
theorem ctor_unfold (fuel : Nat) (args : List Ptr) (s : State) :
    TestFixture.TestFixture fuel args s =
      (lastFixture fuel s._fixtures s).bind fun f =>
        if f ≠ 0 then
          ((s.newFixture.2.fixtures f).map fun r =>
              s.newFixture.2.setFixture f { r with _next := s.newFixture.1 }).bind fun s2 =>
            (params args).foldlM (fun st M => SET_FIXTURE_METHOD fuel s.newFixture.1 M st) s2
        else
          (params args).foldlM (fun st M => SET_FIXTURE_METHOD fuel s.newFixture.1 M st)
            { s.newFixture.2 with _fixtures := s.newFixture.1 } := by
  rfl

theorem link_new_fixture (fuel : Nat) (s : State) (R : List FixView)
    (hR : represents s R = true) (hS : separated s R = true) (hf : R.length < fuel) :
    ∃ f s2, lastFixture fuel s._fixtures s = some f ∧
      (f ≠ 0 → (s.newFixture.2.fixtures f).map (fun r =>
            s.newFixture.2.setFixture f { r with _next := s.newFixture.1 }) = some s2) ∧
      (f = 0 → s2 = { s.newFixture.2 with _fixtures := s.newFixture.1 }) ∧
      s2.methods = s.methods ∧ s2.brk = s.brk + 1 ∧ s2._stats = s._stats ∧ s2.out = s.out ∧
      s2.fixtures s.brk = some fixture.fixture ∧
      isFixChain s2.fixtures s2._fixtures ((R.map fun v => v.ptr) ++ [s.brk]) = true ∧
      ∀ v ∈ R, ∃ fr, s2.fixtures v.ptr = some fr ∧ chainsOk s.methods fr v := by
  obtain ⟨hc, hv⟩ := represents_iff.mp hR
  obtain ⟨hnd, _, hb, hb0⟩ := separated_iff.mp hS
  have hn0 : s.brk ≠ 0 := by omega
  have hnR : s.brk ∉ R.map fun v => v.ptr := by
    intro h
    obtain ⟨v, hv', e⟩ := List.mem_map.mp h
    exact absurd e (Nat.ne_of_lt (hb v hv').1)
  rcases List.eq_nil_or_concat R with hnil | ⟨R', vl, hR'⟩
  · -- the Registry is empty: the new record becomes its head
    subst hnil
    have h0 : s._fixtures = 0 := by simpa [isFixChain] using hc
    refine ⟨0, { s.newFixture.2 with _fixtures := s.newFixture.1 }, ?_, by simp, fun _ => rfl,
      rfl, rfl, rfl, rfl, by simp [State.newFixture], ?_, by simp⟩
    · rw [h0]; exact lastFixture_null fuel s (by omega)
    · exact isFixChain_cons.mpr ⟨rfl, hn0, fixture.fixture, by simp [State.newFixture],
        by simp [fixture.fixture, isFixChain]⟩
  · -- the new record is linked behind the last one
    rw [List.concat_eq_append] at hR'
    subst hR'
    simp only [List.map_append, List.map_cons, List.map_nil] at hc hnd hnR
    obtain ⟨rl, hrl, hrl0⟩ := isFixChain_last hc
    have hl0 : vl.ptr ≠ 0 := isFixChain_nonzero hc vl.ptr (by simp)
    have hln : vl.ptr ≠ s.brk := fun e => hnR (by rw [← e]; simp)
    have hlast := lastFixture_chain s vl.ptr (R'.map fun v => v.ptr) fuel s._fixtures hc
      (by simp at hf ⊢; omega)
    have hrl1 : s.newFixture.2.fixtures vl.ptr = some rl := by
      simp [State.newFixture, hln, hrl]
    refine ⟨vl.ptr, s.newFixture.2.setFixture vl.ptr { rl with _next := s.newFixture.1 }, hlast,
      fun _ => by simp [hrl1], fun e => absurd e hl0, rfl, rfl, rfl, rfl, ?_, ?_, ?_⟩
    · simp [State.setFixture, State.newFixture, Ne.symm hln]
    · simp only [List.map_append, List.map_cons, List.map_nil]
      refine isFixChain_snoc fixture.fixture hnd hnR hn0 hrl ?_ ?_ rfl ?_ hc
      · simp [State.setFixture, State.newFixture]
      · simp [State.setFixture, State.newFixture, Ne.symm hln]
      · intro q hq1 hq2
        simp [State.setFixture, State.newFixture, hq1, hq2]
    · intro v hvR
      obtain ⟨fr, hfr, hch⟩ := hv v hvR
      have hvn : v.ptr ≠ s.brk := Nat.ne_of_lt (hb v hvR).1
      by_cases e : v.ptr = vl.ptr
      · have : fr = rl := by rw [e, hrl] at hfr; exact (Option.some.inj hfr).symm
        subst this
        exact ⟨{ fr with _next := s.newFixture.1 },
          by simp [State.setFixture, e], hch⟩
      · exact ⟨fr, by simp [State.setFixture, State.newFixture, e, hvn, hfr], hch⟩

/-! ## The constructor -/

theorem params_eq (args : List Ptr) (h : args.length ≤ 30) :
    params args = args ++ List.replicate (30 - args.length) 0 := by
  apply List.ext_getElem
  · simp [params]; omega
  · intro i h1 h2
    simp only [params, List.getElem_map, List.getElem_range, List.getD_eq_getElem?_getD]
    by_cases hi : i < args.length
    · simp [List.getElem_append_left, hi]
    · rw [List.getElem_append_right (not_lt.mp hi)]
      simp [List.getElem?_eq_none (not_lt.mp hi)]

theorem chainOf_append_nulls (hM : Ptr → Option method) (args : List Ptr) (k i : Nat) :
    chainOf hM (args ++ List.replicate k 0) i = chainOf hM args i := by
  simp only [chainOf, List.filter_append]
  have : (List.replicate k 0).filter (fun M => M != 0 && roleOf hM M == some i) = [] := by
    rw [List.filter_eq_nil_iff]
    intro a ha
    simp [(List.mem_replicate.mp ha).2]
  rw [this, List.append_nil]

theorem filter_append_nulls (args : List Ptr) (k : Nat) :
    (args ++ List.replicate k 0).filter (fun M => M != 0) = args.filter (fun M => M != 0) := by
  simp only [List.filter_append]
  have : (List.replicate k 0).filter (fun M => M != 0) = [] := by
    rw [List.filter_eq_nil_iff]
    intro a ha
    simp [(List.mem_replicate.mp ha).2]
  rw [this, List.append_nil]

theorem newView_chain (hM : Ptr → Option method) (n : Ptr) (args : List Ptr) (i : Nat)
    (hi : i ≤ 4) : (newView hM n args).chain i = chainOf hM args i := by
  interval_cases i <;>
    simp [newView, FixView.chain, AFTER_METHOD, AFTER_CLASS_METHOD, BEFORE_METHOD,
      BEFORE_CLASS_METHOD, TEST_METHOD]

theorem mem_chainOf {hM : Ptr → Option method} {args : List Ptr} {i : Nat} {q : Ptr} :
    q ∈ chainOf hM args i ↔ q ∈ args ∧ q ≠ 0 ∧ roleOf hM q = some i := by
  simp [chainOf, List.mem_filter]

theorem mem_newView_all {hM : Ptr → Option method} {n : Ptr} {args : List Ptr} {q : Ptr}
    (h : q ∈ (newView hM n args).all) : q ∈ args ∧ q ≠ 0 := by
  obtain ⟨i, hi, hq⟩ := mem_all_iff.mp h
  rw [newView_chain hM n args i hi] at hq
  exact ⟨(mem_chainOf.mp hq).1, (mem_chainOf.mp hq).2.1⟩

theorem chainOf_nodup (hM : Ptr → Option method) (args : List Ptr) (i : Nat)
    (hnd : (args.filter fun M => M != 0).Nodup) : (chainOf hM args i).Nodup := by
  have : chainOf hM args i =
      (args.filter fun M => M != 0).filter fun M => roleOf hM M == some i := by
    simp only [chainOf, List.filter_filter]
    congr 1
    funext M
    exact Bool.and_comm _ _
  rw [this]
  exact hnd.filter _

theorem newView_all_nodup (hM : Ptr → Option method) (n : Ptr) (args : List Ptr)
    (hnd : (args.filter fun M => M != 0).Nodup) : (newView hM n args).all.Nodup := by
  have h0 := chainOf_nodup hM args AFTER_METHOD hnd
  have h1 := chainOf_nodup hM args AFTER_CLASS_METHOD hnd
  have h2 := chainOf_nodup hM args BEFORE_METHOD hnd
  have h3 := chainOf_nodup hM args BEFORE_CLASS_METHOD hnd
  have h4 := chainOf_nodup hM args TEST_METHOD hnd
  simp only [FixView.all, newView, List.nodup_append, List.disjoint_left, List.mem_append,
    mem_chainOf]
  refine ⟨⟨⟨⟨h0, h1, ?_⟩, h2, ?_⟩, h3, ?_⟩, h4, ?_⟩
  · rintro a ⟨_, _, e⟩ ⟨_, _, e'⟩
    rw [e] at e'; exact absurd (Option.some.inj e') (by decide)
  · rintro a (⟨_, _, e⟩ | ⟨_, _, e⟩) ⟨_, _, e'⟩ <;>
      (rw [e] at e'; exact absurd (Option.some.inj e') (by decide))
  · rintro a ((⟨_, _, e⟩ | ⟨_, _, e⟩) | ⟨_, _, e⟩) ⟨_, _, e'⟩ <;>
      (rw [e] at e'; exact absurd (Option.some.inj e') (by decide))
  · rintro a (((⟨_, _, e⟩ | ⟨_, _, e⟩) | ⟨_, _, e⟩) | ⟨_, _, e⟩) ⟨_, _, e'⟩ <;>
      (rw [e] at e'; exact absurd (Option.some.inj e') (by decide))

theorem freshDescriptor_iff {s : State} {R : List FixView} {M : Ptr} :
    freshDescriptor s R M = true ↔
      ∃ r, s.methods M = some r ∧ r._next = 0 ∧ r._type ≤ 4 ∧ M < s.brk ∧
        M ∉ R.flatMap FixView.all := by
  unfold freshDescriptor
  cases s.methods M <;> simp [TEST_METHOD, and_assoc]

theorem chainsOk_frame {h h' : Ptr → Option method} {fr : fixture} {v : FixView}
    (hc : chainsOk h fr v) (hq : ∀ q ∈ v.all, h' q = h q) : chainsOk h' fr v := by
  refine chainsOk_iff_forall.mpr (fun i hi => ?_)
  have hci := chainsOk_iff_forall.mp hc i hi
  refine isChain_frame hci (fun q hq' => ?_)
  obtain ⟨r, hr⟩ := isChain_mem hci q hq'
  rw [hq q (mem_all_iff.mpr ⟨i, hi, hq'⟩)]
  simp [hr]

theorem mem_params {args : List Ptr} (hlen : args.length ≤ 30) {q : Ptr}
    (h : q ∈ params args) : q ∈ args ∨ q = 0 := by
  rw [params_eq args hlen] at h
  rcases List.mem_append.mp h with h | h
  · exact Or.inl h
  · exact Or.inr (List.mem_replicate.mp h).2

/-- The constructor on a Registry `R` whose records are not shared, given at
most thirty descriptors, the non-null ones distinct and fresh: with fuel above
the length of the Registry plus thirty it returns, and the Registry is then
`R` followed by one new record whose chains hold the descriptors by role. -/
theorem ctor_spec (fuel : Nat) (args : List Ptr) (s : State) (R : List FixView)
    (hR : represents s R = true) (hS : separated s R = true) (hlen : args.length ≤ 30)
    (hnd : (args.filter fun M => M != 0).Nodup)
    (hfresh : ∀ M ∈ args, M ≠ 0 → freshDescriptor s R M = true)
    (hf : R.length + 30 < fuel) :
    ∃ s', TestFixture.TestFixture fuel args s = some s' ∧
      represents s' (R ++ [newView s.methods s.brk args]) = true ∧
      separated s' (R ++ [newView s.methods s.brk args]) = true ∧
      methodsKept s.methods s'.methods ∧
      (∀ q, q ∉ args → s'.methods q = s.methods q) ∧
      s'.brk = s.brk + 1 ∧ s'._stats = s._stats ∧ s'.out = s.out := by
  obtain ⟨f, s2, hlast, hlink1, hlink0, l1, l2, l3, l4, l5, l6, l7⟩ :=
    link_new_fixture fuel s R hR hS (by omega)
  obtain ⟨hc, hv⟩ := represents_iff.mp hR
  obtain ⟨hndp, hndm, hb, hb0⟩ := separated_iff.mp hS
  have hfr : ∀ M ∈ args, M ≠ 0 → ∃ r, s.methods M = some r ∧ r._next = 0 ∧ r._type ≤ 4 ∧
      M < s.brk ∧ M ∉ R.flatMap FixView.all :=
    fun M hM hM0 => freshDescriptor_iff.mp (hfresh M hM hM0)
  -- the thirty calls of SET_FIXTURE_METHOD
  obtain ⟨t', fr', h1, h2, h3, h4, h5, h6, h7, h8, h9, h10, h11⟩ :=
    set_fixture_methods_fold fuel s.brk (params args) s2
      { ptr := s.brk, afters := [], after_classes := [], befores := [], before_classes := [],
        tests := [] } fixture.fixture l5
      (by simp [chainsOk, isChain, fixture.fixture])
      (by
        rw [params_eq args hlen, filter_append_nulls]
        simpa [FixView.all] using hnd)
      (by
        intro M hM hM0
        rcases mem_params hlen hM with hM | hM
        · obtain ⟨r, a, b, c, _⟩ := hfr M hM hM0
          exact ⟨r, by rw [l1]; exact a, b, c⟩
        · exact absurd hM hM0)
      (by simp [FixView.all, params]; omega)
  have hrun : TestFixture.TestFixture fuel args s = some t' := by
    rw [ctor_unfold, hlast, Option.some_bind]
    by_cases e : f = 0
    · rw [if_neg (not_not.mpr e), ← hlink0 e]; exact h1
    · rw [if_pos e, hlink1 e, Option.some_bind]; exact h1
  have hkept : methodsKept s.methods t'.methods := by rw [← l1]; exact h7
  have hsame : ∀ q, q ∉ args → t'.methods q = s.methods q := by
    intro q hq
    rw [h6 q (by simp [FixView.all]) (by
      rw [params_eq args hlen, filter_append_nulls]
      exact fun h => hq (List.mem_filter.mp h).1), l1]
  have hnew : ∀ q ∈ (newView s.methods s.brk args).all, q ∈ args ∧ q ≠ 0 :=
    fun q hq => mem_newView_all hq
  have hold : ∀ v ∈ R, ∀ q ∈ v.all, q ∉ args := by
    intro v hvR q hq hqa
    have hq0 : q ≠ 0 := by
      obtain ⟨fr, _, hch⟩ := hv v hvR
      obtain ⟨i, hi, hqi⟩ := mem_all_iff.mp hq
      exact isChain_nonzero (chainsOk_iff_forall.mp hch i hi) q hqi
    obtain ⟨_, _, _, _, _, hn⟩ := hfr q hqa hq0
    exact hn (List.mem_flatMap.mpr ⟨v, hvR, hq⟩)
  refine ⟨t', hrun, ?_, ?_, hkept, hsame, h8.trans l2, h10.trans l3, h11.trans l4⟩
  · -- the Registry is `R` followed by the new record
    refine represents_iff.mpr ⟨?_, ?_⟩
    · rw [List.map_append, List.map_cons, List.map_nil, h9]
      refine isFixChain_frame l6 (fun q hq => ?_)
      by_cases e : q = s.brk
      · rw [e, h2, l5]
        exact ⟨rfl, by simp [h3]⟩
      · rw [h5 q e]
        obtain ⟨r, hr⟩ := isFixChain_mem l6 q hq
        exact ⟨by simp [hr], rfl⟩
    · intro v hvm
      rcases List.mem_append.mp hvm with hvR | hvn
      · obtain ⟨fr, hfr', hch⟩ := l7 v hvR
        have hne : v.ptr ≠ s.brk := Nat.ne_of_lt (hb v hvR).1
        exact ⟨fr, by rw [h5 v.ptr hne]; exact hfr',
          chainsOk_frame hch (fun q hq => hsame q (hold v hvR q hq))⟩
      · rw [List.mem_singleton.mp hvn]
        refine ⟨fr', h2, chainsOk_iff_forall.mpr (fun i hi => ?_)⟩
        have := h4 i hi
        rw [l1, params_eq args hlen, chainOf_append_nulls] at this
        rw [newView_chain _ _ _ i hi]
        simpa [FixView.chain] using this
  · -- and no record is shared
    refine separated_iff.mpr ⟨?_, ?_, ?_, by omega⟩
    · rw [List.map_append, List.map_cons, List.map_nil]
      refine List.nodup_append.mpr ⟨hndp, List.nodup_singleton _, ?_⟩
      intro p hp hp'
      obtain ⟨v, hvR, e⟩ := List.mem_map.mp hp
      rw [List.mem_singleton.mp hp'] at e
      exact absurd e (Nat.ne_of_lt (hb v hvR).1)
    · rw [List.flatMap_append]
      refine List.nodup_append.mpr ⟨hndm, by
        simpa using newView_all_nodup s.methods s.brk args hnd, ?_⟩
      intro q hq hq'
      obtain ⟨v, hvR, hqv⟩ := List.mem_flatMap.mp hq
      have hq'' : q ∈ (newView s.methods s.brk args).all := by simpa using hq'
      exact hold v hvR q hqv (hnew q hq'').1
    · intro v hvm
      rw [h8, l2]
      rcases List.mem_append.mp hvm with hvR | hvn
      · exact ⟨Nat.lt_succ_of_lt (hb v hvR).1, fun m hm => Nat.lt_succ_of_lt ((hb v hvR).2 m hm)⟩
      · rw [List.mem_singleton.mp hvn]
        refine ⟨Nat.lt_succ_self _, fun m hm => ?_⟩
        obtain ⟨hma, hm0⟩ := hnew m hm
        obtain ⟨_, _, _, _, hlt, _⟩ := hfr m hma hm0
        exact Nat.lt_succ_of_lt hlt

/-! ## Making the descriptors -/

theorem method_ctor_spec {raw : List Nat} {obj addr : Nat} {name : Option CStr} {type : Nat}
    {m : method} (h : method.method raw obj addr name type = some m) :
    m._this = obj ∧ m._addr = addr ∧ m._type = type ∧ m._next = 0 := by
  unfold method.method at h
  cases name with
  | none =>
    simp only [Option.some.injEq] at h
    subst h
    exact ⟨rfl, rfl, rfl, rfl⟩
  | some cs =>
    simp only [Option.map_eq_some'] at h
    obtain ⟨buf, _, rfl⟩ := h
    exact ⟨rfl, rfl, rfl, rfl⟩

theorem describe_spec {this : Nat} {d : Descriptor} {s : State} {r : Ptr × State}
    (h : describe this d s = some r) :
    ∃ m, r = s.newMethod m ∧ m._this = this ∧ m._addr = d.addr ∧ m._type = d.role.code ∧
      m._next = 0 := by
  unfold describe at h
  cases hd : d.role <;> rw [hd] at h <;>
    simp only [After, AfterClass, Before, BeforeClass, Test, Option.map_eq_some'] at h <;>
    obtain ⟨m, hm, rfl⟩ := h <;>
    exact ⟨m, rfl, (method_ctor_spec hm).1, (method_ctor_spec hm).2.1,
      (method_ctor_spec hm).2.2.1, (method_ctor_spec hm).2.2.2⟩

theorem role_code_le (r : Role) : r.code ≤ 4 := by
  cases r <;> simp [Role.code, AFTER_METHOD, AFTER_CLASS_METHOD, BEFORE_METHOD,
    BEFORE_CLASS_METHOD, TEST_METHOD]

theorem describeAll_spec (this : Nat) (ds : List (Option Descriptor)) :
    ∀ (s : State) (args : List Ptr) (s1 : State), 0 < s.brk →
      describeAll this ds s = some (args, s1) →
      s1.fixtures = s.fixtures ∧ s1._fixtures = s._fixtures ∧ s1._stats = s._stats ∧
      s1.out = s.out ∧ s1.brk = s.brk + countDescriptors ds ∧
      (∀ q, q < s.brk → s1.methods q = s.methods q) ∧
      args.length = ds.length ∧
      (∀ i, chainOf s1.methods args i = layoutChain i s.brk ds) ∧
      (args.filter fun M => M != 0).Nodup ∧
      ∀ M ∈ args, M ≠ 0 → s.brk ≤ M ∧ M < s1.brk ∧
        ∃ r, s1.methods M = some r ∧ r._next = 0 ∧ r._type ≤ 4 ∧ r._this = this := by
  induction ds with
  | nil =>
    intro s args s1 _ h
    simp only [describeAll, Option.some.injEq, Prod.mk.injEq] at h
    obtain ⟨rfl, rfl⟩ := h
    simp [countDescriptors, chainOf, layoutChain]
  | cons d ds ih =>
    intro s args s1 hb h
    cases d with
    | none =>
      simp only [describeAll, Option.map_eq_some'] at h
      obtain ⟨⟨args', s1'⟩, h', e⟩ := h
      simp only [Prod.mk.injEq] at e
      obtain ⟨rfl, rfl⟩ := e
      obtain ⟨a1, a2, a3, a4, a5, a6, a7, a8, a9, a10⟩ := ih s args' s1' hb h'
      refine ⟨a1, a2, a3, a4, a5, a6, by simp [a7], ?_, by simpa using a9, ?_⟩
      · intro i
        rw [chainOf_cons_null]
        exact a8 i
      · intro M hM hM0
        rcases List.mem_cons.mp hM with e | hM
        · exact absurd e hM0
        · exact a10 M hM hM0
    | some d =>
      simp only [describeAll, Option.bind_eq_some, Option.map_eq_some'] at h
      obtain ⟨r, hr, ⟨args', s1'⟩, h', e⟩ := h
      simp only [Prod.mk.injEq] at e
      obtain ⟨rfl, rfl⟩ := e
      obtain ⟨m, rfl, m1, m2, m3, m4⟩ := describe_spec hr
      have hb' : 0 < (s.newMethod m).2.brk := by simp [State.newMethod]
      obtain ⟨a1, a2, a3, a4, a5, a6, a7, a8, a9, a10⟩ := ih (s.newMethod m).2 args' s1' hb' h'
      have hp : s1'.methods s.brk = some m := by
        rw [a6 s.brk (by simp [State.newMethod])]
        simp [State.newMethod]
      have hp0 : s.brk ≠ 0 := by omega
      have hnot : s.brk ∉ args'.filter fun M => M != 0 := by
        intro hmem
        obtain ⟨hM, hM0⟩ := List.mem_filter.mp hmem
        have := (a10 s.brk hM (by simpa using hM0)).1
        simp [State.newMethod] at this
      refine ⟨a1, a2, a3, a4, ?_, ?_, by simp [State.newMethod, a7], ?_, ?_, ?_⟩
      · rw [a5]; simp [State.newMethod, countDescriptors]; omega
      · intro q hq
        rw [a6 q (by simp [State.newMethod]; omega)]
        simp [State.newMethod, Nat.ne_of_lt hq]
      · intro i
        show chainOf s1'.methods (s.brk :: args') i = _
        rw [chainOf_cons s1'.methods s.brk args' i m hp0 hp, a8 i, m3]
        simp only [layoutChain, State.newMethod]
        by_cases e : i = d.role.code
        · rw [if_pos e, if_pos e.symm]
        · rw [if_neg e, if_neg (fun h => e h.symm)]
      · show ((s.brk :: args').filter fun M => M != 0).Nodup
        rw [List.filter_cons_of_pos (by simpa using hp0)]
        exact List.nodup_cons.mpr ⟨hnot, a9⟩
      · intro M hM hM0
        rcases List.mem_cons.mp hM with e | hM
        · subst e
          have hbrk : (s.newMethod m).2.brk = s.brk + 1 := rfl
          exact ⟨le_refl _, by rw [a5, hbrk]; exact Nat.lt_add_right _ (Nat.lt_succ_self _),
            m, hp, m4, by rw [m3]; exact role_code_le _, m1⟩
        · obtain ⟨b1, b2, b3⟩ := a10 M hM hM0
          exact ⟨by simp [State.newMethod] at b1; omega, b2, b3⟩

theorem describeAll_some (this : Nat) (ds : List (Option Descriptor)) :
    ∀ s : State, namesFit ds = true → ∃ r, describeAll this ds s = some r := by
  induction ds with
  | nil => intro s _; exact ⟨_, rfl⟩
  | cons d ds ih =>
    intro s h
    simp only [namesFit, List.all_cons, Bool.and_eq_true] at h
    obtain ⟨hd, hds⟩ := h
    cases d with
    | none =>
      obtain ⟨r, hr⟩ := ih s hds
      exact ⟨(0 :: r.1, r.2), by simp [describeAll, hr]⟩
    | some d =>
      have hm : ∃ m, describe this d s = some (s.newMethod m) := by
        have key : ∀ type, ∃ m, method.method d.raw this d.addr d.name type = some m := by
          intro type
          unfold method.method
          cases hn : d.name with
          | none => exact ⟨_, rfl⟩
          | some cs =>
            simp only [hn] at hd
            obtain ⟨buf, hbuf⟩ := Option.isSome_iff_exists.mp hd
            exact ⟨⟨this, d.addr, buf, type, 0⟩, by simp [hbuf]⟩
        unfold describe
        cases d.role <;> simp only [After, AfterClass, Before, BeforeClass, Test]
        · obtain ⟨m, hm⟩ := key AFTER_METHOD; exact ⟨m, by simp [hm]⟩
        · obtain ⟨m, hm⟩ := key AFTER_CLASS_METHOD; exact ⟨m, by simp [hm]⟩
        · obtain ⟨m, hm⟩ := key BEFORE_METHOD; exact ⟨m, by simp [hm]⟩
        · obtain ⟨m, hm⟩ := key BEFORE_CLASS_METHOD; exact ⟨m, by simp [hm]⟩
        · obtain ⟨m, hm⟩ := key TEST_METHOD; exact ⟨m, by simp [hm]⟩
      obtain ⟨m, hm⟩ := hm
      obtain ⟨r, hr⟩ := ih (s.newMethod m).2 hds
      refine ⟨(s.brk :: r.1, r.2), ?_⟩
      simp only [describeAll, hm, Option.some_bind, hr, Option.map_some']
      rfl

theorem newView_eq_layoutView (hM : Ptr → Option method) (b : Nat) (args : List Ptr)
    (ds : List (Option Descriptor)) (h : ∀ i, chainOf hM args i = layoutChain i b ds) :
    newView hM (b + countDescriptors ds) args = layoutView b ds := by
  simp only [newView, layoutView, h]

/-- Constructing one fixture object on a Registry `R` whose records are not
shared: with fuel above the length of the Registry plus thirty the
construction returns and the Registry is `R` followed by the record of the
new object. -/
theorem construct_spec (fuel this : Nat) (ds : List (Option Descriptor)) (s : State)
    (R : List FixView) (hR : represents s R = true) (hS : separated s R = true)
    (hlen : ds.length ≤ 30) (hfit : namesFit ds = true) (hf : R.length + 30 < fuel) :
    ∃ s', construct fuel this ds s = some s' ∧
      represents s' (R ++ [layoutView s.brk ds]) = true ∧
      separated s' (R ++ [layoutView s.brk ds]) = true ∧
      s'.brk = s.brk + countDescriptors ds + 1 ∧ s'._stats = s._stats ∧ s'.out = s.out := by
  obtain ⟨hc, hv⟩ := represents_iff.mp hR
  obtain ⟨hndp, hndm, hb, hb0⟩ := separated_iff.mp hS
  obtain ⟨⟨args, s1⟩, hd⟩ := describeAll_some this ds s hfit
  obtain ⟨a1, a2, a3, a4, a5, a6, a7, a8, a9, a10⟩ := describeAll_spec this ds s args s1 hb0 hd
  have hR1 : represents s1 R = true := by
    refine represents_iff.mpr ⟨by rw [a1, a2]; exact hc, fun v hvR => ?_⟩
    obtain ⟨fr, hfr, hch⟩ := hv v hvR
    exact ⟨fr, by rw [a1]; exact hfr,
      chainsOk_frame hch (fun q hq => a6 q ((hb v hvR).2 q hq))⟩
  have hS1 : separated s1 R = true := by
    refine separated_iff.mpr ⟨hndp, hndm, fun v hvR => ?_, by rw [a5]; omega⟩
    rw [a5]
    exact ⟨Nat.lt_add_right _ (hb v hvR).1, fun m hm => Nat.lt_add_right _ ((hb v hvR).2 m hm)⟩
  have hfresh : ∀ M ∈ args, M ≠ 0 → freshDescriptor s1 R M = true := by
    intro M hM hM0
    obtain ⟨b1, b2, r, b3, b4, b5, _⟩ := a10 M hM hM0
    refine freshDescriptor_iff.mpr ⟨r, b3, b4, b5, b2, fun hmem => ?_⟩
    obtain ⟨v, hvR, hqv⟩ := List.mem_flatMap.mp hmem
    exact absurd ((hb v hvR).2 M hqv) (Nat.not_lt.mpr b1)
  obtain ⟨s', c1, c2, c3, _, _, c6, c7, c8⟩ :=
    ctor_spec fuel args s1 R hR1 hS1 (by rw [a7]; exact hlen) a9 hfresh hf
  have hview : newView s1.methods s1.brk args = layoutView s.brk ds := by
    rw [a5]; exact newView_eq_layoutView s1.methods s.brk args ds a8
  rw [hview] at c2 c3
  exact ⟨s', by simp [construct, hd, c1], c2, c3, by rw [c6, a5], c7.trans a3, c8.trans a4⟩

/-- Constructing fixture objects one after the other appends their records
in the order of construction. -/
theorem constructAll_spec (fuel : Nat) (cs : List (Nat × List (Option Descriptor))) :
    ∀ (s : State) (R : List FixView), represents s R = true → separated s R = true →
      (∀ c ∈ cs, c.2.length ≤ 30 ∧ namesFit c.2 = true) → R.length + cs.length + 30 < fuel →
      ∃ s', constructAll fuel cs s = some s' ∧ represents s' (R ++ layout s.brk cs) = true ∧
        separated s' (R ++ layout s.brk cs) = true ∧ s'._stats = s._stats ∧ s'.out = s.out := by
  induction cs with
  | nil =>
    intro s R hR hS _ _
    exact ⟨s, rfl, by simpa [layout] using hR, by simpa [layout] using hS, rfl, rfl⟩
  | cons c cs ih =>
    intro s R hR hS hcs hf
    obtain ⟨hl, hfit⟩ := hcs c (List.mem_cons_self _ _)
    obtain ⟨s1, b1, b2, b3, b4, b5, b6⟩ :=
      construct_spec fuel c.1 c.2 s R hR hS hl hfit (by simp at hf; omega)
    obtain ⟨s', d1, d2, d3, d4, d5⟩ := ih s1 (R ++ [layoutView s.brk c.2]) b2 b3
      (fun x hx => hcs x (List.mem_cons_of_mem _ hx)) (by simp at hf ⊢; omega)
    rw [b4] at d2 d3
    refine ⟨s', by simp [constructAll, b1, d1], ?_, ?_, d4.trans b5, d5.trans b6⟩
    · simpa [layout] using d2
    · simpa [layout] using d3

theorem layout_length (cs : List (Nat × List (Option Descriptor))) :
    ∀ b, (layout b cs).length = cs.length := by
  induction cs with
  | nil => intro b; rfl
  | cons c cs ih => intro b; simp [layout, ih]

theorem layout_take (cs : List (Nat × List (Option Descriptor))) :
    ∀ b k, layout b (cs.take k) = (layout b cs).take k := by
  induction cs with
  | nil => intro b k; simp [layout]
  | cons c cs ih =>
    intro b k
    cases k with
    | zero => simp [layout]
    | succ k => simp [layout, ih]

/-- C3: from the empty Registry, after the first `k` of a sequence of
constructions the Registry is a list of exactly `k` records, the first `k`
of the records the whole sequence leaves, no two of them sharing a fixture
record or a method: every construction appends one record at the tail, the
first one as the head of the list, and leaves the records before it as they
were. -/
theorem C3_registry_lists_fixtures_in_construction_order (fuel : Nat)
    (cs : List (Nat × List (Option Descriptor)))
    (hcs : ∀ c ∈ cs, c.2.length ≤ 30 ∧ namesFit c.2 = true) (hf : cs.length + 30 < fuel)
    (k : Nat) (hk : k ≤ cs.length) :
    ∃ s', constructAll fuel (cs.take k) State.init = some s' ∧
      represents s' ((layout 1 cs).take k) = true ∧
      separated s' ((layout 1 cs).take k) = true ∧
      ((layout 1 cs).take k).length = k ∧
      (∀ v ∈ ((layout 1 cs).take k).head?, s'._fixtures = v.ptr) := by
  have h0 : represents State.init [] = true := by decide
  have h1 : separated State.init [] = true := by decide
  obtain ⟨s', a1, a2, a3, _, _⟩ := constructAll_spec fuel (cs.take k) State.init [] h0 h1
    (fun c hc => hcs c (List.mem_of_mem_take hc))
    (by simp only [List.length_nil, List.length_take]; omega)
  simp only [List.nil_append, State.init, layout_take] at a2 a3
  refine ⟨s', a1, a2, a3, by simp [layout_length, hk], ?_⟩
  intro v hv
  have hc := (represents_iff.mp a2).1
  cases hl : (layout 1 cs).take k with
  | nil => rw [hl] at hv; cases hv
  | cons w ws =>
    rw [hl] at hv hc
    simp only [List.head?_cons, Option.mem_def, Option.some.injEq] at hv
    subst hv
    exact (isFixChain_cons.mp hc).1

theorem filter_roles_perm (hM : Ptr → Option method) (args : List Ptr)
    (h : ∀ M ∈ args, ∃ r, hM M = some r ∧ r._type ≤ 4) :
    List.Perm
      ((args.filter fun M => roleOf hM M == some AFTER_METHOD) ++
        (args.filter fun M => roleOf hM M == some AFTER_CLASS_METHOD) ++
        (args.filter fun M => roleOf hM M == some BEFORE_METHOD) ++
        (args.filter fun M => roleOf hM M == some BEFORE_CLASS_METHOD) ++
        (args.filter fun M => roleOf hM M == some TEST_METHOD)) args := by
  induction args with
  | nil => simp
  | cons M k ih =>
    obtain ⟨r, hr, hty⟩ := h M (List.mem_cons_self _ _)
    have ih' := fun a => (ih (fun x hx => h x (List.mem_cons_of_mem _ hx))).count_eq a
    rw [List.perm_iff_count]
    intro a
    have := ih' a
    obtain ⟨ty, hty'⟩ : ∃ ty, r._type = ty := ⟨_, rfl⟩
    rw [hty'] at hty
    simp only [List.count_append, List.count_cons, List.filter_cons, roleOf, hr,
      Option.map_some', hty', AFTER_METHOD, AFTER_CLASS_METHOD, BEFORE_METHOD,
      BEFORE_CLASS_METHOD, TEST_METHOD] at this ⊢
    interval_cases ty <;> simp [List.count_cons] <;> omega

theorem chainOf_eq_filter (hM : Ptr → Option method) (args : List Ptr) (i : Nat)
    (h : ∀ M ∈ args, M ≠ 0) :
    chainOf hM args i = args.filter fun M => roleOf hM M == some i := by
  unfold chainOf
  apply List.filter_congr
  intro M hM'
  simp [h M hM']

/-- C4: the constructor, given at most thirty distinct fresh descriptors on a
Registry whose records are not shared, returns with fuel above the length of
the Registry plus thirty, and each of the five chains of the new record is
the list of the given descriptors of its role, in the order given; the five
chains together hold every descriptor exactly once, and every method is what
it was apart from its link. -/
theorem C4_each_chain_holds_the_descriptors_of_its_role (fuel : Nat) (args : List Ptr)
    (s : State) (R : List FixView) (hR : represents s R = true) (hS : separated s R = true)
    (hlen : args.length ≤ 30) (hnd : args.Nodup)
    (hfresh : ∀ M ∈ args, M ≠ 0 ∧ freshDescriptor s R M = true)
    (hf : R.length + 30 < fuel) :
    ∃ s' fr, TestFixture.TestFixture fuel args s = some s' ∧ s'.fixtures s.brk = some fr ∧
      isChain s'.methods fr._afters
        (args.filter fun M => roleOf s.methods M == some AFTER_METHOD) = true ∧
      isChain s'.methods fr._after_classes
        (args.filter fun M => roleOf s.methods M == some AFTER_CLASS_METHOD) = true ∧
      isChain s'.methods fr._befores
        (args.filter fun M => roleOf s.methods M == some BEFORE_METHOD) = true ∧
      isChain s'.methods fr._before_classes
        (args.filter fun M => roleOf s.methods M == some BEFORE_CLASS_METHOD) = true ∧
      isChain s'.methods fr._tests
        (args.filter fun M => roleOf s.methods M == some TEST_METHOD) = true ∧
      List.Perm
        ((args.filter fun M => roleOf s.methods M == some AFTER_METHOD) ++
          (args.filter fun M => roleOf s.methods M == some AFTER_CLASS_METHOD) ++
          (args.filter fun M => roleOf s.methods M == some BEFORE_METHOD) ++
          (args.filter fun M => roleOf s.methods M == some BEFORE_CLASS_METHOD) ++
          (args.filter fun M => roleOf s.methods M == some TEST_METHOD)) args ∧
      methodsKept s.methods s'.methods := by
  have hnz : ∀ M ∈ args, M ≠ 0 := fun M hM => (hfresh M hM).1
  obtain ⟨s', c1, c2, _, c4, _⟩ := ctor_spec fuel args s R hR hS hlen (hnd.filter _)
    (fun M hM _ => (hfresh M hM).2) hf
  obtain ⟨fr, hfr, hch⟩ := (represents_iff.mp c2).2 (newView s.methods s.brk args) (by simp)
  simp only [chainsOk, newView, chainOf_eq_filter s.methods args _ hnz] at hch hfr
  refine ⟨s', fr, c1, hfr, hch.1, hch.2.1, hch.2.2.1, hch.2.2.2.1, hch.2.2.2.2, ?_, c4⟩
  refine filter_roles_perm s.methods args (fun M hM => ?_)
  obtain ⟨r, h1, _, h3, _⟩ := freshDescriptor_iff.mp (hfresh M hM).2
  exact ⟨r, h1, h3⟩

/-! ## Null descriptors -/

theorem fold_skips_nulls (fuel n : Nat) (ms : List Ptr) :
    ∀ s : State, ms.foldlM (fun st M => SET_FIXTURE_METHOD fuel n M st) s =
      (ms.filter fun M => M != 0).foldlM (fun st M => SET_FIXTURE_METHOD fuel n M st) s := by
  induction ms with
  | nil => intro s; rfl
  | cons M k ih =>
    intro s
    by_cases h : M = 0
    · subst h
      have e0 : SET_FIXTURE_METHOD fuel n 0 s = some s := by simp [SET_FIXTURE_METHOD]
      rw [List.foldlM_cons, e0, List.filter_cons_of_neg (by simp)]
      exact ih s
    · rw [List.filter_cons_of_pos (by simpa using h), List.foldlM_cons, List.foldlM_cons]
      congr 1
      funext s1
      exact ih s1

theorem ctor_skips_nulls (fuel : Nat) (args : List Ptr) (s : State) (hlen : args.length ≤ 30) :
    TestFixture.TestFixture fuel args s =
      TestFixture.TestFixture fuel (args.filter fun M => M != 0) s := by
  have hlen' : (args.filter fun M => M != 0).length ≤ 30 :=
    le_trans (List.length_filter_le _ _) hlen
  have e : ∀ s2 : State,
      (params args).foldlM (fun st M => SET_FIXTURE_METHOD fuel s.newFixture.1 M st) s2 =
      (params (args.filter fun M => M != 0)).foldlM
        (fun st M => SET_FIXTURE_METHOD fuel s.newFixture.1 M st) s2 := by
    intro s2
    rw [fold_skips_nulls fuel _ (params args), fold_skips_nulls fuel _ (params _),
      params_eq args hlen, params_eq _ hlen', filter_append_nulls, filter_append_nulls,
      List.filter_filter]
    simp
  rw [ctor_unfold, ctor_unfold]
  simp only [e]

theorem chainOf_nulls (hM : Ptr → Option method) (args : List Ptr) (i : Nat)
    (h : ∀ M ∈ args, M = 0) : chainOf hM args i = [] := by
  unfold chainOf
  rw [List.filter_eq_nil_iff]
  intro M hM'
  simp [h M hM']

/-- C10: the constructor does with a list of descriptors what it does with
the list without its null entries; every non-null descriptor, also one that
follows a null entry, is in a chain of the new record; and a call whose
descriptors are all null, as `Tests() : TestFixture(0)`, appends one record
with five empty chains. -/
theorem C10_null_descriptors_are_skipped (fuel : Nat) (args : List Ptr) (s : State)
    (R : List FixView) (hR : represents s R = true) (hS : separated s R = true)
    (hlen : args.length ≤ 30) (hnd : (args.filter fun M => M != 0).Nodup)
    (hfresh : ∀ M ∈ args, M ≠ 0 → freshDescriptor s R M = true)
    (hf : R.length + 30 < fuel) :
    TestFixture.TestFixture fuel args s =
      TestFixture.TestFixture fuel (args.filter fun M => M != 0) s ∧
    (∃ s', TestFixture.TestFixture fuel args s = some s' ∧
      represents s' (R ++ [newView s.methods s.brk (args.filter fun M => M != 0)]) = true ∧
      ∀ M ∈ args, M ≠ 0 →
        M ∈ (newView s.methods s.brk (args.filter fun M => M != 0)).all) ∧
    ((∀ M ∈ args, M = 0) → ∃ s', TestFixture.TestFixture fuel args s = some s' ∧
      represents s' (R ++ [emptyView s.brk]) = true) ∧
    ∃ s', Tests.Tests fuel s = some s' ∧
      represents s' (R ++ [emptyView s.brk]) = true := by
  have hview : newView s.methods s.brk (args.filter fun M => M != 0) =
      newView s.methods s.brk args := by
    have e : ∀ i, chainOf s.methods (args.filter fun M => M != 0) i = chainOf s.methods args i := by
      intro i
      simp only [chainOf, List.filter_filter]
      apply List.filter_congr
      intro M _
      cases h : (M != 0) <;> simp
    simp only [newView, e]
  obtain ⟨s', c1, c2, _⟩ := ctor_spec fuel args s R hR hS hlen hnd hfresh hf
  refine ⟨ctor_skips_nulls fuel args s hlen, ⟨s', c1, by rw [hview]; exact c2, ?_⟩, ?_, ?_⟩
  · intro M hM hM0
    obtain ⟨r, h1, _, h3, _⟩ := freshDescriptor_iff.mp (hfresh M hM hM0)
    rw [hview]
    refine mem_all_iff.mpr ⟨r._type, h3, ?_⟩
    rw [newView_chain _ _ _ _ h3]
    exact mem_chainOf.mpr ⟨hM, hM0, by simp [roleOf, h1]⟩
  · intro hnull
    refine ⟨s', c1, ?_⟩
    have : newView s.methods s.brk args = emptyView s.brk := by
      simp only [newView, emptyView, chainOf_nulls s.methods args _ hnull]
    rw [← this]; exact c2
  · obtain ⟨s0, d1, d2, _⟩ := ctor_spec fuel [0] s R hR hS (by simp) (by simp)
      (fun M hM hM0 => absurd (List.mem_singleton.mp hM) hM0) hf
    refine ⟨s0, d1, ?_⟩
    have : newView s.methods s.brk [0] = emptyView s.brk := by
      simp only [newView, emptyView,
        chainOf_nulls s.methods [0] _ (fun M hM => List.mem_singleton.mp hM)]
    rw [← this]; exact d2

/-! ## The whole run -/

theorem runSpec_heap (P : Program) (R : List FixView) (s : State) :
    (runSpec P R s).2.heap = s.heap := by
  simp [runSpec]

theorem counts_total (P : Program) (hM : Ptr → Option method) (R : List FixView) :
    passingTests P hM R + failingTests P hM R = (R.flatMap fun v => v.tests).length := by
  induction R with
  | nil => rfl
  | cons v k ih =>
    have h := List.length_eq_countP_add_countP (fun t => testFails P hM t) v.tests
    have e : (fun t => !testFails P hM t) = fun t => decide ¬(testFails P hM t = true) := by
      funext t; cases testFails P hM t <;> rfl
    simp only [passingTests, failingTests, List.flatMap_cons, List.length_append, e]
    omega

theorem mem_hookOrder {v : FixView} {q : Ptr} (h : q ∈ v.hookOrder) : q ∈ v.all := by
  simp only [FixView.hookOrder, List.mem_append, List.mem_flatMap, List.mem_singleton] at h
  simp only [FixView.all, List.mem_append]
  rcases h with (h | ⟨t, ht, (h | h) | h⟩) | h
  · tauto
  · tauto
  · subst h; tauto
  · tauto
  · tauto

theorem count_tests_flatMap (t : Ptr) (bs as : List Ptr) (hb : t ∉ bs) (ha : t ∉ as)
    (ts : List Ptr) :
    (ts.flatMap fun x => bs ++ [x] ++ as).count t = ts.count t := by
  induction ts with
  | nil => rfl
  | cons x k ih =>
    simp only [List.flatMap_cons, List.count_append, ih, List.count_cons, List.count_nil,
      List.count_eq_zero_of_not_mem hb, List.count_eq_zero_of_not_mem ha]
    omega

theorem count_hookOrder_view {v : FixView} (hnd : v.all.Nodup) {t : Ptr} (ht : t ∈ v.tests) :
    v.hookOrder.count t = 1 := by
  simp only [FixView.all, List.nodup_append, List.disjoint_left, List.mem_append] at hnd
  obtain ⟨⟨⟨⟨_, _, _⟩, _, _⟩, _, _⟩, hn, d4⟩ := hnd
  have h1 : t ∉ v.afters := fun h => d4 (Or.inl (Or.inl (Or.inl h))) ht
  have h2 : t ∉ v.after_classes := fun h => d4 (Or.inl (Or.inl (Or.inr h))) ht
  have h3 : t ∉ v.befores := fun h => d4 (Or.inl (Or.inr h)) ht
  have h4 : t ∉ v.before_classes := fun h => d4 (Or.inr h) ht
  simp only [FixView.hookOrder, List.count_append, count_tests_flatMap t _ _ h3 h1,
    List.count_eq_zero_of_not_mem h2, List.count_eq_zero_of_not_mem h4,
    List.count_eq_one_of_mem hn ht]

theorem count_hookOrder (R : List FixView) (hnd : (R.flatMap FixView.all).Nodup) :
    ∀ v ∈ R, ∀ t ∈ v.tests, (hookOrder R).count t = 1 := by
  induction R with
  | nil => intro v hv; cases hv
  | cons w k ih =>
    intro v hv t ht
    rw [List.flatMap_cons, List.nodup_append] at hnd
    obtain ⟨hw, hk, hd⟩ := hnd
    have htv : t ∈ v.all := by simp only [FixView.all, List.mem_append]; tauto
    simp only [hookOrder, List.flatMap_cons, List.count_append]
    rcases List.mem_cons.mp hv with rfl | hvk
    · have h0 : (k.flatMap FixView.hookOrder).count t = 0 := by
        apply List.count_eq_zero_of_not_mem
        intro hm
        obtain ⟨u, hu, hq⟩ := List.mem_flatMap.mp hm
        exact hd htv (List.mem_flatMap.mpr ⟨u, hu, mem_hookOrder hq⟩)
      rw [count_hookOrder_view hw ht, h0]
    · have h0 : w.hookOrder.count t = 0 := by
        apply List.count_eq_zero_of_not_mem
        intro hm
        exact hd (mem_hookOrder hm) (List.mem_flatMap.mpr ⟨v, hvk, htv⟩)
      have := ih hk v hvk t ht
      simp only [hookOrder] at this
      rw [h0, this]

/-- C11: for every Registry whose records are not shared, with fuel above its
size `Run` returns whatever the hooks and tests record; the hooks it invokes
are those of `hookOrder`, among which every registered test occurs exactly
once; and passes and failures together rise by the number of registered
tests. -/
theorem C11_every_registered_test_runs_once (P : Program) (s : State) (R : List FixView)
    (fuel : Nat) (hR : represents s R = true) (hS : separated s R = true)
    (hf : span R < fuel) :
    ∃ r, Tests.Run P fuel s = some r ∧
      invocations r.2.out = invocations s.out ++ hookOrder R ∧
      (∀ v ∈ R, ∀ t ∈ v.tests, (hookOrder R).count t = 1) ∧
      r.2._stats._passes + r.2._stats._failures =
        s._stats._passes + s._stats._failures + ((R.flatMap fun v => v.tests).length : Nat) := by
  have hc := runAll_counts P s.methods R (represents_chains hR) s rfl
  have ht := counts_total P s.methods R
  refine ⟨runSpec P R s, do_run_eq_runSpec P s R fuel hR hf, ?_,
    count_hookOrder R (separated_iff.mp hS).2.1, ?_⟩
  · simp only [runSpec, emit_out, invocations_append]
    rw [runAll_invocations P s.methods R (represents_chains hR) s rfl]
    simp
  · show (runAll P R s)._stats._passes + (runAll P R s)._stats._failures = _
    rw [hc.1, hc.2, ← ht]
    push_cast
    ring

theorem counts_append (P : Program) (hM : Ptr → Option method) (R1 R2 : List FixView) :
    passingTests P hM (R1 ++ R2) = passingTests P hM R1 + passingTests P hM R2 ∧
    failingTests P hM (R1 ++ R2) = failingTests P hM R1 + failingTests P hM R2 := by
  induction R1 with
  | nil => simp [passingTests, failingTests]
  | cons v k ih =>
    rw [List.cons_append]
    simp only [passingTests, failingTests]
    rw [ih.1, ih.2]
    omega

theorem do_tests_no_test (P : Program) (s : State) (v : FixView) (fuel : Nat)
    (hv : viewOk s v = true) (ht : v.tests = []) (hf : 0 < fuel) :
    __do_tests P fuel v.ptr s = some s := by
  obtain ⟨fr, hfr, hch⟩ := viewOk_iff.mp hv
  have h0 : fr._tests = 0 := by
    have := hch.2.2.2.2
    rw [ht] at this
    exact isChain_nil.mp this
  obtain ⟨n, rfl⟩ : ∃ n, fuel = n + 1 := ⟨fuel - 1, by omega⟩
  simp [__do_tests, hfr, h0, __do_tests.loop]

/-- C12: when a fixture of the Registry has no TEST hook, `Run` invokes for it
its BEFORE_CLASS hooks and then its AFTER_CLASS hooks, in chain order, and
nothing else, and the pass and failure counters get from it nothing: they
rise by what the other fixtures add; `__do_tests` on such a fixture returns
the state it was given. -/
theorem C12_fixture_without_tests_runs_only_class_hooks (P : Program) (s : State)
    (R1 R2 : List FixView) (v : FixView) (fuel : Nat)
    (hR : represents s (R1 ++ v :: R2) = true) (hf : span (R1 ++ v :: R2) < fuel)
    (ht : v.tests = []) :
    ∃ r, Tests.Run P fuel s = some r ∧
      invocations r.2.out =
        invocations s.out ++ hookOrder R1 ++ (v.before_classes ++ v.after_classes) ++
          hookOrder R2 ∧
      r.2._stats._passes =
        s._stats._passes + passingTests P s.methods R1 + passingTests P s.methods R2 ∧
      r.2._stats._failures =
        s._stats._failures + failingTests P s.methods R1 + failingTests P s.methods R2 ∧
      ∀ x : State, x.heap = s.heap → __do_tests P fuel v.ptr x = some x := by
  have hc := runAll_counts P s.methods _ (represents_chains hR) s rfl
  have ha := counts_append P s.methods R1 (v :: R2)
  refine ⟨runSpec P _ s, do_run_eq_runSpec P s _ fuel hR hf, ?_, ?_, ?_, ?_⟩
  · simp only [runSpec, emit_out, invocations_append]
    rw [runAll_invocations P s.methods _ (represents_chains hR) s rfl]
    simp [hookOrder, FixView.hookOrder, ht]
  · show (runAll P _ s)._stats._passes = _
    rw [hc.1, ha.1]
    simp only [passingTests, ht, List.countP_nil]
    push_cast
    ring
  · show (runAll P _ s)._stats._failures = _
    rw [hc.2, ha.2]
    simp only [failingTests, ht, List.countP_nil]
    push_cast
    ring
  · intro x hx
    have hvx : viewOk x v = true := by
      have h1 := (represents_of_heap hx (R1 ++ v :: R2)).trans hR
      obtain ⟨fr, h2, h3⟩ := (represents_iff.mp h1).2 v (by simp)
      exact viewOk_iff.mpr ⟨fr, h2, h3⟩
    exact do_tests_no_test P x v fuel hvx ht (by omega)

theorem counts_congr_on (P P' : Program) (hM : Ptr → Option method) (R : List FixView)
    (h : ∀ v ∈ R, ∀ t ∈ v.tests, testFails P hM t = testFails P' hM t) :
    passingTests P hM R = passingTests P' hM R ∧ failingTests P hM R = failingTests P' hM R := by
  induction R with
  | nil => exact ⟨rfl, rfl⟩
  | cons v k ih =>
    obtain ⟨i1, i2⟩ := ih (fun w hw => h w (List.mem_cons_of_mem _ hw))
    have hv := h v (List.mem_cons_self _ _)
    have e1 : (v.tests.countP fun t => testFails P hM t) =
        v.tests.countP fun t => testFails P' hM t :=
      List.countP_congr (fun t ht => by rw [hv t ht])
    have e2 : (v.tests.countP fun t => !testFails P hM t) =
        v.tests.countP fun t => !testFails P' hM t :=
      List.countP_congr (fun t ht => by rw [hv t ht])
    simp only [passingTests, failingTests, i1, i2, e1, e2, and_self]

/-- C16: two programs whose test bodies agree on raising the assertion
counter, whatever their other hooks record, give over every Registry runs
with the same result and the same pass and failure counts; and from a fresh
Recorder a run none of whose test bodies raises the counter returns 0. -/
theorem C16_failures_in_hooks_change_no_classification (P P' : Program) (s : State)
    (R : List FixView) (fuel : Nat) (hR : represents s R = true) (hf : span R < fuel)
    (hP : ∀ v ∈ R, ∀ t ∈ v.tests, testFails P s.methods t = testFails P' s.methods t) :
    ∃ r r', Tests.Run P fuel s = some r ∧ Tests.Run P' fuel s = some r' ∧ r.1 = r'.1 ∧
      r.2._stats._passes = r'.2._stats._passes ∧
      r.2._stats._failures = r'.2._stats._failures ∧
      (s._stats = stats.stats →
        (∀ v ∈ R, ∀ t ∈ v.tests, testFails P s.methods t = false) → r.1 = 0) := by
  have hc := counts_congr_on P P' s.methods R hP
  have c1 := runAll_counts P s.methods R (represents_chains hR) s rfl
  have c2 := runAll_counts P' s.methods R (represents_chains hR) s rfl
  refine ⟨runSpec P R s, runSpec P' R s, do_run_eq_runSpec P s R fuel hR hf,
    do_run_eq_runSpec P' s R fuel hR hf, ?_, ?_, ?_, ?_⟩
  · show (runAll P R s)._stats._failures = (runAll P' R s)._stats._failures
    rw [c1.2, c2.2, hc.2]
  · show (runAll P R s)._stats._passes = (runAll P' R s)._stats._passes
    rw [c1.1, c2.1, hc.1]
  · show (runAll P R s)._stats._failures = (runAll P' R s)._stats._failures
    rw [c1.2, c2.2, hc.2]
  · intro h0 hnone
    show (runAll P R s)._stats._failures = 0
    rw [c1.2, failingTests_eq_zero P s.methods R hnone, h0]
    rfl

theorem runSpec_invocations (P : Program) (s : State) (R : List FixView)
    (hR : represents s R = true) :
    invocations (runSpec P R s).2.out = invocations s.out ++ hookOrder R := by
  have h := runAll_invocations P s.methods R (represents_chains hR) s rfl
  show invocations ((runAll P R s).emit _).out = _
  rw [emit_out, invocations_append, h]
  simp

/-! ## The assertion and trace counters over a run -/

theorem runOps_traces (ops : List Op) (s : State) :
    (runOps ops s).1._stats._traces =
      s._stats._traces + (runOps ops State.init).1._stats._traces := by
  induction ops generalizing s with
  | nil => simp [runOps, State.init, stats.stats]
  | cons o k ih =>
    cases o
    · simp only [runOps]
      rw [ih (__assert s), ih (__assert State.init)]
      simp only [__assert, State.init, stats.stats]
      ring
    · simp only [runOps]
      rw [ih (__trace _ s), ih (__trace _ State.init)]
      simp only [__trace, State.init, stats.stats]
      ring
    · simp [runOps, State.init, stats.stats]

theorem runBody_traces (b : List Stmt) (s : State) :
    (runBody b s)._stats._traces = s._stats._traces + traced b := by
  unfold traced
  induction b generalizing s with
  | nil => simp [runBody, State.init, stats.stats]
  | cons st k ih =>
    have h := runOps_traces st.expand (s.emit (.exec st))
    have h0 := runOps_traces st.expand (State.init.emit (.exec st))
    have hf := runOps_flag st.expand (s.emit (.exec st)) (State.init.emit (.exec st))
    simp only [runBody, hf]
    split
    · rw [h, h0]; simp [State.init, stats.stats]
    · rw [ih, ih (runOps st.expand (State.init.emit (.exec st))).1, h, h0]
      simp only [emit_stats, State.init, stats.stats]
      ring

theorem traced_nonneg (b : List Stmt) : 0 ≤ traced b := by
  have key : ∀ (ops : List Op) (s : State),
      s._stats._traces ≤ (runOps ops s).1._stats._traces := by
    intro ops
    induction ops with
    | nil => intro s; exact le_refl _
    | cons o k ih =>
      intro s
      cases o
      · simp only [runOps]
        exact le_trans (by simp [__assert]) (ih (__assert s))
      · simp only [runOps]
        exact le_trans (by simp [__trace]) (ih (__trace _ s))
      · exact le_refl _
  have body : ∀ (b : List Stmt) (s : State),
      s._stats._traces ≤ (runBody b s)._stats._traces := by
    intro b
    induction b with
    | nil => intro s; exact le_refl _
    | cons st k ih =>
      intro s
      have h1 := key st.expand (s.emit (.exec st))
      simp only [runBody]
      split
      · exact h1
      · exact le_trans h1 (ih _)
  exact body b State.init

theorem invoke_tally (P : Program) (hM : Ptr → Option method) (m : Ptr) (r : method)
    (s : State) (hr : hM m = some r) :
    (invoke P m r s)._stats._assertions = s._stats._assertions + raised (bodyOf P hM m) ∧
    (invoke P m r s)._stats._traces = s._stats._traces + traced (bodyOf P hM m) := by
  simp only [bodyOf, hr]
  exact ⟨runBody_assertions _ _, runBody_traces _ _⟩

theorem raisedBy_append (P : Program) (hM : Ptr → Option method) (a b : List Ptr) :
    raisedBy P hM (a ++ b) = raisedBy P hM a + raisedBy P hM b := by
  simp [raisedBy]

theorem tracedBy_append (P : Program) (hM : Ptr → Option method) (a b : List Ptr) :
    tracedBy P hM (a ++ b) = tracedBy P hM a + tracedBy P hM b := by
  simp [tracedBy]

theorem raisedBy_nonneg (P : Program) (hM : Ptr → Option method) (ms : List Ptr) :
    0 ≤ raisedBy P hM ms := by
  unfold raisedBy
  apply List.sum_nonneg
  intro x hx
  obtain ⟨m, _, rfl⟩ := List.mem_map.mp hx
  exact raised_nonneg _

theorem tracedBy_nonneg (P : Program) (hM : Ptr → Option method) (ms : List Ptr) :
    0 ≤ tracedBy P hM ms := by
  unfold tracedBy
  apply List.sum_nonneg
  intro x hx
  obtain ⟨m, _, rfl⟩ := List.mem_map.mp hx
  exact traced_nonneg _

theorem runHooks_tally (P : Program) (hM : Ptr → Option method) (ms : List Ptr)
    (hms : ∀ m ∈ ms, ∃ r, hM m = some r) :
    ∀ s : State, s.methods = hM →
      (runHooks P ms s)._stats._assertions = s._stats._assertions + raisedBy P hM ms ∧
      (runHooks P ms s)._stats._traces = s._stats._traces + tracedBy P hM ms := by
  induction ms with
  | nil => intro s _; simp [runHooks, raisedBy, tracedBy]
  | cons m k ih =>
    intro s hs
    obtain ⟨r, hr⟩ := hms m (List.mem_cons_self _ _)
    have hr' : s.methods m = some r := by rw [hs]; exact hr
    have h1 := invoke_tally P hM m r s hr
    have h2 := ih (fun x hx => hms x (List.mem_cons_of_mem _ hx)) (invoke P m r s)
      (by rw [heap_methods (invoke_heap P m r s)]; exact hs)
    simp only [runHooks, hr']
    rw [h2.1, h2.2, h1.1, h1.2]
    simp only [raisedBy, tracedBy, List.map_cons, List.sum_cons]
    constructor <;> ring

theorem runTestBody_tally (P : Program) (hM : Ptr → Option method) (t : Ptr) (r : method)
    (s : State) (hs : s.methods = hM) (hr : hM t = some r) :
    (runTestBody P t s)._stats._assertions = s._stats._assertions + raisedBy P hM [t] ∧
    (runTestBody P t s)._stats._traces = s._stats._traces + tracedBy P hM [t] := by
  have h := invoke_tally P hM t r (s.emit (.runLine (cstr r._name))) hr
  rw [runTestBody_eq P t r s (by rw [hs]; exact hr)]
  simp only [emit_stats] at h
  simp only [raisedBy, tracedBy, List.map_cons, List.map_nil, List.sum_cons, List.sum_nil,
    add_zero]
  split
  · exact h
  · exact h

theorem runTest_tally (P : Program) (hM : Ptr → Option method) (v : FixView) (t : Ptr)
    (hb : ∀ m ∈ v.befores, ∃ r, hM m = some r) (ha : ∀ m ∈ v.afters, ∃ r, hM m = some r)
    (ht : ∃ r, hM t = some r) (s : State) (hs : s.methods = hM) :
    (runTest P v t s)._stats._assertions =
      s._stats._assertions + raisedBy P hM (v.befores ++ [t] ++ v.afters) ∧
    (runTest P v t s)._stats._traces =
      s._stats._traces + tracedBy P hM (v.befores ++ [t] ++ v.afters) := by
  obtain ⟨r, hr⟩ := ht
  have m1 : (runHooks P v.befores s).methods = hM := by
    rw [heap_methods (runHooks_heap P _ s)]; exact hs
  have m2 : (runTestBody P t (runHooks P v.befores s)).methods = hM := by
    rw [heap_methods (runTestBody_heap P t _)]; exact m1
  have h1 := runHooks_tally P hM v.befores hb s hs
  have h2 := runTestBody_tally P hM t r _ m1 hr
  have h3 := runHooks_tally P hM v.afters ha _ m2
  simp only [runTest, raisedBy_append, tracedBy_append]
  rw [h3.1, h3.2, h2.1, h2.2, h1.1, h1.2]
  constructor <;> ring

theorem runTests_tally (P : Program) (hM : Ptr → Option method) (v : FixView)
    (hb : ∀ m ∈ v.befores, ∃ r, hM m = some r) (ha : ∀ m ∈ v.afters, ∃ r, hM m = some r)
    (ts : List Ptr) (hts : ∀ m ∈ ts, ∃ r, hM m = some r) :
    ∀ s : State, s.methods = hM →
      (runTests P v ts s)._stats._assertions = s._stats._assertions +
        raisedBy P hM (ts.flatMap fun t => v.befores ++ [t] ++ v.afters) ∧
      (runTests P v ts s)._stats._traces = s._stats._traces +
        tracedBy P hM (ts.flatMap fun t => v.befores ++ [t] ++ v.afters) := by
  induction ts with
  | nil => intro s _; simp [runTests, raisedBy, tracedBy]
  | cons t k ih =>
    intro s hs
    have h1 := runTest_tally P hM v t hb ha (hts t (List.mem_cons_self _ _)) s hs
    have h2 := ih (fun x hx => hts x (List.mem_cons_of_mem _ hx)) (runTest P v t s)
      (by rw [heap_methods (runTest_heap P v t s)]; exact hs)
    rw [runTests, h2.1, h2.2, h1.1, h1.2, List.flatMap_cons]
    simp only [raisedBy_append, tracedBy_append]
    constructor <;> ring

theorem runFixture_tally (P : Program) (v : FixView) (fr : fixture) (s : State)
    (hv : chainsOk s.methods fr v) :
    (runFixture P v s)._stats._assertions =
      s._stats._assertions + raisedBy P s.methods v.hookOrder ∧
    (runFixture P v s)._stats._traces =
      s._stats._traces + tracedBy P s.methods v.hookOrder := by
  obtain ⟨ha, hac, hb, hbc, ht⟩ := hv
  have h0 : (s.emit Event.fixtureBegin).methods = s.methods := rfl
  have m1 : (runHooks P v.before_classes (s.emit Event.fixtureBegin)).methods = s.methods := by
    rw [heap_methods (runHooks_heap P _ _)]; exact h0
  have m2 : (runTests P v v.tests
      (runHooks P v.before_classes (s.emit Event.fixtureBegin))).methods = s.methods := by
    rw [heap_methods (runTests_heap P _ _ _)]; exact m1
  have h1 := runHooks_tally P s.methods v.before_classes (isChain_mem hbc) _ h0
  have h2 := runTests_tally P s.methods v (isChain_mem hb) (isChain_mem ha) v.tests
    (isChain_mem ht) _ m1
  have h3 := runHooks_tally P s.methods v.after_classes (isChain_mem hac) _ m2
  simp only [runFixture, emit_stats, FixView.hookOrder, raisedBy_append, tracedBy_append]
  rw [h3.1, h3.2, h2.1, h2.2, h1.1, h1.2]
  simp only [emit_stats]
  constructor <;> ring

theorem runAll_tally (P : Program) (hM : Ptr → Option method) (R : List FixView)
    (hv : ∀ v ∈ R, ∃ fr, chainsOk hM fr v) :
    ∀ s : State, s.methods = hM →
      (runAll P R s)._stats._assertions = s._stats._assertions + raisedBy P hM (hookOrder R) ∧
      (runAll P R s)._stats._traces = s._stats._traces + tracedBy P hM (hookOrder R) := by
  induction R with
  | nil => intro s _; simp [runAll, hookOrder, raisedBy, tracedBy]
  | cons v k ih =>
    intro s hs
    obtain ⟨fr, hfr⟩ := hv v (List.mem_cons_self _ _)
    have h1 := runFixture_tally P v fr s (by rw [hs]; exact hfr)
    have h2 := ih (fun x hx => hv x (List.mem_cons_of_mem _ hx)) (runFixture P v s)
      (by rw [heap_methods (runFixture_heap P v s)]; exact hs)
    rw [hs] at h1
    have e : hookOrder (v :: k) = v.hookOrder ++ hookOrder k := by
      simp [hookOrder]
    rw [runAll, h2.1, h2.2, h1.1, h1.2, e]
    simp only [raisedBy_append, tracedBy_append]
    constructor <;> ring

theorem stats_eq (x : stats) (a f p tr : Int) (h1 : x._assertions = a) (h2 : x._failures = f)
    (h3 : x._passes = p) (h4 : x._traces = tr) :
    x = { _assertions := a, _failures := f, _passes := p, _traces := tr } := by
  cases x
  simp_all

theorem runSpec_stats (P : Program) (s : State) (R : List FixView)
    (hR : represents s R = true) :
    (runSpec P R s).2._stats =
      { _assertions := s._stats._assertions + raisedBy P s.methods (hookOrder R),
        _failures := s._stats._failures + failingTests P s.methods R,
        _passes := s._stats._passes + passingTests P s.methods R,
        _traces := s._stats._traces + tracedBy P s.methods (hookOrder R) } := by
  have c := runAll_counts P s.methods R (represents_chains hR) s rfl
  have d := runAll_tally P s.methods R (represents_chains hR) s rfl
  show (runAll P R s)._stats = _
  exact stats_eq _ _ _ _ _ d.1 c.2 c.1 d.2

/-- C18: `Run` leaves the heaps and the Registry as they were and adds to the
four counters it finds, resetting none: the assertion and trace counters rise
by what the bodies of the invoked hooks raise them, the failure and pass
counters by the number of failing and passing tests, no counter ends below
where it started, and `Run` returns the failure count it started with plus the
number of tests that fail; a second `Run` invokes the same hooks again, adds
the same amounts once more to all four counters, and returns the failures of
both runs on top of the starting count. -/
theorem C18_run_keeps_registry_and_accumulates (P : Program) (s : State) (R : List FixView)
    (fuel : Nat) (hR : represents s R = true) (hf : span R < fuel) :
    ∃ r, Tests.Run P fuel s = some r ∧
      r.1 = s._stats._failures + failingTests P s.methods R ∧
      r.2._stats._passes = s._stats._passes + passingTests P s.methods R ∧
      r.2.heap = s.heap ∧ represents r.2 R = true ∧
      invocations r.2.out = invocations s.out ++ hookOrder R ∧
      r.2._stats =
        { _assertions := s._stats._assertions + raisedBy P s.methods (hookOrder R),
          _failures := s._stats._failures + failingTests P s.methods R,
          _passes := s._stats._passes + passingTests P s.methods R,
          _traces := s._stats._traces + tracedBy P s.methods (hookOrder R) } ∧
      (s._stats._assertions ≤ r.2._stats._assertions ∧
        s._stats._failures ≤ r.2._stats._failures ∧
        s._stats._passes ≤ r.2._stats._passes ∧
        s._stats._traces ≤ r.2._stats._traces) ∧
      ∃ r', Tests.Run P fuel r.2 = some r' ∧
        r'.1 = s._stats._failures + failingTests P s.methods R + failingTests P s.methods R ∧
        r'.2._stats._passes =
          s._stats._passes + passingTests P s.methods R + passingTests P s.methods R ∧
        r'.2.heap = s.heap ∧
        invocations r'.2.out = invocations s.out ++ hookOrder R ++ hookOrder R ∧
        r'.2._stats =
          { _assertions := s._stats._assertions + raisedBy P s.methods (hookOrder R) +
              raisedBy P s.methods (hookOrder R),
            _failures := s._stats._failures + failingTests P s.methods R +
              failingTests P s.methods R,
            _passes := s._stats._passes + passingTests P s.methods R +
              passingTests P s.methods R,
            _traces := s._stats._traces + tracedBy P s.methods (hookOrder R) +
              tracedBy P s.methods (hookOrder R) } := by
  have hh := runSpec_heap P R s
  have hR2 : represents (runSpec P R s).2 R = true := (represents_of_heap hh R).trans hR
  have hm : (runSpec P R s).2.methods = s.methods := heap_methods hh
  have c1 := runAll_counts P s.methods R (represents_chains hR) s rfl
  have i1 := runSpec_invocations P s R hR
  have i2 := runSpec_invocations P (runSpec P R s).2 R hR2
  have t1 := runSpec_stats P s R hR
  have t2 := runSpec_stats P (runSpec P R s).2 R hR2
  rw [hm, t1] at t2
  have n1 := raisedBy_nonneg P s.methods (hookOrder R)
  have n2 := tracedBy_nonneg P s.methods (hookOrder R)
  refine ⟨runSpec P R s, do_run_eq_runSpec P s R fuel hR hf, c1.2, c1.1, hh, hR2, i1, t1, ?_,
    runSpec P R (runSpec P R s).2, do_run_eq_runSpec P _ R fuel hR2 hf, ?_, ?_, ?_, ?_, t2⟩
  · rw [t1]
    refine ⟨?_, ?_, ?_, ?_⟩
    · show s._stats._assertions ≤ s._stats._assertions + _
      omega
    · show s._stats._failures ≤ s._stats._failures + _
      omega
    · show s._stats._passes ≤ s._stats._passes + _
      omega
    · show s._stats._traces ≤ s._stats._traces + _
      omega
  · show (runSpec P R (runSpec P R s).2).2._stats._failures = _
    rw [t2]
  · rw [t2]
  · exact (runSpec_heap P R _).trans hh
  · rw [i2, i1]

/-! ## The destructor -/

/-- Deleting a chain: with the methods of `L` already deleted, the methods
of the chain are deleted too and nothing else changes. -/
theorem delete_methods_chain (hM : Ptr → Option method) (ms : List Ptr) :
    ∀ (fuel : Nat) (p : Ptr) (L : List Ptr) (x : State),
      (∀ q, x.methods q = if q ∈ L then none else hM q) →
      isChain hM p ms = true → ms.Nodup → (∀ q ∈ ms, q ∉ L) → ms.length < fuel →
      ∃ x', __delete_methods fuel p x = some x' ∧
        (∀ q, x'.methods q = if q ∈ L ++ ms then none else hM q) ∧
        x'.fixtures = x.fixtures ∧ x'._fixtures = x._fixtures ∧ x'.brk = x.brk ∧
        x'._stats = x._stats ∧ x'.out = x.out := by
  induction ms with
  | nil =>
    intro fuel p L x hx hc _ _ hf
    obtain ⟨n, rfl⟩ : ∃ n, fuel = n + 1 := ⟨fuel - 1, by simp at hf; omega⟩
    exact ⟨x, by simp [__delete_methods, isChain_nil.mp hc], by simpa using hx,
      rfl, rfl, rfl, rfl, rfl⟩
  | cons m ms ih =>
    intro fuel p L x hx hc hnd hdis hf
    obtain ⟨n, rfl⟩ : ∃ n, fuel = n + 1 := ⟨fuel - 1, by simp at hf; omega⟩
    obtain ⟨rfl, hne, r, hr, hk⟩ := isChain_cons.mp hc
    have hpL : p ∉ L := hdis p (List.mem_cons_self _ _)
    have hxp : x.methods p = some r := by rw [hx p, if_neg hpL]; exact hr
    obtain ⟨hpms, hnd'⟩ := List.nodup_cons.mp hnd
    obtain ⟨x', h1, h2, h3, h4, h5, h6, h7⟩ := ih n r._next (L ++ [p]) (x.freeMethod p)
      (by
        intro q
        by_cases e : q = p
        · simp [State.freeMethod, e]
        · simp [State.freeMethod, e, hx q])
      hk hnd'
      (by
        intro q hq hqL
        rcases List.mem_append.mp hqL with h | h
        · exact hdis q (List.mem_cons_of_mem _ hq) h
        · exact hpms (by rw [← List.mem_singleton.mp h]; exact hq))
      (by simp at hf; omega)
    refine ⟨x', by simp [__delete_methods, hne, hxp, h1], ?_, h3, h4, h5, h6, h7⟩
    intro q
    rw [h2 q]
    simp [List.append_assoc]

/-- One turn of the loop of `__delete_fixtures`, its steps named. -/
theorem delete_fixtures_loop_succ (inner fuel : Nat) (f : Ptr) (s : State) :
    __delete_fixtures.loop inner (fuel + 1) f s =
      if f = 0 then some s
      else
        (s.fixtures f).bind fun fr0 =>
        (__delete_methods inner fr0._afters s).bind fun s1 =>
        (s1.fixtures f).bind fun fr1 =>
        (__delete_methods inner fr1._after_classes s1).bind fun s2 =>
        (s2.fixtures f).bind fun fr2 =>
        (__delete_methods inner fr2._befores s2).bind fun s3 =>
        (s3.fixtures f).bind fun fr3 =>
        (__delete_methods inner fr3._before_classes s3).bind fun s4 =>
        (s4.fixtures f).bind fun fr4 =>
        (__delete_methods inner fr4._tests s4).bind fun s5 =>
        (s5.fixtures f).bind fun fr5 =>
        __delete_fixtures.loop inner fuel fr5._next (s5.freeFixture f) := by
  rfl

/-- Deleting the five chains of one fixture record. -/
theorem delete_view (hM : Ptr → Option method) (inner : Nat) (v : FixView) (fr : fixture)
    (L : List Ptr) (x : State) (hx : ∀ q, x.methods q = if q ∈ L then none else hM q)
    (hfr : x.fixtures v.ptr = some fr) (hch : chainsOk hM fr v) (hnd : v.all.Nodup)
    (hdis : ∀ q ∈ v.all, q ∉ L) (hf : v.all.length < inner) :
    ∃ x5,
      (∀ k : State → Option State,
       ((__delete_methods inner fr._afters x).bind fun s1 =>
        (s1.fixtures v.ptr).bind fun fr1 =>
        (__delete_methods inner fr1._after_classes s1).bind fun s2 =>
        (s2.fixtures v.ptr).bind fun fr2 =>
        (__delete_methods inner fr2._befores s2).bind fun s3 =>
        (s3.fixtures v.ptr).bind fun fr3 =>
        (__delete_methods inner fr3._before_classes s3).bind fun s4 =>
        (s4.fixtures v.ptr).bind fun fr4 =>
        (__delete_methods inner fr4._tests s4).bind k) = k x5) ∧
      (∀ q, x5.methods q = if q ∈ L ++ v.all then none else hM q) ∧
      x5.fixtures = x.fixtures ∧ x5._fixtures = x._fixtures ∧ x5.brk = x.brk ∧
      x5._stats = x._stats ∧ x5.out = x.out := by
  obtain ⟨c0, c1, c2, c3, c4⟩ := hch
  have hl := v.length_le_all
  have hnd' := hnd
  simp only [FixView.all, List.nodup_append, List.disjoint_left, List.mem_append] at hnd'
  obtain ⟨⟨⟨⟨n0, n1, d1⟩, n2, d2⟩, n3, d3⟩, n4, d4⟩ := hnd'
  have hL : ∀ q, q ∈ v.all → q ∉ L := hdis
  simp only [FixView.all, List.mem_append] at hL
  obtain ⟨x1, e1, m1, f1, g1, b1, t1, o1⟩ := delete_methods_chain hM v.afters inner _ L x hx c0
    n0 (fun q hq => hL q (by tauto)) (by omega)
  obtain ⟨x2, e2, m2, f2, g2, b2, t2, o2⟩ := delete_methods_chain hM v.after_classes inner _
    (L ++ v.afters) x1 m1 c1 n1
    (fun q hq h => by
      rcases List.mem_append.mp h with h | h
      · exact hL q (by tauto) h
      · exact d1 h hq) (by omega)
  obtain ⟨x3, e3, m3, f3, g3, b3, t3, o3⟩ := delete_methods_chain hM v.befores inner _
    (L ++ v.afters ++ v.after_classes) x2 m2 c2 n2
    (fun q hq h => by
      simp only [List.mem_append] at h
      rcases h with (h | h) | h
      · exact hL q (by tauto) h
      · exact d2 (Or.inl h) hq
      · exact d2 (Or.inr h) hq) (by omega)
  obtain ⟨x4, e4, m4, f4, g4, b4, t4, o4⟩ := delete_methods_chain hM v.before_classes inner _
    (L ++ v.afters ++ v.after_classes ++ v.befores) x3 m3 c3 n3
    (fun q hq h => by
      simp only [List.mem_append] at h
      rcases h with ((h | h) | h) | h
      · exact hL q (by tauto) h
      · exact d3 (Or.inl (Or.inl h)) hq
      · exact d3 (Or.inl (Or.inr h)) hq
      · exact d3 (Or.inr h) hq) (by omega)
  obtain ⟨x5, e5, m5, f5, g5, b5, t5, o5⟩ := delete_methods_chain hM v.tests inner _
    (L ++ v.afters ++ v.after_classes ++ v.befores ++ v.before_classes) x4 m4 c4 n4
    (fun q hq h => by
      simp only [List.mem_append] at h
      rcases h with (((h | h) | h) | h) | h
      · exact hL q (by tauto) h
      · exact d4 (Or.inl (Or.inl (Or.inl h))) hq
      · exact d4 (Or.inl (Or.inl (Or.inr h))) hq
      · exact d4 (Or.inl (Or.inr h)) hq
      · exact d4 (Or.inr h) hq) (by omega)
  have k1 : x1.fixtures v.ptr = some fr := by rw [f1]; exact hfr
  have k2 : x2.fixtures v.ptr = some fr := by rw [f2]; exact k1
  have k3 : x3.fixtures v.ptr = some fr := by rw [f3]; exact k2
  have k4 : x4.fixtures v.ptr = some fr := by rw [f4]; exact k3
  refine ⟨x5, ?_, ?_, f5.trans (f4.trans (f3.trans (f2.trans f1))),
    g5.trans (g4.trans (g3.trans (g2.trans g1))), b5.trans (b4.trans (b3.trans (b2.trans b1))),
    t5.trans (t4.trans (t3.trans (t2.trans t1))), o5.trans (o4.trans (o3.trans (o2.trans o1)))⟩
  · intro k
    rw [e1, Option.some_bind, k1, Option.some_bind, e2, Option.some_bind, k2, Option.some_bind,
      e3, Option.some_bind, k3, Option.some_bind, e4, Option.some_bind, k4, Option.some_bind,
      e5, Option.some_bind]
  · intro q
    rw [m5 q]
    simp only [FixView.all, List.append_assoc]

theorem delete_fixtures_loop_chain (hM : Ptr → Option method) (hF : Ptr → Option fixture)
    (inner : Nat) (R : List FixView) :
    ∀ (fuel : Nat) (f : Ptr) (L F : List Ptr) (x : State),
      (∀ q, x.methods q = if q ∈ L then none else hM q) →
      (∀ q, x.fixtures q = if q ∈ F then none else hF q) →
      isFixChain hF f (R.map fun v => v.ptr) = true →
      (∀ v ∈ R, ∃ fr, hF v.ptr = some fr ∧ chainsOk hM fr v) →
      (R.map fun v => v.ptr).Nodup → (∀ v ∈ R, v.ptr ∉ F) →
      (R.flatMap FixView.all).Nodup → (∀ q ∈ R.flatMap FixView.all, q ∉ L) →
      (∀ v ∈ R, v.all.length < inner) → R.length < fuel →
      ∃ x', __delete_fixtures.loop inner fuel f x = some x' ∧
        (∀ q, x'.methods q = if q ∈ L ++ R.flatMap FixView.all then none else hM q) ∧
        (∀ q, x'.fixtures q = if q ∈ F ++ R.map (fun v => v.ptr) then none else hF q) ∧
        x'._fixtures = x._fixtures ∧ x'.brk = x.brk ∧ x'._stats = x._stats ∧ x'.out = x.out := by
  induction R with
  | nil =>
    intro fuel f L F x hx hxF hc _ _ _ _ _ _ hf
    obtain ⟨n, rfl⟩ : ∃ n, fuel = n + 1 := ⟨fuel - 1, by simp at hf; omega⟩
    exact ⟨x, by simp [__delete_fixtures.loop, isFixChain_nil.mp hc], by simpa using hx,
      by simpa using hxF, rfl, rfl, rfl, rfl⟩
  | cons v R ih =>
    intro fuel f L F x hx hxF hc hv hndp hF' hndm hL hin hf
    obtain ⟨n, rfl⟩ : ∃ n, fuel = n + 1 := ⟨fuel - 1, by simp at hf; omega⟩
    obtain ⟨rfl, hne, r, hr, hk⟩ := isFixChain_cons.mp hc
    obtain ⟨fr, hfr, hch⟩ := hv v (List.mem_cons_self _ _)
    obtain rfl : r = fr := by rw [hr] at hfr; exact Option.some.inj hfr
    have hxv : x.fixtures v.ptr = some r := by
      rw [hxF v.ptr, if_neg (hF' v (List.mem_cons_self _ _))]; exact hr
    rw [List.flatMap_cons, List.nodup_append] at hndm
    obtain ⟨hva, hRa, hdis⟩ := hndm
    rw [List.map_cons, List.nodup_cons] at hndp
    obtain ⟨hvp, hRp⟩ := hndp
    obtain ⟨x5, e5, m5, f5, g5, b5, t5, o5⟩ := delete_view hM inner v r L x hx hxv hch hva
      (fun q hq => hL q (by rw [List.flatMap_cons]; exact List.mem_append_left _ hq))
      (hin v (List.mem_cons_self _ _))
    have hx5v : x5.fixtures v.ptr = some r := by rw [f5]; exact hxv
    obtain ⟨x', h1, h2, h3, h4, h5, h6, h7⟩ := ih n r._next (L ++ v.all) (F ++ [v.ptr])
      (x5.freeFixture v.ptr) m5
      (by
        intro q
        by_cases e : q = v.ptr
        · simp [State.freeFixture, e]
        · simp [State.freeFixture, e, f5, hxF q])
      hk (fun w hw => hv w (List.mem_cons_of_mem _ hw)) hRp
      (by
        intro w hw h
        rcases List.mem_append.mp h with h | h
        · exact hF' w (List.mem_cons_of_mem _ hw) h
        · exact hvp (by rw [← List.mem_singleton.mp h]; exact List.mem_map.mpr ⟨w, hw, rfl⟩))
      hRa
      (by
        intro q hq h
        rcases List.mem_append.mp h with h | h
        · exact hL q (by rw [List.flatMap_cons]; exact List.mem_append_right _ hq) h
        · exact hdis h hq)
      (fun w hw => hin w (List.mem_cons_of_mem _ hw)) (by simp at hf; omega)
    refine ⟨x', ?_, ?_, ?_, h4.trans g5, h5.trans b5, h6.trans t5, h7.trans o5⟩
    · rw [delete_fixtures_loop_succ, if_neg hne, hxv, Option.some_bind, e5, hx5v,
        Option.some_bind]
      exact h1
    · intro q
      rw [h2 q]
      simp [List.append_assoc]
    · intro q
      rw [h3 q]
      simp [List.append_assoc]

/-- The destructor on a Registry `R` whose records are not shared: with fuel
above the size of the Registry it returns, every record of `R` is deleted
and the Registry is empty. -/
theorem destructor_spec (fuel : Nat) (s : State) (R : List FixView)
    (hR : represents s R = true) (hS : separated s R = true) (hf : span R < fuel) :
    ∃ s', TestFixture.destructor fuel s = some s' ∧ s'._fixtures = 0 ∧
      (∀ q, s'.methods q = if q ∈ R.flatMap FixView.all then none else s.methods q) ∧
      (∀ q, s'.fixtures q = if q ∈ R.map (fun v => v.ptr) then none else s.fixtures q) ∧
      s'.brk = s.brk ∧ s'._stats = s._stats ∧ s'.out = s.out := by
  obtain ⟨hc, hv⟩ := represents_iff.mp hR
  obtain ⟨hndp, hndm, _, _⟩ := separated_iff.mp hS
  have hb := @span_bounds R
  obtain ⟨x', h1, h2, h3, _, h5, h6, h7⟩ := delete_fixtures_loop_chain s.methods s.fixtures
    fuel R fuel s._fixtures [] [] s (by simp) (by simp) hc hv hndp (by simp) hndm (by simp)
    (fun v hv' => lt_trans (hb.2 v hv') hf) (lt_of_le_of_lt hb.1 hf)
  refine ⟨{ x' with _fixtures := 0 }, ?_, rfl, by simpa using h2, by simpa using h3, h5, h6, h7⟩
  simp [TestFixture.destructor, __delete_fixtures, h1]

/-! ## The name of a method -/

/-- The copy loop writes past `_name[255]` exactly when the name has more
than `256 - dest` characters before its terminating zero. -/
theorem copy_eq_none_iff (cs : List Nat) :
    ∀ (dest : Nat) (buf : List Nat), dest ≤ 256 →
      (method.copy cs dest buf = none ↔ 256 < dest + (cs.takeWhile (· ≠ 0)).length) := by
  induction cs with
  | nil => intro dest buf h; simp [method.copy]; omega
  | cons c cs ih =>
    intro dest buf h
    by_cases hc : c = 0
    · simp [method.copy, hc]; omega
    · by_cases hd : dest < 256
      · have := ih (dest + 1) (buf.set dest c) (by omega)
        simp only [method.copy, hc, if_false, hd, if_true, this, List.takeWhile_cons, ne_eq,
          not_false_eq_true, decide_True, List.length_cons]
        rw [Nat.add_assoc, Nat.add_comm 1]
      · simp only [method.copy, hc, if_false, hd, List.takeWhile_cons, ne_eq,
          not_false_eq_true, decide_True, List.length_cons, true_iff, if_true]
        omega

/-- What the copy loop leaves in the buffer: the characters of the name from
index `dest` on, and after them what the buffer held before; no terminating
zero is written. -/
theorem copy_spec (cs : List Nat) :
    ∀ (dest : Nat) (buf : List Nat), (∀ c ∈ cs, c ≠ 0) → dest + cs.length ≤ 256 →
      buf.length = 256 →
      method.copy cs dest buf = some (buf.take dest ++ cs ++ buf.drop (dest + cs.length)) := by
  induction cs with
  | nil => intro dest buf _ _ _; simp [method.copy]
  | cons c cs ih =>
    intro dest buf hcs hlen hbuf
    have hc : c ≠ 0 := hcs c (List.mem_cons_self _ _)
    have hd : dest < 256 := by simp at hlen; omega
    have hdl : dest < buf.length := by omega
    simp only [method.copy, hc, if_false, hd, if_true]
    rw [ih (dest + 1) (buf.set dest c) (fun x hx => hcs x (List.mem_cons_of_mem _ hx))
      (by simp at hlen ⊢; omega) (by simp [hbuf])]
    have e1 : (buf.set dest c).take (dest + 1) = buf.take dest ++ [c] := by
      rw [List.set_eq_take_append_cons_drop, if_pos hdl]
      have hl : (buf.take dest).length = dest := by simp; omega
      rw [List.take_append_eq_append_take, hl]
      simp
    have e2 : (buf.set dest c).drop (dest + 1 + cs.length) = buf.drop (dest + (cs.length + 1)) := by
      rw [List.drop_set_of_lt c buf (by omega)]
      congr 1
      omega
    rw [e1, e2]
    simp

/-- C13: the first destruction clears the Registry. On a Registry whose
records are not shared the destructor of any fixture object, with fuel above
the size of the Registry, returns having deleted every fixture record and
every method of the Registry, and the Registry is empty; a destructor that
runs after it finds the Registry empty and changes nothing. -/
theorem C13_first_destruction_empties_the_registry (fuel : Nat) (s : State)
    (R : List FixView) (hR : represents s R = true) (hS : separated s R = true)
    (hf : span R < fuel) :
    ∃ s', TestFixture.destructor fuel s = some s' ∧ s'._fixtures = 0 ∧
      represents s' [] = true ∧
      (∀ v ∈ R, s'.fixtures v.ptr = none ∧ ∀ m ∈ v.all, s'.methods m = none) ∧
      s'._stats = s._stats ∧ s'.out = s.out ∧
      TestFixture.destructor fuel s' = some s' := by
  obtain ⟨s', h1, h2, h3, h4, _, h6, h7⟩ := destructor_spec fuel s R hR hS hf
  refine ⟨s', h1, h2, by simp [represents, isFixChain, h2], ?_, h6, h7, ?_⟩
  · intro v hv
    refine ⟨by rw [h4, if_pos (List.mem_map.mpr ⟨v, hv, rfl⟩)], fun m hm => ?_⟩
    rw [h3, if_pos (List.mem_flatMap.mpr ⟨v, hv, hm⟩)]
  · obtain ⟨n, rfl⟩ : ∃ n, fuel = n + 1 := ⟨fuel - 1, by omega⟩
    simp only [TestFixture.destructor, __delete_fixtures, h2, __delete_fixtures.loop, if_true,
      Option.bind_eq_bind, Option.some_bind]
    cases s'
    simp only at h2
    subst h2
    rfl

set_option maxRecDepth 100000 in
/-- C14: the constructor of `method` writes past the end of `_name` exactly
when the name has more than 256 characters before its terminating zero, as a
name of 257 characters has; the registering members then have no defined
result either. -/
theorem C14_name_longer_than_the_buffer_is_written_past_its_end :
    (∀ (raw : List Nat) (obj addr : Nat) (cs : CStr) (type : Nat),
      method.method raw obj addr (some cs) type = none ↔
        256 < (cs.takeWhile (· ≠ 0)).length) ∧
    method.method (List.replicate 256 0) 1 0 (some (List.replicate 257 65)) TEST_METHOD = none ∧
    Test (List.replicate 256 0) 1 0 (some (List.replicate 257 65)) State.init = none := by
  have key : ∀ (raw : List Nat) (obj addr : Nat) (cs : CStr) (type : Nat),
      method.method raw obj addr (some cs) type = none ↔
        256 < (cs.takeWhile (· ≠ 0)).length := by
    intro raw obj addr cs type
    have := copy_eq_none_iff cs 0 raw (by omega)
    simp only [Nat.zero_add] at this
    simp only [method.method, Option.map_eq_none', this]
  have h257 : 256 < ((List.replicate 257 65).takeWhile (· ≠ 0)).length := by decide
  refine ⟨key, (key _ _ _ _ _).mpr h257, ?_⟩
  simp only [Test, (key _ _ _ _ _).mpr h257, Option.map_none']

/-- What the constructor of `method` leaves in `_name` for a name that fits:
the characters of the name, then what the storage held before. -/
theorem method_name_spec (raw : List Nat) (obj addr : Nat) (cs : CStr) (type : Nat)
    (hcs : ∀ c ∈ cs, c ≠ 0) (hlen : cs.length ≤ 256) (hraw : raw.length = 256) :
    method.method raw obj addr (some cs) type =
      some ⟨obj, addr, cs ++ raw.drop cs.length, type, 0⟩ := by
  have := copy_spec cs 0 raw hcs (by omega) hraw
  simp only [List.take_zero, List.nil_append, Nat.zero_add] at this
  simp [method.method, this]

set_option maxRecDepth 100000 in
/-- C15: with storage that held the character `1` everywhere, the constructor
given the name `t` leaves `t` followed by 255 characters `1` and no zero, and
given a null name leaves the storage as it was; the RUN line of a test so
named prints all 256 characters. -/
theorem C15_constructor_writes_no_terminating_zero :
    (method.method (List.replicate 256 1) 1 0 (some [116]) TEST_METHOD).map
        (fun m => (m._name.take 3, m._name.length, decide (0 ∈ m._name), (cstr m._name).length))
      = some ([116, 1, 1], 256, false, 256) ∧
    (method.method (List.replicate 256 1) 1 0 none TEST_METHOD).map
        (fun m => (cstr m._name).length) = some 256 ∧
    (Tests.Run (fun _ _ => []) 5 Garbled.state).map
        (fun r => (printedNames r.2.out).map fun n => (n.take 3, n.length))
      = some [([116, 1, 1], 256)] := by
  refine ⟨by decide, by decide, by decide⟩

/-! ## The order of the descriptors -/

theorem isChain_head {h : Ptr → Option method} {l : List Ptr} {p : Ptr}
    (hc : isChain h p l = true) : p = l.headD 0 := by
  cases l with
  | nil => exact isChain_nil.mp hc
  | cons x xs => exact (isChain_cons.mp hc).1

/-- Two heaps in which the same chain starts at the same place give its
methods the same links. -/
theorem isChain_links {h h' : Ptr → Option method} {l : List Ptr} :
    ∀ {p : Ptr}, isChain h p l = true → isChain h' p l = true → l.Nodup →
      ∀ q ∈ l, (h q).map (fun r => r._next) = (h' q).map fun r => r._next := by
  induction l with
  | nil => intro p _ _ _ q hq; cases hq
  | cons x xs ih =>
    intro p hc hc' hnd q hq
    obtain ⟨rfl, _, r, hr, hk⟩ := isChain_cons.mp hc
    obtain ⟨_, _, r', hr', hk'⟩ := isChain_cons.mp hc'
    have e : r._next = r'._next := (isChain_head hk).trans (isChain_head hk').symm
    rcases List.mem_cons.mp hq with rfl | hq
    · simp [hr, hr', e]
    · exact ih hk (e ▸ hk') (List.nodup_cons.mp hnd).2 q hq

theorem fixture_ext_get {a b : fixture} (h : ∀ i, i ≤ 4 → a.get i = b.get i)
    (hn : a._next = b._next) : a = b := by
  have h0 := h 0 (by omega)
  have h1 := h 1 (by omega)
  have h2 := h 2 (by omega)
  have h3 := h 3 (by omega)
  have h4 := h 4 (by omega)
  simp only [fixture.get, AFTER_METHOD, AFTER_CLASS_METHOD, BEFORE_METHOD,
    BEFORE_CLASS_METHOD] at h0 h1 h2 h3 h4
  cases a; cases b
  simp_all

theorem method_eq_of_unlinked {a b : method} (h : a.unlinked = b.unlinked)
    (hn : a._next = b._next) : a = b := by
  cases a; cases b
  simp only [method.unlinked, method.mk.injEq] at h
  simp_all

/-- C17: two descriptor lists that are permutations of each other and hold the
descriptors of each role in the same order make the constructor build the
same fixture record, with the same chains of the same methods, and `Run`
then invokes the same hooks in the same order: where a BEFORE or AFTER hook
stands among the descriptors of the other roles changes nothing. -/
theorem C17_place_of_a_hook_among_other_roles_changes_nothing (P : Program) (fuel : Nat)
    (args args' : List Ptr) (s : State) (R : List FixView)
    (hR : represents s R = true) (hS : separated s R = true) (hlen : args.length ≤ 30)
    (hnd : args.Nodup) (hfresh : ∀ M ∈ args, M ≠ 0 ∧ freshDescriptor s R M = true)
    (hperm : List.Perm args args')
    (hrole : ∀ i, i ≤ 4 → chainOf s.methods args i = chainOf s.methods args' i)
    (hf : R.length + 30 < fuel) (hf2 : span (R ++ [newView s.methods s.brk args]) < fuel) :
    ∃ s1 s2 fr, TestFixture.TestFixture fuel args s = some s1 ∧
      TestFixture.TestFixture fuel args' s = some s2 ∧
      s1.fixtures s.brk = some fr ∧ s2.fixtures s.brk = some fr ∧
      represents s1 (R ++ [newView s.methods s.brk args]) = true ∧
      represents s2 (R ++ [newView s.methods s.brk args]) = true ∧
      (∀ q, s1.methods q = s2.methods q) ∧
      ∃ r1 r2, Tests.Run P fuel s1 = some r1 ∧ Tests.Run P fuel s2 = some r2 ∧
        invocations r1.2.out =
          invocations s.out ++ hookOrder (R ++ [newView s.methods s.brk args]) ∧
        invocations r2.2.out = invocations r1.2.out := by
  have hview : newView s.methods s.brk args' = newView s.methods s.brk args := by
    simp only [newView, AFTER_METHOD, AFTER_CLASS_METHOD, BEFORE_METHOD, BEFORE_CLASS_METHOD,
      TEST_METHOD, hrole 0 (by omega), hrole 1 (by omega), hrole 2 (by omega),
      hrole 3 (by omega), hrole 4 (by omega)]
  obtain ⟨s1, a1, a2, a3, a4, a5, _, _, a8⟩ := ctor_spec fuel args s R hR hS hlen
    (hnd.filter _) (fun M hM _ => (hfresh M hM).2) hf
  obtain ⟨s2, b1, b2, b3, b4, b5, _, _, b8⟩ := ctor_spec fuel args' s R hR hS
    (by rw [← hperm.length_eq]; exact hlen) ((hperm.nodup_iff.mp hnd).filter _)
    (fun M hM _ => (hfresh M (hperm.mem_iff.mpr hM)).2) hf
  rw [hview] at b2 b3
  obtain ⟨fr1, hfr1, hch1⟩ := (represents_iff.mp a2).2 (newView s.methods s.brk args) (by simp)
  obtain ⟨fr2, hfr2, hch2⟩ := (represents_iff.mp b2).2 (newView s.methods s.brk args) (by simp)
  have hptr : (newView s.methods s.brk args).ptr = s.brk := rfl
  rw [hptr] at hfr1 hfr2
  -- the two fixture records are the same
  have hn1 : fr1._next = 0 := by
    have hc := (represents_iff.mp a2).1
    rw [List.map_append, List.map_cons, List.map_nil] at hc
    obtain ⟨r, hr, h0⟩ := isFixChain_last hc
    rw [hptr, hfr1] at hr
    rw [Option.some.inj hr]; exact h0
  have hn2 : fr2._next = 0 := by
    have hc := (represents_iff.mp b2).1
    rw [List.map_append, List.map_cons, List.map_nil] at hc
    obtain ⟨r, hr, h0⟩ := isFixChain_last hc
    rw [hptr, hfr2] at hr
    rw [Option.some.inj hr]; exact h0
  have hall1 := chainsOk_iff_forall.mp hch1
  have hall2 := chainsOk_iff_forall.mp hch2
  have hfr : fr1 = fr2 := fixture_ext_get
    (fun i hi => (isChain_head (hall1 i hi)).trans (isChain_head (hall2 i hi)).symm)
    (hn1.trans hn2.symm)
  subst hfr
  -- and so are the methods
  have hm : ∀ q, s1.methods q = s2.methods q := by
    intro q
    by_cases hq : q ∈ args
    · obtain ⟨hq0, hqf⟩ := hfresh q hq
      obtain ⟨r, h1, _, h3, _⟩ := freshDescriptor_iff.mp hqf
      have hqc : q ∈ (newView s.methods s.brk args).chain r._type := by
        rw [newView_chain _ _ _ _ h3]
        exact mem_chainOf.mpr ⟨hq, hq0, by simp [roleOf, h1]⟩
      have hnd' := chain_nodup (newView_all_nodup s.methods s.brk args (hnd.filter _)) _ h3
      have hl := isChain_links (hall1 _ h3) (hall2 _ h3) hnd' q hqc
      obtain ⟨r1, hr1⟩ := isChain_mem (hall1 _ h3) q hqc
      obtain ⟨r2, hr2⟩ := isChain_mem (hall2 _ h3) q hqc
      have hk := (a4 q).trans (b4 q).symm
      rw [hr1, hr2] at hl hk
      simp only [Option.map_some', Option.some.injEq] at hl hk
      rw [hr1, hr2, method_eq_of_unlinked hk hl]
    · rw [a5 q hq, b5 q (fun h => hq (hperm.mem_iff.mpr h))]
  have i1 := runSpec_invocations P s1 _ a2
  have i2 := runSpec_invocations P s2 _ b2
  rw [a8] at i1
  rw [b8] at i2
  exact ⟨s1, s2, fr1, a1, b1, hfr1, hfr2, a2, b2, hm, runSpec P _ s1, runSpec P _ s2,
    do_run_eq_runSpec P s1 _ fuel a2 hf2, do_run_eq_runSpec P s2 _ fuel b2 hf2, i1,
    i2.trans i1.symm⟩

/-! ## Instances on the small program -/

theorem C1_witness :
    represents Demo.state Demo.registry = true ∧ span Demo.registry < 20 ∧
    ∃ r, Tests.Run Demo.program 20 Demo.state = some r ∧
      invocations r.2.out = invocations Demo.state.out ++ hookOrder Demo.registry :=
  ⟨by decide, by decide,
    C1_run_invokes_hooks_in_lifecycle_order Demo.program Demo.state Demo.registry 20
      (by decide) (by decide)⟩

theorem C2_witness :
    viewOk Demo.state Demo.first = true ∧ Demo.first.all.length < 20 ∧
    (∃ s', __do_tests Demo.program 20 Demo.first.ptr Demo.state = some s' ∧
      s'._stats._passes = Demo.state._stats._passes +
        (Demo.first.tests.countP fun t => !testFails Demo.program Demo.state.methods t) ∧
      s'._stats._failures = Demo.state._stats._failures +
        (Demo.first.tests.countP fun t => testFails Demo.program Demo.state.methods t)) ∧
    (__do_tests Demo.program 20 Demo.first.ptr Demo.state).map
      (fun s' => (s'._stats._passes, s'._stats._failures)) = some (1, 1) :=
  ⟨by decide, by decide,
    let ⟨s', h1, h2, h3, _⟩ := C2_each_test_adds_one_pass_or_one_failure Demo.program
      Demo.state Demo.first 20 (by decide) (by decide)
    ⟨s', h1, h2, h3⟩,
    by decide⟩

theorem C5_witness :
    represents Demo.state Demo.registry = true ∧ span Demo.registry < 20 ∧
    Demo.state._stats = stats.stats ∧
    ∃ r, Tests.Run Demo.program 20 Demo.state = some r ∧
      r.1 = failingTests Demo.program Demo.state.methods Demo.registry ∧
      failingTests Demo.program Demo.state.methods Demo.registry = 3 :=
  ⟨by decide, by decide, by decide,
    let ⟨r, h1, h2, _⟩ := C5_run_returns_number_of_failed_tests Demo.program Demo.state
      Demo.registry 20 (by decide) (by decide) (by decide)
    ⟨r, h1, h2, by decide⟩⟩

/-- C6: on the fixture whose only test is `FAIL(); FAIL();`, `Run` returns 1
while the assertion counter stands at 2. -/
theorem C6_run_returns_failed_tests_not_failed_assertions :
    (Tests.Run Twice.program 5 Twice.state).map (fun r => (r.1, r.2._stats._assertions)) =
      some (1, 2) := by
  decide

theorem C7_witness :
    (∀ st ∈ ([] : List Stmt), st.expand ≠ tpunit.ABORT) ∧ Stmt.ABORT.expand = tpunit.ABORT ∧
    viewOk Demo.state Demo.second = true ∧ Demo.second.all.length < 20 ∧
    (runBody ([] ++ Stmt.ABORT :: [Stmt.FAIL]) Demo.state)._stats._assertions =
      (runBody [] Demo.state)._stats._assertions + 1 ∧
    raised [Stmt.ABORT, Stmt.FAIL] = 1 ∧
    testFails Demo.program Demo.state.methods 7 = true :=
  ⟨by simp, rfl, by decide, by decide,
    (C7_abort_ends_the_body_not_the_fixture Demo.program [] [Stmt.FAIL] Stmt.ABORT Demo.state
      Demo.second 20 (by simp) rfl (by decide) (by decide)).1,
    by decide, by decide⟩

theorem C8_witness :
    (∀ st ∈ [Stmt.EXPECT_TRUE false, Stmt.other 0, Stmt.FAIL, Stmt.TRACE []],
      st.expand ≠ tpunit.ABORT) ∧
    (runBody [Stmt.EXPECT_TRUE false, Stmt.other 0, Stmt.FAIL, Stmt.TRACE []]
      State.init)._stats._assertions = 2 :=
  ⟨by decide,
    (C8_failures_without_abort_raise_counter_by_their_number
      [Stmt.EXPECT_TRUE false, Stmt.other 0, Stmt.FAIL, Stmt.TRACE []] State.init
      (by decide)).2.1.trans (by decide)⟩

theorem C9_witness :
    represents Demo.state Demo.registry = true ∧ span Demo.registry < 20 ∧
    ∃ r r', Tests.Run Demo.program 20 Demo.state = some r ∧
      Tests.Run (fun this addr => (Demo.program this addr).filter fun st => !st.isTrace) 20
        Demo.state = some r' ∧
      r.1 = r'.1 ∧ r.2._stats._passes = r'.2._stats._passes ∧
      r.2._stats._failures = r'.2._stats._failures :=
  ⟨by decide, by decide,
    (C9_trace_changes_no_classification Demo.program
      (fun this addr => (Demo.program this addr).filter fun st => !st.isTrace) Demo.state
      Demo.registry 20 (by decide) (by decide)
      (fun this addr => by simp [List.filter_filter])).2.2.2.2⟩

theorem C3_witness :
    (∀ c ∈ Demo.constructions, c.2.length ≤ 30 ∧ namesFit c.2 = true) ∧
    Demo.constructions.length + 30 < 40 ∧ 2 ≤ Demo.constructions.length ∧
    ∃ s', constructAll 40 (Demo.constructions.take 2) State.init = some s' ∧
      represents s' ((layout 1 Demo.constructions).take 2) = true ∧
      (layout 1 Demo.constructions).take 2 = Demo.registry :=
  ⟨by decide, by decide, by decide,
    let ⟨s', h1, h2, _⟩ := C3_registry_lists_fixtures_in_construction_order 40
      Demo.constructions (by decide) (by decide) 2 (by decide)
    ⟨s', h1, h2, by decide⟩⟩

theorem C4_witness :
    represents Demo.described.2 [Demo.first] = true ∧
    separated Demo.described.2 [Demo.first] = true ∧
    [6, 7, 8, 9].length ≤ 30 ∧ [6, 7, 8, 9].Nodup ∧
    (∀ M ∈ [6, 7, 8, 9], M ≠ 0 ∧ freshDescriptor Demo.described.2 [Demo.first] M = true) ∧
    [Demo.first].length + 30 < 40 ∧
    ∃ s' fr, TestFixture.TestFixture 40 [6, 7, 8, 9] Demo.described.2 = some s' ∧
      s'.fixtures Demo.described.2.brk = some fr ∧
      isChain s'.methods fr._tests
        ([6, 7, 8, 9].filter fun M => roleOf Demo.described.2.methods M == some TEST_METHOD)
        = true ∧
      ([6, 7, 8, 9].filter fun M => roleOf Demo.described.2.methods M == some TEST_METHOD)
        = [7, 8] :=
  ⟨by decide, by decide, by decide, by decide, by decide, by decide,
    let ⟨s', fr, h1, h2, _, _, _, _, h7, _⟩ := C4_each_chain_holds_the_descriptors_of_its_role 40
      [6, 7, 8, 9] Demo.described.2 [Demo.first] (by decide) (by decide) (by decide)
      (by decide) (by decide) (by decide)
    ⟨s', fr, h1, h2, h7, by decide⟩⟩

theorem C10_witness :
    Demo.described.1 = [6, 7, 0, 8, 9] ∧
    represents Demo.described.2 [Demo.first] = true ∧
    separated Demo.described.2 [Demo.first] = true ∧
    [6, 7, 0, 8, 9].length ≤ 30 ∧ ([6, 7, 0, 8, 9].filter fun M => M != 0).Nodup ∧
    (∀ M ∈ [6, 7, 0, 8, 9], M ≠ 0 → freshDescriptor Demo.described.2 [Demo.first] M = true) ∧
    [Demo.first].length + 30 < 40 ∧
    TestFixture.TestFixture 40 [6, 7, 0, 8, 9] Demo.described.2 =
      TestFixture.TestFixture 40 ([6, 7, 0, 8, 9].filter fun M => M != 0) Demo.described.2 :=
  ⟨by decide, by decide, by decide, by decide, by decide, by decide, by decide,
    (C10_null_descriptors_are_skipped 40 [6, 7, 0, 8, 9] Demo.described.2 [Demo.first]
      (by decide) (by decide) (by decide) (by decide) (by decide) (by decide)).1⟩

theorem C11_witness :
    represents Demo.state Demo.registry = true ∧ separated Demo.state Demo.registry = true ∧
    span Demo.registry < 20 ∧
    ∃ r, Tests.Run Demo.program 20 Demo.state = some r ∧
      r.2._stats._passes + r.2._stats._failures =
        Demo.state._stats._passes + Demo.state._stats._failures +
          ((Demo.registry.flatMap fun v => v.tests).length : Nat) ∧
      (Demo.registry.flatMap fun v => v.tests).length = 4 :=
  ⟨by decide, by decide, by decide,
    let ⟨r, h1, _, _, h4⟩ := C11_every_registered_test_runs_once Demo.program Demo.state
      Demo.registry 20 (by decide) (by decide) (by decide)
    ⟨r, h1, h4, by decide⟩⟩

theorem C12_witness :
    represents Bare.state ([] ++ Bare.first :: [Bare.second]) = true ∧
    span ([] ++ Bare.first :: [Bare.second]) < 20 ∧ Bare.first.tests = [] ∧
    ∃ r, Tests.Run Demo.program 20 Bare.state = some r ∧
      invocations r.2.out =
        invocations Bare.state.out ++ hookOrder [] ++
          (Bare.first.before_classes ++ Bare.first.after_classes) ++ hookOrder [Bare.second] :=
  ⟨by decide, by decide, rfl,
    let ⟨r, h1, h2, _⟩ := C12_fixture_without_tests_runs_only_class_hooks Demo.program
      Bare.state [] [Bare.second] Bare.first 20 (by decide) (by decide) rfl
    ⟨r, h1, h2⟩⟩

/-- C13: with the two fixtures of the small program constructed, the
destructor of one of them leaves no record of the other in the Registry: the
Registry is empty and both fixture records are deleted. -/
theorem C13_one_destruction_deletes_the_records_of_the_others :
    (TestFixture.destructor 40 Demo.state).map
        (fun s' => (s'._fixtures, s'.fixtures Demo.first.ptr, s'.fixtures Demo.second.ptr,
          represents s' [Demo.first], represents s' [Demo.second], represents s' []))
      = some (0, none, none, false, false, true) := by
  decide

theorem C13_witness :
    represents Demo.state Demo.registry = true ∧ separated Demo.state Demo.registry = true ∧
    span Demo.registry < 40 ∧
    ∃ s', TestFixture.destructor 40 Demo.state = some s' ∧ s'._fixtures = 0 ∧
      represents s' [] = true :=
  ⟨by decide, by decide, by decide,
    let ⟨s', h1, h2, h3, _⟩ := C13_first_destruction_empties_the_registry 40 Demo.state
      Demo.registry (by decide) (by decide) (by decide)
    ⟨s', h1, h2, h3⟩⟩

theorem C16_witness :
    represents Demo.state Demo.registry = true ∧ span Demo.registry < 20 ∧
    (∀ v ∈ Demo.registry, ∀ t ∈ v.tests,
      testFails Demo.failingHooks Demo.state.methods t =
        testFails (fun _ _ => []) Demo.state.methods t) ∧
    (∃ r r', Tests.Run Demo.failingHooks 20 Demo.state = some r ∧
      Tests.Run (fun _ _ => []) 20 Demo.state = some r' ∧ r.1 = r'.1) ∧
    (Tests.Run Demo.failingHooks 20 Demo.state).map (fun r => (r.1, r.2._stats._assertions))
      = some (0, 4) :=
  ⟨by decide, by decide, by decide,
    let ⟨r, r', h1, h2, h3, _⟩ := C16_failures_in_hooks_change_no_classification
      Demo.failingHooks (fun _ _ => []) Demo.state Demo.registry 20 (by decide) (by decide)
      (by decide)
    ⟨r, r', h1, h2, h3⟩,
    by decide⟩

theorem C17_witness :
    represents Demo.described.2 [Demo.first] = true ∧
    separated Demo.described.2 [Demo.first] = true ∧
    [6, 7, 8, 9].length ≤ 30 ∧ [6, 7, 8, 9].Nodup ∧
    (∀ M ∈ [6, 7, 8, 9], M ≠ 0 ∧ freshDescriptor Demo.described.2 [Demo.first] M = true) ∧
    List.Perm [6, 7, 8, 9] [7, 9, 8, 6] ∧
    (∀ i, i ≤ 4 → chainOf Demo.described.2.methods [6, 7, 8, 9] i =
      chainOf Demo.described.2.methods [7, 9, 8, 6] i) ∧
    [Demo.first].length + 30 < 40 ∧
    span ([Demo.first] ++ [newView Demo.described.2.methods Demo.described.2.brk [6, 7, 8, 9]])
      < 40 ∧
    (∃ s1 s2 fr, TestFixture.TestFixture 40 [6, 7, 8, 9] Demo.described.2 = some s1 ∧
      TestFixture.TestFixture 40 [7, 9, 8, 6] Demo.described.2 = some s2 ∧
      s1.fixtures Demo.described.2.brk = some fr ∧
      s2.fixtures Demo.described.2.brk = some fr) ∧
    (newView Demo.described.2.methods Demo.described.2.brk [7, 9, 8, 6]).hookOrder
      = [6, 7, 9, 6, 8, 9] :=
  ⟨by decide, by decide, by decide, by decide, by decide, by decide, by decide, by decide,
    by decide,
    let ⟨s1, s2, fr, h1, h2, h3, h4, _⟩ := C17_place_of_a_hook_among_other_roles_changes_nothing
      Demo.program 40 [6, 7, 8, 9] [7, 9, 8, 6] Demo.described.2 [Demo.first] (by decide)
      (by decide) (by decide) (by decide) (by decide) (by decide) (by decide) (by decide)
      (by decide)
    ⟨s1, s2, fr, h1, h2, h3, h4⟩,
    by decide⟩

theorem C18_witness :
    represents Demo.state Demo.registry = true ∧ span Demo.registry < 20 ∧
    (∃ r, Tests.Run Demo.program 20 Demo.state = some r ∧
      r.1 = Demo.state._stats._failures +
        failingTests Demo.program Demo.state.methods Demo.registry) ∧
    ((Tests.Run Demo.program 20 Demo.state).bind fun r => Tests.Run Demo.program 20 r.2).map
      (fun r' => r'.1) = some 6 ∧
    (Tests.Run Demo.program 20 Demo.state).map (fun r => r.2._stats) =
      some { _assertions := 6, _failures := 3, _passes := 1, _traces := 3 } ∧
    ((Tests.Run Demo.program 20 Demo.state).bind fun r => Tests.Run Demo.program 20 r.2).map
      (fun r' => r'.2._stats) =
      some { _assertions := 12, _failures := 6, _passes := 2, _traces := 6 } :=
  ⟨by decide, by decide,
    let ⟨r, h1, h2, _⟩ := C18_run_keeps_registry_and_accumulates Demo.program Demo.state
      Demo.registry 20 (by decide) (by decide)
    ⟨r, h1, h2⟩,
    by decide, by decide, by decide⟩

end tpunit
